import Mathlib

/-!
Verification of the copy-on-write B+ tree core of the `build-your-own-database`
repository (package `btree`, files `node.go` and the tree engine with
`Insert` / `Delete` / `Search` / `Traverse`).

The embedding is a shallow one at the level of decoded pages: a page (`BNode`)
is its node type together with its list of entries (child pointer, key bytes,
value bytes), exactly the data the byte codec of `node.go` stores.  All byte
counts (`nbytes`, the offset table, the split arithmetic) are computed by the
same formulas the codec uses: header 4 bytes, 8 bytes per child pointer,
2 bytes per offset slot, and `4 + len(key) + len(val)` bytes per record.
The storage callbacks (`Get`/`New`/`Del`) are modelled by an explicit page
store (association list plus a fresh-identifier counter) and every callback
invocation is recorded in an event trace.  `Del` keeps the binding, matching
the reference file-backed store whose free is a no-op; the event is recorded.
Assertion failures and panics of the Go code (out-of-range index, split
invariant violations, reading a missing page where the code would dereference
a nil slice) are modelled as `Option.none`; machine-integer wrap-around is
made explicit where it is observable (the `i - 1` underflow in `nodeLookupLE`
that produces the 0xFFFF sentinel).
-/

namespace BTreeSpec

/-! ## Byte strings and Go `bytes.Compare` -/

/-- Unsigned lexicographic comparison of byte strings, as `bytes.Compare`:
a strict prefix is smaller. -/
def cmpB : List Nat → List Nat → Ordering
  | [], [] => .eq
  | [], _ :: _ => .lt
  | _ :: _, [] => .gt
  | a :: as, b :: bs =>
    if a < b then .lt else if b < a then .gt else cmpB as bs

theorem cmpB_self (a : List Nat) : cmpB a a = .eq := by
  induction a with
  | nil => rfl
  | cons x xs ih => simp [cmpB, ih]

theorem cmpB_eq_iff {a b : List Nat} : cmpB a b = .eq ↔ a = b := by
  constructor
  · intro h
    induction a generalizing b with
    | nil => cases b with
      | nil => rfl
      | cons y ys => simp [cmpB] at h
    | cons x xs ih =>
      cases b with
      | nil => simp [cmpB] at h
      | cons y ys =>
        by_cases hxy : x < y
        · simp [cmpB, hxy] at h
        · by_cases hyx : y < x
          · simp [cmpB, hxy, hyx] at h
          · have hx : x = y := Nat.le_antisymm (Nat.le_of_not_lt hyx) (Nat.le_of_not_lt hxy)
            simp [cmpB, hxy, hyx] at h
            simp [hx, ih h]
  · rintro rfl; exact cmpB_self a

theorem cmpB_gt_iff_lt {a b : List Nat} : cmpB a b = .gt ↔ cmpB b a = .lt := by
  induction a generalizing b with
  | nil => cases b <;> simp [cmpB]
  | cons x xs ih =>
    cases b with
    | nil => simp [cmpB]
    | cons y ys =>
      by_cases hxy : x < y
      · have : ¬ y < x := Nat.lt_asymm hxy
        simp [cmpB, hxy, this]
      · by_cases hyx : y < x
        · simp [cmpB, hxy, hyx]
        · simp [cmpB, hxy, hyx, ih]

theorem cmpB_trichotomy (a b : List Nat) :
    cmpB a b = .lt ∨ cmpB a b = .eq ∨ cmpB a b = .gt := by
  cases h : cmpB a b <;> simp

theorem cmpB_lt_trans {a b c : List Nat} :
    cmpB a b = .lt → cmpB b c = .lt → cmpB a c = .lt := by
  intro hab hbc
  induction a generalizing b c with
  | nil =>
    cases c with
    | nil =>
      cases b with
      | nil => exact hbc
      | cons y ys => simp [cmpB] at hbc
    | cons z zs => simp [cmpB]
  | cons x xs ih =>
    cases b with
    | nil => simp [cmpB] at hab
    | cons y ys =>
      cases c with
      | nil => simp [cmpB] at hbc
      | cons z zs =>
        by_cases hxy : x < y
        · by_cases hyz : y < z
          · simp [cmpB, Nat.lt_trans hxy hyz]
          · by_cases hzy : z < y
            · simp [cmpB, hyz, hzy] at hbc
            · have : y = z := Nat.le_antisymm (Nat.le_of_not_lt hzy) (Nat.le_of_not_lt hyz)
              subst this
              simp [cmpB, hxy]
        · by_cases hyx : y < x
          · simp [cmpB, hxy, hyx] at hab
          · have hx : x = y := Nat.le_antisymm (Nat.le_of_not_lt hyx) (Nat.le_of_not_lt hxy)
            subst hx
            by_cases hyz : x < z
            · simp [cmpB, hyz]
            · by_cases hzy : z < x
              · simp [cmpB, hyz, hzy] at hbc
              · have : x = z := Nat.le_antisymm (Nat.le_of_not_lt hzy) (Nat.le_of_not_lt hyz)
                subst this
                simp [cmpB, hxy] at hab hbc ⊢
                exact ih hab hbc

theorem cmpB_lt_of_lt_of_eq {a b c : List Nat}
    (hab : cmpB a b = .lt) (hbc : cmpB b c = .eq) : cmpB a c = .lt := by
  rw [cmpB_eq_iff] at hbc; subst hbc; exact hab

theorem cmpB_lt_of_eq_of_lt {a b c : List Nat}
    (hab : cmpB a b = .eq) (hbc : cmpB b c = .lt) : cmpB a c = .lt := by
  rw [cmpB_eq_iff] at hab; subst hab; exact hbc

theorem cmpB_lt_irrefl (a : List Nat) : cmpB a a ≠ .lt := by
  simp [cmpB_self]

theorem cmpB_lt_asymm {a b : List Nat} (h : cmpB a b = .lt) : cmpB b a ≠ .lt := by
  intro h2
  exact cmpB_lt_irrefl a (cmpB_lt_trans h h2)

/-- Not-greater means less-or-equal: convenient case split. -/
theorem cmpB_ne_gt_iff {a b : List Nat} :
    cmpB a b ≠ .gt ↔ (cmpB a b = .lt ∨ a = b) := by
  constructor
  · intro h
    rcases cmpB_trichotomy a b with h2 | h2 | h2
    · exact Or.inl h2
    · exact Or.inr (cmpB_eq_iff.mp h2)
    · exact absurd h2 h
  · intro h hgt
    rcases h with h | h
    · rw [h] at hgt; exact Ordering.noConfusion hgt
    · subst h; rw [cmpB_self] at hgt; exact Ordering.noConfusion hgt

theorem cmpB_nil_left (b : List Nat) : b ≠ [] → cmpB [] b = .lt := by
  cases b <;> simp [cmpB]

/-! ## Pages: decoded node model and the byte-count formulas of `node.go` -/

/-- One record slot of a page: the 8-byte child pointer, the key bytes and the
value bytes.  In a leaf every pointer is zero; in an internal page every value
is the empty byte string. -/
structure Entry where
  ptr : Nat
  key : List Nat
  val : List Nat
deriving DecidableEq, Repr

/-- The 16-bit node-type tag: `NodeTypeInternal = 1`, `NodeTypeLeaf = 2`. -/
inductive NType where
  | internal
  | leaf
deriving DecidableEq, Repr

/-- A decoded page: its type tag and its entries, in slot order. -/
structure BNode where
  btype : NType
  ents : List Entry
deriving DecidableEq, Repr

/-- The `Config` structure of `node.go`. -/
structure Config where
  pageSize : Nat
  maxKeySize : Nat
  maxValSize : Nat
deriving DecidableEq, Repr

/-- `DefaultConfig`: page size 4096, max key 1000, max value 3000. -/
def DefaultConfig : Config := ⟨4096, 1000, 3000⟩

/-- Bytes of one record in the key/value area:
2 (key length) + 2 (value length) + key + value. -/
def entrySize (e : Entry) : Nat := 4 + e.key.length + e.val.length

/-- `getOffset(i)`: end offset of record `i` relative to the key/value area,
which the codec maintains as the running sum of record sizes. -/
def offsetAt (ents : List Entry) (i : Nat) : Nat :=
  ((ents.take i).map entrySize).sum

/-- `nbytes()` of `node.go`: header (4) + pointers (8 per entry) +
offset slots (2 per entry) + key/value area. -/
def BNode.nbytes (nd : BNode) : Nat :=
  4 + 10 * nd.ents.length + offsetAt nd.ents nd.ents.length

def keysOf (ents : List Entry) : List (List Nat) := ents.map Entry.key

/-- Key of slot `i`; `none` models the `assert(idx < nkeys)` abort of `getKey`. -/
def keyAt (nd : BNode) (i : Nat) : Option (List Nat) :=
  (nd.ents.get? i).map Entry.key

theorem offsetAt_zero (ents : List Entry) : offsetAt ents 0 = 0 := rfl

theorem offsetAt_succ (ents : List Entry) (i : Nat) (e : Entry)
    (h : ents.get? i = some e) :
    offsetAt ents (i + 1) = offsetAt ents i + entrySize e := by
  unfold offsetAt
  rw [List.take_succ]
  rw [List.get?_eq_getElem?] at h
  simp [h]

theorem offsetAt_mono (ents : List Entry) {i j : Nat} (h : i ≤ j) :
    offsetAt ents i ≤ offsetAt ents j := by
  unfold offsetAt
  induction ents generalizing i j with
  | nil => simp
  | cons e t ih =>
    cases i with
    | zero => simp
    | succ i2 =>
      cases j with
      | zero => omega
      | succ j2 =>
        simp only [List.take_succ_cons, List.map_cons, List.sum_cons]
        exact Nat.add_le_add_left (ih (Nat.le_of_succ_le_succ h)) _

theorem offsetAt_append_left (a b : List Entry) (i : Nat) (h : i ≤ a.length) :
    offsetAt (a ++ b) i = offsetAt a i := by
  unfold offsetAt
  rw [List.take_append_of_le_length h]

/-! ## `nodeLookupLE` (node.go, lines 202-224)

Linear scan: exact match returns `i`; the first key greater than the probe
returns `i - 1` as a `uint16`, which underflows to `0xFFFF` at `i = 0`;
if all keys are not greater the scan falls through to `nkeys - 1`, and two
guards return `0xFFFF` for an empty buffer or a page with no keys. -/

def lookupLEAux (key : List Nat) : List Entry → Nat → Nat
  | [], i => i - 1
  | e :: rest, i =>
    match cmpB e.key key with
    | .eq => i
    | .gt => (i + 0xFFFF) % 0x10000
    | .lt => lookupLEAux key rest (i + 1)

def nodeLookupLE (nd : BNode) (key : List Nat) : Nat :=
  if nd.ents.length = 0 then 0xFFFF else lookupLEAux key nd.ents 0

/-! ## Sortedness of keys within a page (strictly increasing byte order) -/

def sortedB : List (List Nat) → Bool
  | [] => true
  | [_] => true
  | a :: b :: t => (decide (cmpB a b = .lt)) && sortedB (b :: t)

theorem sortedB_iff_pairwise {l : List (List Nat)} :
    sortedB l = true ↔ l.Pairwise (fun a b => cmpB a b = .lt) := by
  induction l with
  | nil => simp [sortedB]
  | cons a t ih =>
    cases t with
    | nil => simp [sortedB]
    | cons b t2 =>
      have hunfold : sortedB (a :: b :: t2) = ((decide (cmpB a b = .lt)) && sortedB (b :: t2)) := rfl
      rw [hunfold, Bool.and_eq_true, decide_eq_true_eq]
      constructor
      · rintro ⟨hab, hrest⟩
        have hp := ih.mp hrest
        rw [List.pairwise_cons]
        refine ⟨?_, hp⟩
        intro c hc2
        rcases List.mem_cons.mp hc2 with hc2 | hc2
        · subst hc2; exact hab
        · rcases List.pairwise_cons.mp hp with ⟨hb, _⟩
          exact cmpB_lt_trans hab (hb c hc2)
      · intro hp
        rcases List.pairwise_cons.mp hp with ⟨hall, hp2⟩
        exact ⟨hall b (by simp), ih.mpr hp2⟩

theorem sortedB_cons {a : List Nat} {t : List (List Nat)} :
    sortedB (a :: t) = true ↔
      ((∀ b ∈ t, cmpB a b = .lt) ∧ sortedB t = true) := by
  rw [sortedB_iff_pairwise, List.pairwise_cons, sortedB_iff_pairwise]

theorem sortedB_append {a b : List (List Nat)} :
    sortedB (a ++ b) = true ↔
      sortedB a = true ∧ sortedB b = true ∧
        ∀ x ∈ a, ∀ y ∈ b, cmpB x y = .lt := by
  simp [sortedB_iff_pairwise, List.pairwise_append]

theorem sortedB_sublist {a b : List (List Nat)} (hs : a.Sublist b)
    (hb : sortedB b = true) : sortedB a = true := by
  rw [sortedB_iff_pairwise] at hb ⊢
  exact hb.sublist hs

/-- Count of leading-or-anywhere entries whose key is not greater than the
probe; on a sorted page these form a prefix. -/
def leCount (key : List Nat) : List Entry → Nat
  | [] => 0
  | e :: rest =>
    if cmpB e.key key = .gt then leCount key rest else 1 + leCount key rest

theorem leCount_le_length (key : List Nat) (ents : List Entry) :
    leCount key ents ≤ ents.length := by
  induction ents with
  | nil => simp [leCount]
  | cons e t ih =>
    by_cases h : cmpB e.key key = .gt <;> simp [leCount, h] <;> omega

theorem leCount_all_gt {key : List Nat} {ents : List Entry}
    (h : ∀ e ∈ ents, cmpB e.key key = .gt) : leCount key ents = 0 := by
  induction ents with
  | nil => rfl
  | cons e t ih =>
    simp [leCount, h e (by simp), ih (fun x hx => h x (by simp [hx]))]

theorem leCount_all_le {key : List Nat} {ents : List Entry}
    (h : ∀ e ∈ ents, cmpB e.key key ≠ .gt) : leCount key ents = ents.length := by
  induction ents with
  | nil => rfl
  | cons e t ih =>
    have h1 := h e (by simp)
    have h2 := ih (fun x hx => h x (by simp [hx]))
    simp [leCount, h1, h2, Nat.add_comm]

/-- On a page whose keys are sorted, entries after a greater-than-probe entry
are also greater than the probe. -/
theorem sorted_tail_gt {key : List Nat} {ents : List Entry}
    (hs : sortedB (keysOf ents) = true) (e : Entry)
    (he : ents = e :: (ents.tail)) (hgt : cmpB e.key key = .gt) :
    ∀ x ∈ ents, cmpB x.key key = .gt := by
  intro x hx
  rw [he] at hx hs
  rcases List.mem_cons.mp hx with hx | hx
  · simpa [hx] using hgt
  · simp only [keysOf, List.map_cons] at hs
    rcases sortedB_cons.mp hs with ⟨hall, _⟩
    have hlt : cmpB e.key x.key = .lt := hall x.key (List.mem_map_of_mem Entry.key hx)
    rw [cmpB_gt_iff_lt] at hgt ⊢
    exact cmpB_lt_trans hgt hlt

theorem lookupLEAux_spec {key : List Nat} {ents : List Entry} (i : Nat)
    (hs : sortedB (keysOf ents) = true)
    (hb : i + ents.length < 0xFFFF) :
    (leCount key ents = 0 ∧ ents ≠ [] →
        lookupLEAux key ents i = (i + 0xFFFF) % 0x10000)
    ∧ (1 ≤ leCount key ents →
        lookupLEAux key ents i = i + leCount key ents - 1) := by
  induction ents generalizing i with
  | nil => simp [leCount]
  | cons e t ih =>
    simp only [keysOf, List.map_cons] at hs
    rcases sortedB_cons.mp hs with ⟨hall, hst⟩
    rcases cmpB_trichotomy e.key key with hc | hc | hc
    · -- e.key < key: scan continues
      have hcount : leCount key (e :: t) = 1 + leCount key t := by
        simp [leCount, hc]
      have hb2 : (i + 1) + t.length < 0xFFFF := by
        simp at hb; omega
      have ih2 := ih (i + 1) hst hb2
      constructor
      · intro ⟨h0, _⟩; rw [hcount] at h0; omega
      · intro _
        show lookupLEAux key (e :: t) i = _
        rw [show lookupLEAux key (e :: t) i = lookupLEAux key t (i + 1) by
          simp [lookupLEAux, hc]]
        rcases Nat.eq_zero_or_pos (leCount key t) with hz | hpos
        · -- rest contributes nothing
          cases t with
          | nil => simp [lookupLEAux, hcount, hz]
          | cons f t2 =>
            have := (ih2.1 ⟨hz, by simp⟩)
            rw [this, hcount, hz]
            have hi : i + 1 ≤ 0xFFFF := by simp at hb; omega
            omega
        · rw [ih2.2 hpos, hcount]; omega
    · -- exact match: return i
      have heq : lookupLEAux key (e :: t) i = i := by simp [lookupLEAux, hc]
      have hrest : ∀ x ∈ t, cmpB x.key key = .gt := by
        intro x hx
        have hlt : cmpB e.key x.key = .lt := hall x.key (List.mem_map_of_mem Entry.key hx)
        rw [cmpB_gt_iff_lt]
        rw [cmpB_eq_iff] at hc; subst hc
        exact hlt
      have hcount : leCount key (e :: t) = 1 := by
        simp [leCount, hc, leCount_all_gt hrest]
      constructor
      · intro ⟨h0, _⟩; omega
      · intro _; rw [heq, hcount]; omega
    · -- first key greater: uint16 i - 1
      have hgt : lookupLEAux key (e :: t) i = (i + 0xFFFF) % 0x10000 := by
        simp [lookupLEAux, hc]
      have hrest : ∀ x ∈ (e :: t), cmpB x.key key = .gt :=
        sorted_tail_gt (by simpa [keysOf] using hs) e rfl hc
      have hcount : leCount key (e :: t) = 0 := leCount_all_gt hrest
      exact ⟨fun _ => hgt, fun h1 => by omega⟩

/-- On a sorted page the entries not greater than the probe are exactly the
first `leCount` entries. -/
theorem leCount_mem_iff {key : List Nat} {ents : List Entry}
    (hs : sortedB (keysOf ents) = true) :
    ∀ j e, ents.get? j = some e →
      (cmpB e.key key ≠ .gt ↔ j < leCount key ents) := by
  induction ents with
  | nil => intro j e h; simp at h
  | cons f t ih =>
    intro j e hj
    have hkeys : sortedB (f.key :: keysOf t) = true := by simpa [keysOf] using hs
    rcases sortedB_cons.mp hkeys with ⟨hall, hst⟩
    cases j with
    | zero =>
      rw [List.get?_cons_zero] at hj
      have hfe : f = e := by simpa using hj
      subst hfe
      by_cases hc : cmpB f.key key = .gt
      · have hrest : ∀ x ∈ (f :: t), cmpB x.key key = .gt :=
          sorted_tail_gt hs f rfl hc
        simp [hc, leCount_all_gt hrest]
      · simp [leCount, hc]
    | succ j2 =>
      rw [List.get?_cons_succ] at hj
      have hmem : e ∈ t := List.get?_mem hj
      by_cases hc : cmpB f.key key = .gt
      · have hrest : ∀ x ∈ (f :: t), cmpB x.key key = .gt :=
          sorted_tail_gt hs f rfl hc
        have hek : cmpB e.key key = .gt := hrest e (by simp [hmem])
        simp [hek, leCount_all_gt hrest]
      · have hiff := ih ((sortedB_cons.mp (by simpa [keysOf] using hs)).2) j2 e hj
        simp only [leCount, if_neg hc]
        rw [hiff]
        omega


/-! ## Claim C6: characterization of `nodeLookupLE` on a sorted page -/

theorem nodeLookupLE_leCount {nd : BNode} {key : List Nat}
    (hs : sortedB (keysOf nd.ents) = true)
    (hn : nd.ents.length < 0xFFFF) :
    nodeLookupLE nd key =
      (if leCount key nd.ents = 0 then 0xFFFF else leCount key nd.ents - 1) := by
  unfold nodeLookupLE
  by_cases hlen : nd.ents.length = 0
  · have : nd.ents = [] := List.length_eq_zero.mp hlen
    simp [hlen, this, leCount]
  · rw [if_neg hlen]
    have hspec := @lookupLEAux_spec key nd.ents 0 hs (by omega)
    by_cases h0 : leCount key nd.ents = 0
    · rw [if_pos h0]
      rw [hspec.1 ⟨h0, fun he => hlen (by simp [he])⟩]
    · rw [if_neg h0]
      rw [hspec.2 (by omega)]
      omega

/-- C6: on a node page whose keys are strictly increasing, `nodeLookupLE`
returns the largest index whose key is less than or equal to the probe; it
returns the sentinel 0xFFFF when the page has no keys or every key is
strictly greater than the probe; and when every key is less than or equal to
the probe it returns `n - 1`. -/
theorem C6_nodeLookupLE_correct (nd : BNode) (key : List Nat)
    (hs : sortedB (keysOf nd.ents) = true)
    (hn : nd.ents.length < 0xFFFF) :
    ((nd.ents = [] ∨ ∀ e ∈ nd.ents, cmpB e.key key = .gt) →
        nodeLookupLE nd key = 0xFFFF)
    ∧ ((∃ e ∈ nd.ents, cmpB e.key key ≠ .gt) →
        nodeLookupLE nd key < nd.ents.length ∧
        (∃ b, keyAt nd (nodeLookupLE nd key) = some b ∧ cmpB b key ≠ .gt) ∧
        (∀ j e, nd.ents.get? j = some e → cmpB e.key key ≠ .gt →
          j ≤ nodeLookupLE nd key))
    ∧ ((nd.ents ≠ [] ∧ ∀ e ∈ nd.ents, cmpB e.key key ≠ .gt) →
        nodeLookupLE nd key = nd.ents.length - 1) := by
  have hmain := @nodeLookupLE_leCount nd key hs hn
  refine ⟨?_, ?_, ?_⟩
  · rintro (h | h)
    · simp [nodeLookupLE, h]
    · rw [hmain, if_pos (leCount_all_gt h)]
  · rintro ⟨e, he, hle⟩
    obtain ⟨j, hj⟩ := List.mem_iff_get?.mp he
    have hjlt : j < leCount key nd.ents := (leCount_mem_iff hs j e hj).mp hle
    have hpos : 1 ≤ leCount key nd.ents := by omega
    have hres : nodeLookupLE nd key = leCount key nd.ents - 1 := by
      rw [hmain, if_neg (by omega)]
    have hcle : leCount key nd.ents ≤ nd.ents.length := leCount_le_length key nd.ents
    refine ⟨by omega, ?_, ?_⟩
    · have hlt : leCount key nd.ents - 1 < nd.ents.length := by omega
      have he2 : nd.ents.get? (leCount key nd.ents - 1) =
          some (nd.ents.get ⟨leCount key nd.ents - 1, hlt⟩) := List.get?_eq_get hlt
      refine ⟨(nd.ents.get ⟨leCount key nd.ents - 1, hlt⟩).key, ?_, ?_⟩
      · rw [hres]
        unfold keyAt
        rw [he2]
        rfl
      · exact (leCount_mem_iff hs _ _ he2).mpr (by omega)
    · intro j2 e2 hj2 hle2
      have := (leCount_mem_iff hs j2 e2 hj2).mp hle2
      omega
  · rintro ⟨hne, hall⟩
    have hc := leCount_all_le hall
    have hlen : 0 < nd.ents.length := List.length_pos.mpr hne
    rw [hmain, if_neg (by omega), hc]

/-! ## Node operations of the tree file (leaf insert/update, split, merge) -/

/-- `leafInsert` (tree file, lines 70-77): new leaf with the pair inserted at
slot `idx`; entries after `idx` shift right; the new slot's pointer is 0. -/
def leafInsert (old : BNode) (idx : Nat) (k v : List Nat) : BNode :=
  ⟨.leaf, old.ents.take idx ++ ⟨0, k, v⟩ :: old.ents.drop idx⟩

/-- `leafUpdate` (lines 79-86): same entry count, record `idx` replaced. -/
def leafUpdate (old : BNode) (idx : Nat) (k v : List Nat) : BNode :=
  ⟨.leaf, old.ents.take idx ++ ⟨0, k, v⟩ :: old.ents.drop (idx + 1)⟩

/-- Bytes of the left half at split point `m`:
`headerSize + ptrSize*nleft + offsetSize*nleft + old.getOffset(nleft)`. -/
def leftBytes (ents : List Entry) (m : Nat) : Nat :=
  4 + 10 * m + offsetAt ents m

/-- Bytes of the right half: `old.nbytes() - left_bytes() + headerSize`. -/
def rightBytes (ents : List Entry) (m : Nat) : Nat :=
  (4 + 10 * ents.length + offsetAt ents ents.length) - leftBytes ents m + 4

/-- The decrement loop of `nodeSplit2`: while the left half exceeds the page
size, move the split point down. -/
def findDown (ents : List Entry) (cfg : Config) : Nat → Nat
  | 0 => 0
  | m + 1 =>
    if cfg.pageSize < leftBytes ents (m + 1) then findDown ents cfg m else m + 1

/-- The increment loop of `nodeSplit2`: while the right half exceeds the page
size, move the split point up (the fuel argument counts the remaining slots;
exhausting it corresponds to the `assert(nleft < old.nkeys())` abort). -/
def findUp (ents : List Entry) (cfg : Config) : Nat → Nat → Nat
  | 0, m => m
  | fuel + 1, m =>
    if cfg.pageSize < rightBytes ents m then findUp ents cfg fuel (m + 1) else m

/-- The final value of `nleft` in `nodeSplit2`: the initial guess `nkeys/2`
corrected first by the decrement loop, then by the increment loop. -/
def split2Point (ents : List Entry) (cfg : Config) : Nat :=
  findUp ents cfg (ents.length - findDown ents cfg (ents.length / 2))
    (findDown ents cfg (ents.length / 2))

/-- `nodeSplit2` (lines 94-132).  `none` models a failed assertion:
`nkeys ≥ 2`, `nleft ≥ 1`, `nleft < nkeys`, or the right node not fitting. -/
def nodeSplit2 (old : BNode) (cfg : Config) : Option (BNode × BNode) :=
  if old.ents.length < 2 then none
  else if findDown old.ents cfg (old.ents.length / 2) < 1 then none
  else if old.ents.length ≤ split2Point old.ents cfg then none
  else if cfg.pageSize <
      (BNode.mk old.btype (old.ents.drop (split2Point old.ents cfg))).nbytes then
    none
  else
    some (⟨old.btype, old.ents.take (split2Point old.ents cfg)⟩,
          ⟨old.btype, old.ents.drop (split2Point old.ents cfg)⟩)

/-- `nodeSplit3` (lines 144-165): unchanged if the node fits; otherwise split
into two; if the left part still overflows, split it again.  The final
`assert(leftleft.nbytes() <= cfg.PageSize)` is the last guard. -/
def nodeSplit3 (old : BNode) (cfg : Config) : Option (List BNode) :=
  if old.nbytes ≤ cfg.pageSize then some [old]
  else
    match nodeSplit2 old cfg with
    | none => none
    | some (l, r) =>
      if l.nbytes ≤ cfg.pageSize then some [l, r]
      else
        match nodeSplit2 l cfg with
        | none => none
        | some (ll, mid) =>
          if cfg.pageSize < ll.nbytes then none
          else some [ll, mid, r]

/-- `nodeMerge` (lines 325-329): concatenation, keeping the left node's type. -/
def nodeMerge (left right : BNode) : BNode :=
  ⟨left.btype, left.ents ++ right.ents⟩

/-- Copy `cnt` entries starting at `src`, aborting (like the
`assert(idx < nkeys)` of the per-entry accessors) if the range leaves the
source node. -/
def sliceO (ents : List Entry) (src cnt : Nat) : Option (List Entry) :=
  if src + cnt ≤ ents.length then some ((ents.drop src).take cnt) else none

/-- `nodeReplace2Kid` (lines 331-336): replaces slots `idx` and `idx+1` by the
single slot `(ptr, key)`.  The suffix copy uses source range
`[idx+2, idx+2 + (nkeys-(idx+1)))`, as written in the source. -/
def nodeReplace2Kid (old : BNode) (idx : Nat) (p : Nat) (key : List Nat) :
    Option BNode :=
  match sliceO old.ents (idx + 2) (old.ents.length - (idx + 1)) with
  | none => none
  | some suffix => some ⟨.internal, old.ents.take idx ++ ⟨p, key, []⟩ :: suffix⟩

/-- The suffix copy of `nodeReplace2Kid` always runs one entry past the end of
the source node (`count` is `nkeys-(idx+1)` where only `nkeys-(idx+2)` entries
remain), so the accessor assertion fires on every call. -/
theorem nodeReplace2Kid_aborts (old : BNode) (idx : Nat) (p : Nat)
    (key : List Nat) : nodeReplace2Kid old idx p key = none := by
  unfold nodeReplace2Kid sliceO
  have : ¬ (idx + 2 + (old.ents.length - (idx + 1)) ≤ old.ents.length) := by omega
  simp [this]

/-! ## Arithmetic facts about split points -/

theorem leftBytes_mono (ents : List Entry) {i j : Nat} (h : i ≤ j) :
    leftBytes ents i ≤ leftBytes ents j := by
  unfold leftBytes
  have := offsetAt_mono ents h
  omega

theorem leftBytes_succ (ents : List Entry) (m : Nat) (e : Entry)
    (h : ents.get? m = some e) :
    leftBytes ents (m + 1) = leftBytes ents m + 10 + entrySize e := by
  unfold leftBytes
  rw [offsetAt_succ ents m e h]
  omega

theorem offsetAt_take (ents : List Entry) (m f : Nat) (h : m ≤ f) :
    offsetAt (ents.take f) m = offsetAt ents m := by
  unfold offsetAt
  rw [List.take_take, Nat.min_eq_left h]

theorem leftBytes_take (ents : List Entry) (m f : Nat) (h : m ≤ f) :
    leftBytes (ents.take f) m = leftBytes ents m := by
  unfold leftBytes
  rw [offsetAt_take ents m f h]

theorem offsetAt_length (ents : List Entry) :
    offsetAt ents ents.length = (ents.map entrySize).sum := by
  unfold offsetAt
  rw [List.take_length]

theorem nbytes_eq_leftBytes (t : NType) (ents : List Entry) :
    (BNode.mk t ents).nbytes = leftBytes ents ents.length := rfl

theorem nbytes_take (t : NType) (ents : List Entry) (f : Nat)
    (hf : f ≤ ents.length) :
    (BNode.mk t (ents.take f)).nbytes = leftBytes ents f := by
  unfold BNode.nbytes leftBytes
  simp only [List.length_take, Nat.min_eq_left hf]
  rw [show offsetAt (ents.take f) f = offsetAt ents f from by
    have := offsetAt_take ents f f (Nat.le_refl f)
    exact this]

theorem sum_take_add_drop (ents : List Entry) (f : Nat) :
    ((ents.take f).map entrySize).sum + ((ents.drop f).map entrySize).sum =
      (ents.map entrySize).sum := by
  conv_rhs => rw [← List.take_append_drop f ents]
  rw [List.map_append, List.sum_append]

theorem nbytes_drop (t : NType) (ents : List Entry) (f : Nat)
    (hf : f ≤ ents.length) :
    (BNode.mk t (ents.drop f)).nbytes = rightBytes ents f := by
  unfold BNode.nbytes rightBytes leftBytes
  simp only [List.length_drop]
  have h1 : offsetAt (ents.drop f) (ents.drop f).length =
      ((ents.drop f).map entrySize).sum := offsetAt_length (ents.drop f)
  have h2 : offsetAt ents ents.length = (ents.map entrySize).sum :=
    offsetAt_length ents
  have h3 := sum_take_add_drop ents f
  have h4 : offsetAt ents f = ((ents.take f).map entrySize).sum := rfl
  simp only [List.length_drop] at h1
  rw [h1, h2, h4]
  omega

/-! ## Behaviour of the two `nodeSplit2` loops -/

theorem findDown_le (ents : List Entry) (cfg : Config) (m : Nat) :
    findDown ents cfg m ≤ m := by
  induction m with
  | zero => simp [findDown]
  | succ m2 ih =>
    unfold findDown
    split
    · omega
    · omega

theorem findDown_fits (ents : List Entry) (cfg : Config) (m : Nat)
    (h4 : 4 ≤ cfg.pageSize) :
    leftBytes ents (findDown ents cfg m) ≤ cfg.pageSize := by
  induction m with
  | zero =>
    show leftBytes ents 0 ≤ cfg.pageSize
    unfold leftBytes
    simp [offsetAt_zero]
    omega
  | succ m2 ih =>
    unfold findDown
    split
    · exact ih
    · omega

theorem findDown_pos (ents : List Entry) (cfg : Config) (m : Nat)
    (hm : 1 ≤ m) (hcap1 : leftBytes ents 1 ≤ cfg.pageSize) :
    1 ≤ findDown ents cfg m := by
  induction m with
  | zero => omega
  | succ m2 ih =>
    unfold findDown
    split
    · rename_i hcond
      rcases Nat.eq_zero_or_pos m2 with h0 | hpos
      · subst h0
        simp only [Nat.zero_add] at hcond
        omega
      · exact ih hpos
    · omega

theorem findDown_gt_above (ents : List Entry) (cfg : Config) (m : Nat) :
    ∀ j, findDown ents cfg m < j → j ≤ m →
      cfg.pageSize < leftBytes ents j := by
  induction m with
  | zero => intro j h1 h2; omega
  | succ m2 ih =>
    intro j h1 h2
    unfold findDown at h1
    by_cases hcond : cfg.pageSize < leftBytes ents (m2 + 1)
    · rw [if_pos hcond] at h1
      rcases Nat.lt_or_ge j (m2 + 1) with hj | hj
      · exact ih j h1 (by omega)
      · have : j = m2 + 1 := by omega
        subst this; exact hcond
    · rw [if_neg hcond] at h1
      omega

theorem findUp_ge (ents : List Entry) (cfg : Config) (fuel m : Nat) :
    m ≤ findUp ents cfg fuel m := by
  induction fuel generalizing m with
  | zero => simp [findUp]
  | succ f ih =>
    unfold findUp
    split
    · exact Nat.le_trans (by omega) (ih (m + 1))
    · omega

theorem findUp_fits (ents : List Entry) (cfg : Config) (fuel m : Nat)
    (hw : ∃ j, m ≤ j ∧ j ≤ m + fuel ∧ rightBytes ents j ≤ cfg.pageSize) :
    rightBytes ents (findUp ents cfg fuel m) ≤ cfg.pageSize := by
  induction fuel generalizing m with
  | zero =>
    obtain ⟨j, hj1, hj2, hj3⟩ := hw
    have : j = m := by omega
    subst this
    simpa [findUp] using hj3
  | succ f ih =>
    unfold findUp
    by_cases hcond : cfg.pageSize < rightBytes ents m
    · rw [if_pos hcond]
      apply ih
      obtain ⟨j, hj1, hj2, hj3⟩ := hw
      have : j ≠ m := by
        intro he; subst he; omega
      exact ⟨j, by omega, by omega, hj3⟩
    · rw [if_neg hcond]
      omega

theorem findUp_le_witness (ents : List Entry) (cfg : Config) (fuel m : Nat)
    (j : Nat) (hj1 : m ≤ j) (hj3 : rightBytes ents j ≤ cfg.pageSize) :
    findUp ents cfg fuel m ≤ j := by
  induction fuel generalizing m with
  | zero => simpa [findUp] using hj1
  | succ f ih =>
    unfold findUp
    by_cases hcond : cfg.pageSize < rightBytes ents m
    · rw [if_pos hcond]
      have : m ≠ j := by
        intro he; subst he; omega
      exact ih (m + 1) (by omega)
    · rw [if_neg hcond]
      omega

theorem findUp_gt_before (ents : List Entry) (cfg : Config) (fuel m : Nat) :
    ∀ j, m ≤ j → j < findUp ents cfg fuel m →
      cfg.pageSize < rightBytes ents j := by
  induction fuel generalizing m with
  | zero => intro j h1 h2; simp [findUp] at h2; omega
  | succ f ih =>
    intro j h1 h2
    unfold findUp at h2
    by_cases hcond : cfg.pageSize < rightBytes ents m
    · rw [if_pos hcond] at h2
      rcases Nat.eq_or_lt_of_le h1 with he | hlt
      · subst he; exact hcond
      · exact ih (m + 1) j hlt h2
    · rw [if_neg hcond] at h2
      omega

/-! ## `nodeSplit2` succeeds under the record-size caps -/

/-- All records of a list respect the key/value caps of a configuration. -/
def capsOK (cfg : Config) (ents : List Entry) : Prop :=
  ∀ e ∈ ents, e.key.length ≤ cfg.maxKeySize ∧ e.val.length ≤ cfg.maxValSize

theorem capsOK_entrySize {ents : List Entry} (h : capsOK DefaultConfig ents) :
    ∀ e ∈ ents, entrySize e ≤ 4004 := by
  intro e he
  have := h e he
  unfold entrySize
  simp [DefaultConfig] at this
  omega

theorem leftBytes_zero (ents : List Entry) : leftBytes ents 0 = 4 := by
  unfold leftBytes
  simp [offsetAt_zero]

/-- Right-half bytes unfold: total bytes minus left bytes plus one header. -/
theorem rightBytes_eq (ents : List Entry) (m : Nat) :
    rightBytes ents m = leftBytes ents ents.length - leftBytes ents m + 4 := rfl

theorem leftBytes_one (ents : List Entry) (e : Entry) (h : ents.get? 0 = some e) :
    leftBytes ents 1 = 14 + entrySize e := by
  have hs := leftBytes_succ ents 0 e h
  simp only [Nat.zero_add] at hs
  rw [hs, leftBytes_zero]

theorem rightBytes_last (ents : List Entry) (e : Entry) (hlen : 1 ≤ ents.length)
    (h : ents.get? (ents.length - 1) = some e) :
    rightBytes ents (ents.length - 1) = 14 + entrySize e := by
  have hsucc := leftBytes_succ ents (ents.length - 1) e h
  have hmone : ents.length - 1 + 1 = ents.length := by omega
  rw [hmone] at hsucc
  have hmono : leftBytes ents (ents.length - 1) ≤ leftBytes ents ents.length :=
    leftBytes_mono _ (by omega)
  rw [rightBytes_eq]
  omega

/-- Under the caps, the two split-point loops land at `1 ≤ nleft < nkeys`
with a right half that fits in a page: none of the `nodeSplit2` assertions
can fire. -/
theorem split2_bounds (ents : List Entry)
    (hcap : ∀ e ∈ ents, entrySize e ≤ 4004)
    (hn : 2 ≤ ents.length) :
    1 ≤ findDown ents DefaultConfig (ents.length / 2) ∧
    findDown ents DefaultConfig (ents.length / 2) ≤ split2Point ents DefaultConfig ∧
    split2Point ents DefaultConfig < ents.length ∧
    rightBytes ents (split2Point ents DefaultConfig) ≤ 4096 := by
  have h0lt : 0 < ents.length := by omega
  have hlast : ents.length - 1 < ents.length := by omega
  have he0 : ents.get? 0 = some (ents.get ⟨0, h0lt⟩) := List.get?_eq_get h0lt
  have hef : ents.get? (ents.length - 1) = some (ents.get ⟨ents.length - 1, hlast⟩) :=
    List.get?_eq_get hlast
  have hes0 : entrySize (ents.get ⟨0, h0lt⟩) ≤ 4004 := hcap _ (List.get_mem _ _ _)
  have hesf : entrySize (ents.get ⟨ents.length - 1, hlast⟩) ≤ 4004 :=
    hcap _ (List.get_mem _ _ _)
  have hlb1 : leftBytes ents 1 ≤ 4096 := by
    rw [leftBytes_one ents _ he0]; omega
  have hrblast : rightBytes ents (ents.length - 1) ≤ 4096 := by
    rw [rightBytes_last ents _ (by omega) hef]; omega
  have hd1 : 1 ≤ findDown ents DefaultConfig (ents.length / 2) :=
    findDown_pos ents DefaultConfig (ents.length / 2) (by omega)
      (by rw [show DefaultConfig.pageSize = 4096 from rfl]; exact hlb1)
  have hdle : findDown ents DefaultConfig (ents.length / 2) ≤ ents.length / 2 :=
    findDown_le _ _ _
  have hfge : findDown ents DefaultConfig (ents.length / 2) ≤
      split2Point ents DefaultConfig := findUp_ge _ _ _ _
  have hfle : split2Point ents DefaultConfig ≤ ents.length - 1 := by
    apply findUp_le_witness
    · omega
    · rw [show DefaultConfig.pageSize = 4096 from rfl]; exact hrblast
  have hffits : rightBytes ents (split2Point ents DefaultConfig) ≤ 4096 := by
    have := findUp_fits ents DefaultConfig
      (ents.length - findDown ents DefaultConfig (ents.length / 2))
      (findDown ents DefaultConfig (ents.length / 2))
      ⟨ents.length - 1, by omega, by omega,
        by rw [show DefaultConfig.pageSize = 4096 from rfl]; exact hrblast⟩
    rw [show DefaultConfig.pageSize = 4096 from rfl] at this
    exact this
  exact ⟨hd1, hfge, by omega, hffits⟩

theorem nodeSplit2_mk (bt : NType) (ents : List Entry) (cfg : Config) :
    nodeSplit2 ⟨bt, ents⟩ cfg =
      (if ents.length < 2 then none
       else if findDown ents cfg (ents.length / 2) < 1 then none
       else if ents.length ≤ split2Point ents cfg then none
       else if cfg.pageSize <
           (BNode.mk bt (ents.drop (split2Point ents cfg))).nbytes then none
       else some (⟨bt, ents.take (split2Point ents cfg)⟩,
                  ⟨bt, ents.drop (split2Point ents cfg)⟩)) := rfl

/-- Under the caps, `nodeSplit2` completes and returns the two halves. -/
theorem nodeSplit2_eq_some (bt : NType) (ents : List Entry)
    (hcap : ∀ e ∈ ents, entrySize e ≤ 4004)
    (hn : 2 ≤ ents.length) :
    nodeSplit2 ⟨bt, ents⟩ DefaultConfig =
      some (⟨bt, ents.take (split2Point ents DefaultConfig)⟩,
            ⟨bt, ents.drop (split2Point ents DefaultConfig)⟩) := by
  obtain ⟨hd1, hfge, hfn, hffits⟩ := split2_bounds ents hcap hn
  rw [nodeSplit2_mk]
  rw [if_neg (by omega), if_neg (by omega), if_neg (by omega), if_neg ?_]
  have hnb := nbytes_drop bt ents (split2Point ents DefaultConfig) (by omega)
  rw [show DefaultConfig.pageSize = 4096 from rfl, hnb]
  omega

/-- `merge` byte identity: the merged node weighs the two halves minus one
header. -/
theorem nodeMerge_nbytes (l r : BNode) :
    (nodeMerge l r).nbytes + 4 = l.nbytes + r.nbytes := by
  unfold nodeMerge BNode.nbytes
  simp only [List.length_append]
  have h1 := offsetAt_length (l.ents ++ r.ents)
  have h2 := offsetAt_length l.ents
  have h3 := offsetAt_length r.ents
  simp only [List.length_append] at h1
  rw [h1, h2, h3, List.map_append, List.sum_append]
  ring

/-- A node with at most one record and cap-respecting records fits a page,
so an overflowing node always has at least two records. -/
theorem overflow_two_records (ents : List Entry)
    (hcap : ∀ e ∈ ents, entrySize e ≤ 4004) (m : Nat) (hm : m ≤ 1)
    (hbig : 4096 < leftBytes ents m) : False := by
  have hm2 : m = 0 ∨ m = 1 := by omega
  rcases hm2 with h1 | h1
  · rw [h1, leftBytes_zero] at hbig; omega
  · subst h1
    rcases Nat.lt_or_ge 0 ents.length with h0lt | h0
    · have he0 : ents.get? 0 = some (ents.get ⟨0, h0lt⟩) := List.get?_eq_get h0lt
      have hes0 : entrySize (ents.get ⟨0, h0lt⟩) ≤ 4004 := hcap _ (List.get_mem _ _ _)
      rw [leftBytes_one ents _ he0] at hbig
      omega
    · have : ents = [] := List.length_eq_zero.mp (by omega)
      subst this
      have : offsetAt ([] : List Entry) 1 = 0 := by simp [offsetAt]
      unfold leftBytes at hbig
      omega

/-- Key step of the split3 guarantee: when the source node holds at most
`2 * PageSize - 3` bytes, the second split's left output always fits, so the
final assertion of `nodeSplit3` cannot fire. -/
theorem split3_leftleft_fits (ents : List Entry)
    (hcap : ∀ e ∈ ents, entrySize e ≤ 4004)
    (hW : leftBytes ents ents.length ≤ 2 * 4096 - 3)
    (hn2 : 2 ≤ ents.length)
    (hLbig : 4096 < leftBytes ents (split2Point ents DefaultConfig)) :
    leftBytes (ents.take (split2Point ents DefaultConfig))
      (split2Point (ents.take (split2Point ents DefaultConfig)) DefaultConfig) ≤
      4096 := by
  obtain ⟨hd1a, hfged, hfn, hrfits⟩ := split2_bounds ents hcap hn2
  have hTcap : ∀ e ∈ ents.take (split2Point ents DefaultConfig),
      entrySize e ≤ 4004 := fun e he => hcap e (List.take_subset _ ents he)
  have hFge2 : 2 ≤ split2Point ents DefaultConfig := by
    by_contra hc
    exact overflow_two_records ents hcap _ (by omega) hLbig
  have hTlen : (ents.take (split2Point ents DefaultConfig)).length =
      split2Point ents DefaultConfig := by
    rw [List.length_take]; omega
  obtain ⟨hd2a, hf2ged, hf2n, hr2fits⟩ :=
    split2_bounds (ents.take (split2Point ents DefaultConfig)) hTcap
      (by omega)
  by_contra hfire
  push_neg at hfire
  -- the largest split point at or below the second split point whose left
  -- part fits a page
  have hmsfits : leftBytes (ents.take (split2Point ents DefaultConfig))
      (findDown (ents.take (split2Point ents DefaultConfig)) DefaultConfig
        (split2Point (ents.take (split2Point ents DefaultConfig)) DefaultConfig)) ≤
      4096 := by
    have := findDown_fits (ents.take (split2Point ents DefaultConfig)) DefaultConfig
      (split2Point (ents.take (split2Point ents DefaultConfig)) DefaultConfig)
      (by rw [show DefaultConfig.pageSize = 4096 from rfl]; omega)
    rw [show DefaultConfig.pageSize = 4096 from rfl] at this
    exact this
  have hmsle : findDown (ents.take (split2Point ents DefaultConfig)) DefaultConfig
      (split2Point (ents.take (split2Point ents DefaultConfig)) DefaultConfig) ≤
      split2Point (ents.take (split2Point ents DefaultConfig)) DefaultConfig :=
    findDown_le _ _ _
  have hmslt : findDown (ents.take (split2Point ents DefaultConfig)) DefaultConfig
      (split2Point (ents.take (split2Point ents DefaultConfig)) DefaultConfig) <
      split2Point (ents.take (split2Point ents DefaultConfig)) DefaultConfig := by
    rcases Nat.eq_or_lt_of_le hmsle with he | h
    · rw [he] at hmsfits; omega
    · exact h
  have hlbms1 : 4096 < leftBytes (ents.take (split2Point ents DefaultConfig))
      (findDown (ents.take (split2Point ents DefaultConfig)) DefaultConfig
        (split2Point (ents.take (split2Point ents DefaultConfig)) DefaultConfig) + 1) := by
    have := findDown_gt_above (ents.take (split2Point ents DefaultConfig))
      DefaultConfig
      (split2Point (ents.take (split2Point ents DefaultConfig)) DefaultConfig)
      (findDown (ents.take (split2Point ents DefaultConfig)) DefaultConfig
        (split2Point (ents.take (split2Point ents DefaultConfig)) DefaultConfig) + 1)
      (by omega) (by omega)
    rw [show DefaultConfig.pageSize = 4096 from rfl] at this
    exact this
  -- the first split ran its increment loop past the decrement result
  have hd1fits : leftBytes ents (findDown ents DefaultConfig (ents.length / 2)) ≤
      4096 := by
    have := findDown_fits ents DefaultConfig (ents.length / 2)
      (by rw [show DefaultConfig.pageSize = 4096 from rfl]; omega)
    rw [show DefaultConfig.pageSize = 4096 from rfl] at this
    exact this
  have hd1lt : findDown ents DefaultConfig (ents.length / 2) <
      split2Point ents DefaultConfig := by
    rcases Nat.eq_or_lt_of_le hfged with he | h
    · rw [← he] at hLbig; omega
    · exact h
  have hrbf1 : 4096 < rightBytes ents (split2Point ents DefaultConfig - 1) := by
    have := findUp_gt_before ents DefaultConfig
      (ents.length - findDown ents DefaultConfig (ents.length / 2))
      (findDown ents DefaultConfig (ents.length / 2))
      (split2Point ents DefaultConfig - 1)
      (by omega)
      (by
        show split2Point ents DefaultConfig - 1 <
          findUp ents DefaultConfig
            (ents.length - findDown ents DefaultConfig (ents.length / 2))
            (findDown ents DefaultConfig (ents.length / 2))
        have : split2Point ents DefaultConfig =
            findUp ents DefaultConfig
              (ents.length - findDown ents DefaultConfig (ents.length / 2))
              (findDown ents DefaultConfig (ents.length / 2)) := rfl
        omega)
    rw [show DefaultConfig.pageSize = 4096 from rfl] at this
    exact this
  -- translate to byte counts over the full list and contradict
  have hrbe : rightBytes ents (split2Point ents DefaultConfig - 1) =
      leftBytes ents ents.length -
        leftBytes ents (split2Point ents DefaultConfig - 1) + 4 :=
    rightBytes_eq ents _
  have hmonoW : leftBytes ents (split2Point ents DefaultConfig - 1) ≤
      leftBytes ents ents.length := leftBytes_mono _ (by omega)
  have hcv1 : leftBytes (ents.take (split2Point ents DefaultConfig))
      (split2Point ents DefaultConfig - 1) =
      leftBytes ents (split2Point ents DefaultConfig - 1) :=
    leftBytes_take ents _ _ (by omega)
  have hmono1 : leftBytes (ents.take (split2Point ents DefaultConfig))
      (findDown (ents.take (split2Point ents DefaultConfig)) DefaultConfig
        (split2Point (ents.take (split2Point ents DefaultConfig)) DefaultConfig) + 1) ≤
      leftBytes (ents.take (split2Point ents DefaultConfig))
        (split2Point ents DefaultConfig - 1) := by
    apply leftBytes_mono
    omega
  omega

/-- Under the caps, `nodeSplit3` with the default configuration completes on
any source node of at most `2 * PageSize - 3` used bytes, and every produced
node fits in a page. -/
theorem nodeSplit3_fits (old : BNode)
    (hcap : ∀ e ∈ old.ents, entrySize e ≤ 4004)
    (hW : old.nbytes ≤ 2 * 4096 - 3) :
    ∃ pieces, nodeSplit3 old DefaultConfig = some pieces ∧
      1 ≤ pieces.length ∧ pieces.length ≤ 3 ∧
      ∀ p ∈ pieces, p.nbytes ≤ 4096 := by
  obtain ⟨bt, ents⟩ := old
  simp only at hcap hW
  by_cases hfits : (BNode.mk bt ents).nbytes ≤ 4096
  · refine ⟨[⟨bt, ents⟩], ?_, by simp, by simp, by simpa using hfits⟩
    unfold nodeSplit3
    rw [if_pos (by rw [show DefaultConfig.pageSize = 4096 from rfl]; exact hfits)]
  · have hbig : 4096 < leftBytes ents ents.length := by
      have := nbytes_eq_leftBytes bt ents
      omega
    have hWlb : leftBytes ents ents.length ≤ 2 * 4096 - 3 := by
      have := nbytes_eq_leftBytes bt ents
      omega
    have hn2 : 2 ≤ ents.length := by
      by_contra hc
      have hmono : leftBytes ents ents.length ≤ leftBytes ents 1 :=
        leftBytes_mono _ (by omega)
      exact overflow_two_records ents hcap 1 (by omega) (by omega)
    have heq2 := nodeSplit2_eq_some bt ents hcap hn2
    have hLnb := nbytes_take bt ents (split2Point ents DefaultConfig)
      (by obtain ⟨_, _, h, _⟩ := split2_bounds ents hcap hn2; omega)
    have hRnb := nbytes_drop bt ents (split2Point ents DefaultConfig)
      (by obtain ⟨_, _, h, _⟩ := split2_bounds ents hcap hn2; omega)
    obtain ⟨hd1a, hfged, hfn, hrfits⟩ := split2_bounds ents hcap hn2
    by_cases hLfits : leftBytes ents (split2Point ents DefaultConfig) ≤ 4096
    · refine ⟨[⟨bt, ents.take (split2Point ents DefaultConfig)⟩,
        ⟨bt, ents.drop (split2Point ents DefaultConfig)⟩], ?_, by simp, by simp, ?_⟩
      · unfold nodeSplit3
        rw [if_neg (by
          rw [show DefaultConfig.pageSize = 4096 from rfl]
          have := nbytes_eq_leftBytes bt ents
          omega)]
        rw [heq2]
        simp only
        rw [if_pos (by
          rw [show DefaultConfig.pageSize = 4096 from rfl, hLnb]; exact hLfits)]
      · intro p hp
        simp only [List.mem_cons, List.not_mem_nil, or_false] at hp
        rcases hp with hp | hp
        · rw [hp, hLnb]; omega
        · rw [hp, hRnb]; omega
    · push_neg at hLfits
      have hTcap : ∀ e ∈ ents.take (split2Point ents DefaultConfig),
          entrySize e ≤ 4004 := fun e he => hcap e (List.take_subset _ ents he)
      have hFge2 : 2 ≤ split2Point ents DefaultConfig := by
        by_contra hc
        exact overflow_two_records ents hcap _ (by omega) hLfits
      have hTlen : (ents.take (split2Point ents DefaultConfig)).length =
          split2Point ents DefaultConfig := by
        rw [List.length_take]; omega
      have heq3 := nodeSplit2_eq_some bt (ents.take (split2Point ents DefaultConfig))
        hTcap (by omega)
      obtain ⟨hd2a, hf2ged, hf2n, hr2fits⟩ :=
        split2_bounds (ents.take (split2Point ents DefaultConfig)) hTcap (by omega)
      have hll := split3_leftleft_fits ents hcap hWlb hn2 hLfits
      have hLLnb := nbytes_take bt (ents.take (split2Point ents DefaultConfig))
        (split2Point (ents.take (split2Point ents DefaultConfig)) DefaultConfig)
        (by omega)
      have hMidnb := nbytes_drop bt (ents.take (split2Point ents DefaultConfig))
        (split2Point (ents.take (split2Point ents DefaultConfig)) DefaultConfig)
        (by omega)
      refine ⟨[⟨bt, (ents.take (split2Point ents DefaultConfig)).take
          (split2Point (ents.take (split2Point ents DefaultConfig)) DefaultConfig)⟩,
        ⟨bt, (ents.take (split2Point ents DefaultConfig)).drop
          (split2Point (ents.take (split2Point ents DefaultConfig)) DefaultConfig)⟩,
        ⟨bt, ents.drop (split2Point ents DefaultConfig)⟩], ?_, by simp, by simp, ?_⟩
      · unfold nodeSplit3
        rw [if_neg (by
          rw [show DefaultConfig.pageSize = 4096 from rfl]
          have := nbytes_eq_leftBytes bt ents
          omega)]
        rw [heq2]
        simp only
        rw [if_neg (by
          rw [show DefaultConfig.pageSize = 4096 from rfl, hLnb]; omega)]
        rw [heq3]
        simp only
        rw [if_neg (by
          rw [show DefaultConfig.pageSize = 4096 from rfl, hLLnb]; omega)]
      · intro p hp
        simp only [List.mem_cons, List.not_mem_nil, or_false] at hp
        rcases hp with hp | hp | hp
        · rw [hp, hLLnb]; omega
        · rw [hp, hMidnb]; omega
        · rw [hp, hRnb]; omega

/-! ## The page store, the storage callbacks, and the event trace

The tree engine consumes three callbacks (`Get`/`New`/`Del`).  The model uses
an explicit store: an association list of allocated pages plus a fresh
identifier counter (`New` returns the counter, as every reference store
returns fresh non-zero identifiers).  `Del` leaves the binding in place —
the file-backed reference store's free is a no-op — and is visible only in
the event trace.  Every callback invocation is recorded as an event. -/

inductive Ev where
  | get (p : Nat)
  | new (p : Nat)
  | del (p : Nat)
deriving DecidableEq, Repr

structure St where
  pages : List (Nat × BNode)
  fresh : Nat
deriving DecidableEq, Repr

def emptySt : St := ⟨[], 1⟩

def getPage (st : St) (p : Nat) : Option BNode :=
  (st.pages.find? (fun q => q.1 == p)).map Prod.snd

def alloc (st : St) (nd : BNode) : Nat × St :=
  (st.fresh, ⟨(st.fresh, nd) :: st.pages, st.fresh + 1⟩)

/-! ## The recursive insert path (`treeInsert`, `nodeReplaceKidN`, `Insert`) -/

/-- Allocate the split pieces left to right (the `tree.New(node)` calls of
`nodeReplaceKidN`), producing the new child entries whose keys are each
piece's `getKey(0)` with nil values, plus the list of new identifiers. -/
def allocKids (st : St) : List BNode → Option (List Entry × List Nat × St)
  | [] => some ([], [], st)
  | p :: rest =>
    match p.ents.get? 0 with
    | none => none
    | some e0 =>
      let g := alloc st p
      match allocKids g.2 rest with
      | none => none
      | some (mids, ids, st2) => some (⟨g.1, e0.key, []⟩ :: mids, g.1 :: ids, st2)

/-- `treeInsert` (tree file, lines 169-216), with the store threaded through
and the callback events recorded.  The result node may be oversized; `none`
models an aborted run (fuel exhaustion stands for unbounded recursion through
a cyclic store, every other `none` is an assertion/panic of the Go code). -/
def treeInsert (fuel : Nat) (cfg : Config) (st : St) (nd : BNode)
    (k v : List Nat) : Option (BNode × St × List Ev) :=
  match fuel with
  | 0 => none
  | fuel + 1 =>
    match nd.btype with
    | .leaf =>
      if nodeLookupLE nd k = 0xFFFF then some (leafInsert nd 0 k v, st, [])
      else
        match nd.ents.get? (nodeLookupLE nd k) with
        | none => none
        | some e =>
          if e.key = k then some (leafUpdate nd (nodeLookupLE nd k) k v, st, [])
          else some (leafInsert nd (nodeLookupLE nd k + 1) k v, st, [])
    | .internal =>
      match nd.ents.get? (nodeLookupLE nd k) with
      | none => none
      | some e =>
        match getPage st e.ptr with
        | none =>
          -- `len(kid) == 0`: the code "treats it as a leaf node" and runs
          -- leafInsert on the internal parent
          some (leafInsert nd (nodeLookupLE nd k + 1) k v, st, [Ev.get e.ptr])
        | some kid =>
          match treeInsert fuel cfg st kid k v with
          | none => none
          | some (knode, st1, tr) =>
            match nodeSplit3 knode cfg with
            | none => none
            | some pieces =>
              match allocKids st1 pieces with
              | none => none
              | some (mids, ids, st2) =>
                some (⟨.internal,
                        nd.ents.take (nodeLookupLE nd k) ++ mids ++
                          nd.ents.drop (nodeLookupLE nd k + 1)⟩,
                      st2,
                      Ev.get e.ptr :: tr ++ Ev.del e.ptr :: ids.map Ev.new)

/-- Shared tail of `Insert` (lines 248-264): split the returned node, free
the old root, then either store the single piece or build one extra root
level whose entries point at the freshly allocated pieces. -/
def insertFinish (cfg : Config) (st : St) (root : Nat) (nd : BNode)
    (tr : List Ev) : Option (Nat × St × List Ev) :=
  match nodeSplit3 nd cfg with
  | none => none
  | some pieces =>
    if pieces.length = 1 then
      match pieces with
      | [p] =>
        let g := alloc st p
        some (g.1, g.2, tr ++ [Ev.del root, Ev.new g.1])
      | _ => none
    else
      match allocKids st pieces with
      | none => none
      | some (mids, ids, st2) =>
        let g := alloc st2 ⟨.internal, mids⟩
        some (g.1, g.2, tr ++ Ev.del root :: (ids.map Ev.new ++ [Ev.new g.1]))

/-- `Insert` (lines 233-265).  An empty tree gets a fresh two-entry root
holding the zero-length sentinel at slot 0 and the new pair at slot 1. -/
def insertT (fuel : Nat) (cfg : Config) (st : St) (root : Nat)
    (k v : List Nat) : Option (Nat × St × List Ev) :=
  if root = 0 then
    let g := alloc st ⟨.leaf, [⟨0, [], []⟩, ⟨0, k, v⟩]⟩
    some (g.1, g.2, [Ev.new g.1])
  else
    match getPage st root with
    | none =>
      -- the root read returns no bytes: `treeInsert` builds a fresh
      -- single-entry leaf (no sentinel) and the tail logic proceeds
      insertFinish cfg st root ⟨.leaf, [⟨0, k, v⟩]⟩ [Ev.get root]
    | some rootNode =>
      match treeInsert fuel cfg st rootNode k v with
      | none => none
      | some (nd, st1, tr) => insertFinish cfg st1 root nd (Ev.get root :: tr)

/-! ## Search (`Search`, `treeSearch`, lines 267-289) -/

def treeSearch (fuel : Nat) (st : St) (nd : BNode) (k : List Nat) :
    Option (Option (List Nat) × List Ev) :=
  match fuel with
  | 0 => none
  | fuel + 1 =>
    match nd.btype with
    | .leaf =>
      if nodeLookupLE nd k < nd.ents.length then
        match nd.ents.get? (nodeLookupLE nd k) with
        | none => none
        | some e => if e.key = k then some (some e.val, []) else some (none, [])
      else some (none, [])
    | .internal =>
      match nd.ents.get? (nodeLookupLE nd k) with
      | none => none
      | some e =>
        match getPage st e.ptr with
        | none => none
        | some kid =>
          match treeSearch fuel st kid k with
          | none => none
          | some (r, tr) => some (r, Ev.get e.ptr :: tr)

def searchT (fuel : Nat) (st : St) (root : Nat) (k : List Nat) :
    Option (Option (List Nat) × List Ev) :=
  if root = 0 then some (none, [])
  else
    match getPage st root with
    | none => none
    | some nd =>
      match treeSearch fuel st nd k with
      | none => none
      | some (r, tr) => some (r, Ev.get root :: tr)

/-! ## Delete (`Delete`, `shouldMerge`, `nodeDelete`, `treeDelete`,
lines 291-397) -/

/-- The right-sibling half of `shouldMerge` (lines 314-322). -/
def shouldMergeRight (cfg : Config) (st : St) (nd : BNode) (idx : Nat)
    (updated : BNode) (tr : List Ev) :
    Option (Option (Bool × BNode) × List Ev) :=
  if idx + 1 < nd.ents.length then
    match nd.ents.get? (idx + 1) with
    | none => none
    | some e =>
      match getPage st e.ptr with
      | none => none
      | some sib =>
        if sib.nbytes + updated.nbytes - 4 ≤ cfg.pageSize then
          some (some (false, sib), tr ++ [Ev.get e.ptr])
        else some (none, tr ++ [Ev.get e.ptr])
  else some (none, tr)

/-- `shouldMerge` (lines 301-323): no merge when the updated child still uses
more than a quarter page; otherwise try the left sibling, then the right.
`some (true, sib)` is a left merge, `some (false, sib)` a right merge. -/
def shouldMergeT (cfg : Config) (st : St) (nd : BNode) (idx : Nat)
    (updated : BNode) : Option (Option (Bool × BNode) × List Ev) :=
  if cfg.pageSize / 4 < updated.nbytes then some (none, [])
  else if 0 < idx then
    match nd.ents.get? (idx - 1) with
    | none => none
    | some e =>
      match getPage st e.ptr with
      | none => none
      | some sib =>
        if sib.nbytes + updated.nbytes - 4 ≤ cfg.pageSize then
          some (some (true, sib), [Ev.get e.ptr])
        else shouldMergeRight cfg st nd idx updated [Ev.get e.ptr]
  else shouldMergeRight cfg st nd idx updated []

/-- The `switch` of `nodeDelete` (lines 350-369) after the merge decision. -/
def nodeDeleteMerge (st : St) (nd : BNode) (idx : Nat)
    (updated : BNode) (mres : Option (Bool × BNode)) (tr : List Ev) :
    Option (Option BNode × St × List Ev) :=
  match mres with
  | some (true, sib) =>
    match nd.ents.get? (idx - 1) with
    | none => none
    | some el =>
      match (nodeMerge sib updated).ents.get? 0 with
      | none => none
      | some m0 =>
        let g := alloc st (nodeMerge sib updated)
        match nodeReplace2Kid nd (idx - 1) g.1 m0.key with
        | none => none
        | some nd2 => some (some nd2, g.2, tr ++ [Ev.del el.ptr, Ev.new g.1])
  | some (false, sib) =>
    match nd.ents.get? (idx + 1) with
    | none => none
    | some er =>
      match (nodeMerge updated sib).ents.get? 0 with
      | none => none
      | some m0 =>
        let g := alloc st (nodeMerge updated sib)
        match nodeReplace2Kid nd idx g.1 m0.key with
        | none => none
        | some nd2 => some (some nd2, g.2, tr ++ [Ev.del er.ptr, Ev.new g.1])
  | none =>
    if updated.ents.length = 0 then
      -- `assert(node.nkeys() == 1 && idx == 0)`, then an empty internal page
      if nd.ents.length = 1 && idx = 0 then
        some (some ⟨.internal, []⟩, st, tr)
      else none
    else
      -- `nodeReplaceKidN` with the single updated child
      match updated.ents.get? 0 with
      | none => none
      | some u0 =>
        let g := alloc st updated
        some (some ⟨.internal,
            nd.ents.take idx ++ ⟨g.1, u0.key, []⟩ :: nd.ents.drop (idx + 1)⟩,
          g.2, tr ++ [Ev.new g.1])

/-- `nodeDelete` (lines 338-372): recurse into the child, report not-found
upward, otherwise free the old child and rebalance. -/
def nodeDelete (cfg : Config) (st : St) (nd : BNode) (idx : Nat)
    (k : List Nat)
    (rec : St → BNode → List Nat → Option (Option BNode × St × List Ev)) :
    Option (Option BNode × St × List Ev) :=
  match nd.ents.get? idx with
  | none => none
  | some e =>
    match getPage st e.ptr with
    | none => none
    | some kid =>
      match rec st kid k with
      | none => none
      | some (none, st1, tr) => some (none, st1, Ev.get e.ptr :: tr)
      | some (some updated, st1, tr) =>
        match shouldMergeT cfg st1 nd idx updated with
        | none => none
        | some (mres, smtr) =>
          nodeDeleteMerge st1 nd idx updated mres
            (Ev.get e.ptr :: tr ++ Ev.del e.ptr :: smtr)

/-- `treeDelete` (lines 374-397): `some none` is the `BNode{}` not-found
signal. -/
def treeDelete (fuel : Nat) (cfg : Config) (st : St) (nd : BNode)
    (k : List Nat) : Option (Option BNode × St × List Ev) :=
  match fuel with
  | 0 => none
  | fuel + 1 =>
    match nd.btype with
    | .leaf =>
      if nodeLookupLE nd k < nd.ents.length then
        match nd.ents.get? (nodeLookupLE nd k) with
        | none => none
        | some e =>
          if e.key = k then
            some (some ⟨.leaf, nd.ents.take (nodeLookupLE nd k) ++
                nd.ents.drop (nodeLookupLE nd k + 1)⟩, st, [])
          else some (none, st, [])
      else some (none, st, [])
    | .internal =>
      nodeDelete cfg st nd (nodeLookupLE nd k) k
        (fun st2 nd2 k2 => treeDelete fuel cfg st2 nd2 k2)

/-- `Delete` (lines 291-299): no-op on an empty tree; a not-found signal
leaves the root untouched; otherwise the new root page is allocated (the old
root page is never freed here). -/
def deleteT (fuel : Nat) (cfg : Config) (st : St) (root : Nat)
    (k : List Nat) : Option (Nat × St × List Ev) :=
  if root = 0 then some (root, st, [])
  else
    match getPage st root with
    | none => none
    | some nd =>
      match treeDelete fuel cfg st nd k with
      | none => none
      | some (none, st1, tr) => some (root, st1, Ev.get root :: tr)
      | some (some nd2, st1, tr) =>
        let g := alloc st1 nd2
        some (g.1, g.2, Ev.get root :: tr ++ [Ev.new g.1])

/-! ## Traversal (`Traverse`, `treeTraverse`, lines 399-417)

A leaf visits its entries from slot 1 to the end (slot 0 is skipped on every
leaf); an internal page traverses each child in slot order. -/

def travKids (f : St → BNode → Option (List (List Nat × List Nat) × List Ev))
    (st : St) : List Entry → Option (List (List Nat × List Nat) × List Ev)
  | [] => some ([], [])
  | e :: rest =>
    match getPage st e.ptr with
    | none => none
    | some kid =>
      match f st kid with
      | none => none
      | some (o1, t1) =>
        match travKids f st rest with
        | none => none
        | some (o2, t2) => some (o1 ++ o2, Ev.get e.ptr :: t1 ++ t2)

def treeTraverse : Nat → St → BNode →
    Option (List (List Nat × List Nat) × List Ev)
  | 0, _, _ => none
  | fuel + 1, st, nd =>
    match nd.btype with
    | .leaf => some ((nd.ents.drop 1).map (fun e => (e.key, e.val)), [])
    | .internal => travKids (treeTraverse fuel) st nd.ents

def traverseT (fuel : Nat) (st : St) (root : Nat) :
    Option (List (List Nat × List Nat) × List Ev) :=
  if root = 0 then some ([], [])
  else
    match getPage st root with
    | none => none
    | some nd =>
      match treeTraverse fuel st nd with
      | none => none
      | some (o, tr) => some (o, Ev.get root :: tr)

/-! ## Concrete scenarios used as counterexamples -/

/-- Run a sequence of inserts (scenario helper for concrete runs). -/
def insertSeq (p : Nat × St) : List (List Nat × List Nat) → Option (Nat × St)
  | [] => some p
  | (k, v) :: rest =>
    match insertT 9 DefaultConfig p.2 p.1 k v with
    | none => none
    | some (r, st, _) => insertSeq (r, st) rest

/-- Ten single-byte keys `[100] .. [109]` with 410-byte values: enough bytes
that the tenth insert splits the root leaf. -/
def c2pairs : List (List Nat × List Nat) :=
  (List.range 10).map fun i => ([100 + i], List.replicate 410 7)

/-- C1, counterexample: `Insert` of the empty key on an empty tree writes the
pair into slot 1 while the sentinel `("", "")` occupies slot 0; a subsequent
`Search("")` matches the sentinel at slot 0 and returns the empty value, not
the value just inserted. -/
theorem C1_counterexample :
    ((insertT 9 DefaultConfig emptySt 0 [] [120]).bind fun g =>
        (searchT 9 g.2.1 g.1 []).map Prod.fst) = some (some [])
    ∧ some (some ([] : List Nat)) ≠ some (some [120]) := by
  exact ⟨rfl, by decide⟩

set_option maxRecDepth 8000 in
set_option maxHeartbeats 2000000 in
/-- C2, failing input: ten inserts of single-byte keys `[100] .. [109]` with
410-byte values split the root leaf; `Traverse` skips slot 0 of every leaf,
so the right leaf's first key `[104]` is never visited although `Search`
still finds it (with its full 410-byte value). -/
theorem C2_traverse_misses_key :
    ((insertSeq (0, emptySt) c2pairs).bind fun s =>
        (traverseT 9 s.2 s.1).map fun o => o.1.map Prod.fst)
      = some [[100], [101], [102], [103], [105], [106], [107], [108], [109]]
    ∧ ((insertSeq (0, emptySt) c2pairs).bind fun s =>
        (searchT 9 s.2 s.1 [104]).map fun r => r.1.map List.length)
      = some (some 410) := by
  exact ⟨rfl, rfl⟩

/-- C3, counterexample: after `Insert` of the empty key on an empty tree the
root page holds two zero-length keys, so its keys are not strictly
increasing. -/
theorem C3_counterexample :
    ((insertT 9 DefaultConfig emptySt 0 [] [120]).bind fun g =>
        (getPage g.2.1 g.1).map fun nd => sortedB (keysOf nd.ents))
      = some false := by
  exact rfl

/-- C4, counterexample: in the trace of the second `Insert`, the free of the
replaced root page (`del 1`) precedes the allocation of its replacement
(`new 2`), and the trace of a `Delete` that replaces the root contains no
free of the old root page at all. -/
theorem C4_counterexample :
    ((insertT 9 DefaultConfig emptySt 0 [97] [1]).bind fun g =>
        (insertT 9 DefaultConfig g.2.1 g.1 [98] [2]).map fun g2 => g2.2.2)
      = some [Ev.get 1, Ev.del 1, Ev.new 2]
    ∧ ((insertT 9 DefaultConfig emptySt 0 [97] [1]).bind fun g =>
        (deleteT 9 DefaultConfig g.2.1 g.1 [97]).map fun g2 => g2.2.2)
      = some [Ev.get 1, Ev.new 2] := by
  exact ⟨rfl, rfl⟩

/-! ### A caps-respecting node on which `nodeSplit3` aborts

Record sizes 69, 4004, 69, 4004 (all within the 1000-byte key / 3000-byte
value caps); used bytes `8190 = 2*PageSize - 2`.  The byte counts below are
established through the offset lemmas rather than by evaluating the
3000-element lists. -/

def k64 : List Nat := List.replicate 64 0
def k1000a : List Nat := List.replicate 1000 0
def v3000a : List Nat := List.replicate 3000 0
def k1000b : List Nat := List.replicate 1000 1
def v3000b : List Nat := List.replicate 3000 1

def c5ents : List Entry :=
  [⟨0, [1], k64⟩, ⟨0, k1000a, v3000a⟩, ⟨0, [1], k64⟩, ⟨0, k1000b, v3000b⟩]

def c5node : BNode := ⟨.leaf, c5ents⟩

theorem c5_es0 : entrySize ⟨0, [1], k64⟩ = 69 := by
  unfold entrySize
  rw [show (Entry.mk 0 [1] k64).val = k64 from rfl,
    show k64.length = 64 from List.length_replicate 64 0]
  rfl

theorem c5_es1 : entrySize ⟨0, k1000a, v3000a⟩ = 4004 := by
  unfold entrySize
  rw [show (Entry.mk 0 k1000a v3000a).key = k1000a from rfl,
    show (Entry.mk 0 k1000a v3000a).val = v3000a from rfl,
    show k1000a.length = 1000 from List.length_replicate 1000 0,
    show v3000a.length = 3000 from List.length_replicate 3000 0]

theorem c5_es3 : entrySize ⟨0, k1000b, v3000b⟩ = 4004 := by
  unfold entrySize
  rw [show (Entry.mk 0 k1000b v3000b).key = k1000b from rfl,
    show (Entry.mk 0 k1000b v3000b).val = v3000b from rfl,
    show k1000b.length = 1000 from List.length_replicate 1000 1,
    show v3000b.length = 3000 from List.length_replicate 3000 1]

theorem c5_off1 : offsetAt c5ents 1 = 69 := by
  rw [offsetAt_succ c5ents 0 ⟨0, [1], k64⟩ rfl, offsetAt_zero, c5_es0]

theorem c5_off2 : offsetAt c5ents 2 = 4073 := by
  rw [offsetAt_succ c5ents 1 ⟨0, k1000a, v3000a⟩ rfl, c5_off1, c5_es1]

theorem c5_off3 : offsetAt c5ents 3 = 4142 := by
  rw [offsetAt_succ c5ents 2 ⟨0, [1], k64⟩ rfl, c5_off2, c5_es0]

theorem c5_off4 : offsetAt c5ents 4 = 8146 := by
  rw [offsetAt_succ c5ents 3 ⟨0, k1000b, v3000b⟩ rfl, c5_off3, c5_es3]

theorem c5_lb1 : leftBytes c5ents 1 = 83 := by
  unfold leftBytes; rw [c5_off1]

theorem c5_lb2 : leftBytes c5ents 2 = 4097 := by
  unfold leftBytes; rw [c5_off2]

theorem c5_lb3 : leftBytes c5ents 3 = 4176 := by
  unfold leftBytes; rw [c5_off3]

theorem c5_lb4 : leftBytes c5ents 4 = 8190 := by
  unfold leftBytes; rw [c5_off4]

theorem c5_lbtot : leftBytes c5ents c5ents.length = 8190 := by
  rw [show c5ents.length = 4 from rfl, c5_lb4]

theorem c5_rb1 : rightBytes c5ents 1 = 8111 := by
  rw [rightBytes_eq, c5_lbtot, c5_lb1]

theorem c5_rb2 : rightBytes c5ents 2 = 4097 := by
  rw [rightBytes_eq, c5_lbtot, c5_lb2]

theorem c5_rb3 : rightBytes c5ents 3 = 4018 := by
  rw [rightBytes_eq, c5_lbtot, c5_lb3]

theorem c5_findDown : findDown c5ents DefaultConfig 2 = 1 := by
  have e2 : findDown c5ents DefaultConfig 2 =
      if DefaultConfig.pageSize < leftBytes c5ents 2 then
        findDown c5ents DefaultConfig 1 else 2 := rfl
  have e1 : findDown c5ents DefaultConfig 1 =
      if DefaultConfig.pageSize < leftBytes c5ents 1 then
        findDown c5ents DefaultConfig 0 else 1 := rfl
  rw [e2, if_pos (by rw [show DefaultConfig.pageSize = 4096 from rfl, c5_lb2]; omega),
    e1, if_neg (by rw [show DefaultConfig.pageSize = 4096 from rfl, c5_lb1]; omega)]

theorem c5_split2Point : split2Point c5ents DefaultConfig = 3 := by
  have hdef : split2Point c5ents DefaultConfig =
      findUp c5ents DefaultConfig
        (c5ents.length - findDown c5ents DefaultConfig (c5ents.length / 2))
        (findDown c5ents DefaultConfig (c5ents.length / 2)) := rfl
  rw [hdef, show c5ents.length = 4 from rfl, show (4 : Nat) / 2 = 2 from rfl,
    c5_findDown, show (4 : Nat) - 1 = 3 from rfl]
  have e3 : findUp c5ents DefaultConfig 3 1 =
      if DefaultConfig.pageSize < rightBytes c5ents 1 then
        findUp c5ents DefaultConfig 2 2 else 1 := rfl
  have e2 : findUp c5ents DefaultConfig 2 2 =
      if DefaultConfig.pageSize < rightBytes c5ents 2 then
        findUp c5ents DefaultConfig 1 3 else 2 := rfl
  have e1 : findUp c5ents DefaultConfig 1 3 =
      if DefaultConfig.pageSize < rightBytes c5ents 3 then
        findUp c5ents DefaultConfig 0 4 else 3 := rfl
  rw [e3, if_pos (by rw [show DefaultConfig.pageSize = 4096 from rfl, c5_rb1]; omega),
    e2, if_pos (by rw [show DefaultConfig.pageSize = 4096 from rfl, c5_rb2]; omega),
    e1, if_neg (by rw [show DefaultConfig.pageSize = 4096 from rfl, c5_rb3]; omega)]

theorem c5_nodeSplit2 : nodeSplit2 c5node DefaultConfig =
    some (⟨.leaf, c5ents.take 3⟩, ⟨.leaf, c5ents.drop 3⟩) := by
  rw [show c5node = (⟨.leaf, c5ents⟩ : BNode) from rfl, nodeSplit2_mk]
  rw [if_neg (by rw [show c5ents.length = 4 from rfl]; omega),
    if_neg (by
      rw [show c5ents.length = 4 from rfl, show (4 : Nat) / 2 = 2 from rfl,
        c5_findDown]
      omega),
    if_neg (by rw [c5_split2Point, show c5ents.length = 4 from rfl]; omega),
    c5_split2Point,
    if_neg (by
      rw [nbytes_drop .leaf c5ents 3 (by rw [show c5ents.length = 4 from rfl]; omega)]
      rw [show DefaultConfig.pageSize = 4096 from rfl, c5_rb3]
      omega)]

/-- The left output of the first split, with its own byte counts. -/
def c5left : List Entry := [⟨0, [1], k64⟩, ⟨0, k1000a, v3000a⟩, ⟨0, [1], k64⟩]

theorem c5left_take : c5ents.take 3 = c5left := rfl

theorem c5left_off1 : offsetAt c5left 1 = 69 := by
  rw [offsetAt_succ c5left 0 ⟨0, [1], k64⟩ rfl, offsetAt_zero, c5_es0]

theorem c5left_off2 : offsetAt c5left 2 = 4073 := by
  rw [offsetAt_succ c5left 1 ⟨0, k1000a, v3000a⟩ rfl, c5left_off1, c5_es1]

theorem c5left_off3 : offsetAt c5left 3 = 4142 := by
  rw [offsetAt_succ c5left 2 ⟨0, [1], k64⟩ rfl, c5left_off2, c5_es0]

theorem c5left_lb1 : leftBytes c5left 1 = 83 := by
  unfold leftBytes; rw [c5left_off1]

theorem c5left_lb2 : leftBytes c5left 2 = 4097 := by
  unfold leftBytes; rw [c5left_off2]

theorem c5left_lbtot : leftBytes c5left c5left.length = 4176 := by
  rw [show c5left.length = 3 from rfl]
  unfold leftBytes; rw [c5left_off3]

theorem c5left_rb1 : rightBytes c5left 1 = 4097 := by
  rw [rightBytes_eq, c5left_lbtot, c5left_lb1]

theorem c5left_rb2 : rightBytes c5left 2 = 83 := by
  rw [rightBytes_eq, c5left_lbtot, c5left_lb2]

theorem c5left_findDown : findDown c5left DefaultConfig 1 = 1 := by
  have e1 : findDown c5left DefaultConfig 1 =
      if DefaultConfig.pageSize < leftBytes c5left 1 then
        findDown c5left DefaultConfig 0 else 1 := rfl
  rw [e1, if_neg (by rw [show DefaultConfig.pageSize = 4096 from rfl, c5left_lb1]; omega)]

theorem c5left_split2Point : split2Point c5left DefaultConfig = 2 := by
  have hdef : split2Point c5left DefaultConfig =
      findUp c5left DefaultConfig
        (c5left.length - findDown c5left DefaultConfig (c5left.length / 2))
        (findDown c5left DefaultConfig (c5left.length / 2)) := rfl
  rw [hdef, show c5left.length = 3 from rfl, show (3 : Nat) / 2 = 1 from rfl,
    c5left_findDown, show (3 : Nat) - 1 = 2 from rfl]
  have e2 : findUp c5left DefaultConfig 2 1 =
      if DefaultConfig.pageSize < rightBytes c5left 1 then
        findUp c5left DefaultConfig 1 2 else 1 := rfl
  have e1 : findUp c5left DefaultConfig 1 2 =
      if DefaultConfig.pageSize < rightBytes c5left 2 then
        findUp c5left DefaultConfig 0 3 else 2 := rfl
  rw [e2, if_pos (by rw [show DefaultConfig.pageSize = 4096 from rfl, c5left_rb1]; omega),
    e1, if_neg (by rw [show DefaultConfig.pageSize = 4096 from rfl, c5left_rb2]; omega)]

theorem c5left_nodeSplit2 : nodeSplit2 ⟨.leaf, c5left⟩ DefaultConfig =
    some (⟨.leaf, c5left.take 2⟩, ⟨.leaf, c5left.drop 2⟩) := by
  rw [nodeSplit2_mk]
  rw [if_neg (by rw [show c5left.length = 3 from rfl]; omega),
    if_neg (by
      rw [show c5left.length = 3 from rfl, show (3 : Nat) / 2 = 1 from rfl,
        c5left_findDown]
      omega),
    if_neg (by rw [c5left_split2Point, show c5left.length = 3 from rfl]; omega),
    c5left_split2Point,
    if_neg (by
      rw [nbytes_drop .leaf c5left 2 (by rw [show c5left.length = 3 from rfl]; omega)]
      rw [show DefaultConfig.pageSize = 4096 from rfl, c5left_rb2]
      omega)]

theorem len_replicate_le (n m a : Nat) (h : n ≤ m) :
    (List.replicate n a).length ≤ m := by
  rw [List.length_replicate]; exact h

/-- C5, counterexample: a node whose records all satisfy the key/value caps
(record sizes 69, 4004, 69, 4004; 8190 used bytes — it fits the engine's
double-size transient buffer) on which `nodeSplit3` aborts: the split keeps
moving whole oversized records and the final
`assert(leftleft.nbytes() <= cfg.PageSize)` fires. -/
theorem C5_counterexample :
    capsOK DefaultConfig c5node.ents ∧ nodeSplit3 c5node DefaultConfig = none := by
  constructor
  · intro e he
    have he2 : e ∈ c5ents := he
    simp only [c5ents, List.mem_cons, List.not_mem_nil, or_false] at he2
    rcases he2 with h | h | h | h <;> subst h
    · exact ⟨by decide, len_replicate_le 64 DefaultConfig.maxValSize 0 (by decide)⟩
    · exact ⟨len_replicate_le 1000 DefaultConfig.maxKeySize 0 (by decide),
        len_replicate_le 3000 DefaultConfig.maxValSize 0 (by decide)⟩
    · exact ⟨by decide, len_replicate_le 64 DefaultConfig.maxValSize 0 (by decide)⟩
    · exact ⟨len_replicate_le 1000 DefaultConfig.maxKeySize 1 (by decide),
        len_replicate_le 3000 DefaultConfig.maxValSize 1 (by decide)⟩
  · unfold nodeSplit3
    rw [if_neg (by
      rw [show c5node = (⟨.leaf, c5ents⟩ : BNode) from rfl,
        nbytes_eq_leftBytes .leaf c5ents, c5_lbtot,
        show DefaultConfig.pageSize = 4096 from rfl]
      omega)]
    simp only [c5_nodeSplit2]
    have hLnb : (BNode.mk .leaf (c5ents.take 3)).nbytes = 4176 := by
      rw [nbytes_take .leaf c5ents 3 (by rw [show c5ents.length = 4 from rfl]; omega),
        c5_lb3]
    rw [if_neg (by
      rw [hLnb, show DefaultConfig.pageSize = 4096 from rfl]; omega)]
    rw [show (⟨.leaf, c5ents.take 3⟩ : BNode) = (⟨.leaf, c5left⟩ : BNode) from
      congrArg (BNode.mk .leaf) c5left_take]
    simp only [c5left_nodeSplit2]
    rw [if_pos (by
      rw [nbytes_take .leaf c5left 2 (by rw [show c5left.length = 3 from rfl]; omega),
        c5left_lb2, show DefaultConfig.pageSize = 4096 from rfl]
      omega)]

/-! ## Claim C5 (amended): split and merge size guarantees -/

theorem nbytes_ge_4 (nd : BNode) : 4 ≤ nd.nbytes := by
  unfold BNode.nbytes
  omega

theorem shouldMergeRight_approved {cfg : Config} {st : St} {nd : BNode}
    {idx : Nat} {updated : BNode} {tr0 : List Ev} {dir : Bool} {sib : BNode}
    {tr : List Ev}
    (h : shouldMergeRight cfg st nd idx updated tr0 = some (some (dir, sib), tr)) :
    sib.nbytes + updated.nbytes - 4 ≤ cfg.pageSize := by
  unfold shouldMergeRight at h
  split at h
  · split at h
    · simp at h
    · split at h
      · simp at h
      · split at h
        · simp only [Option.some_inj, Prod.mk.injEq] at h
          obtain ⟨⟨_, hs⟩, _⟩ := h
          subst hs
          assumption
        · simp at h
  · simp at h

theorem shouldMerge_approved {cfg : Config} {st : St} {nd : BNode}
    {idx : Nat} {updated : BNode} {dir : Bool} {sib : BNode} {tr : List Ev}
    (h : shouldMergeT cfg st nd idx updated = some (some (dir, sib), tr)) :
    sib.nbytes + updated.nbytes - 4 ≤ cfg.pageSize := by
  unfold shouldMergeT at h
  split at h
  · simp at h
  · split at h
    · split at h
      · simp at h
      · split at h
        · simp at h
        · split at h
          · simp only [Option.some_inj, Prod.mk.injEq] at h
            obtain ⟨⟨_, hs⟩, _⟩ := h
            subst hs
            assumption
          · exact shouldMergeRight_approved h
    · exact shouldMergeRight_approved h

/-- C5, amended: for every source node whose records satisfy the 1000/3000
key/value caps, `nodeSplit2` (precondition: at least two keys) completes with
no assertion firing and a right node that fits within the page size;
`nodeSplit3` returns one, two or three nodes that all fit within the page
size provided the source node uses at most `2*PageSize - 3` bytes (every node
the engine ever passes to it fits a page plus one capped record, hence is
well under this bound); and every node `nodeMerge` produces from a merge that
`shouldMerge` approved fits within the page size, for any configuration. -/
theorem C5_split_and_merge_fit :
    (∀ nd : BNode, capsOK DefaultConfig nd.ents → 2 ≤ nd.ents.length →
      ∃ l r, nodeSplit2 nd DefaultConfig = some (l, r) ∧
        r.nbytes ≤ DefaultConfig.pageSize)
    ∧ (∀ nd : BNode, capsOK DefaultConfig nd.ents →
        nd.nbytes ≤ 2 * DefaultConfig.pageSize - 3 →
        ∃ pieces, nodeSplit3 nd DefaultConfig = some pieces ∧
          1 ≤ pieces.length ∧ pieces.length ≤ 3 ∧
          ∀ p ∈ pieces, p.nbytes ≤ DefaultConfig.pageSize)
    ∧ (∀ (cfg : Config) (st : St) (nd : BNode) (idx : Nat)
        (updated sib : BNode) (dir : Bool) (tr : List Ev),
        shouldMergeT cfg st nd idx updated = some (some (dir, sib), tr) →
        (if dir then nodeMerge sib updated else nodeMerge updated sib).nbytes ≤
          cfg.pageSize) := by
  refine ⟨?_, ?_, ?_⟩
  · rintro ⟨bt, ents⟩ hcap hn
    have hcap2 := capsOK_entrySize hcap
    obtain ⟨hd1, hfge, hfn, hffits⟩ := split2_bounds ents hcap2 hn
    refine ⟨_, _, nodeSplit2_eq_some bt ents hcap2 hn, ?_⟩
    rw [show DefaultConfig.pageSize = 4096 from rfl]
    rw [nbytes_drop bt ents (split2Point ents DefaultConfig) (by omega)]
    exact hffits
  · intro nd hcap hW
    have hcap2 := capsOK_entrySize hcap
    obtain ⟨pieces, h1, h2, h3, h4⟩ := nodeSplit3_fits nd hcap2
      (by rw [show DefaultConfig.pageSize = 4096 from rfl] at hW; exact hW)
    exact ⟨pieces, h1, h2, h3, fun p hp => by
      rw [show DefaultConfig.pageSize = 4096 from rfl]; exact h4 p hp⟩
  · intro cfg st nd idx updated sib dir tr h
    have happ := shouldMerge_approved h
    have h4s := nbytes_ge_4 sib
    have h4u := nbytes_ge_4 updated
    cases dir
    · rw [if_neg Bool.false_ne_true]
      have hm := nodeMerge_nbytes updated sib
      omega
    · rw [if_pos rfl]
      have hm := nodeMerge_nbytes sib updated
      omega

/-- C5, witness: a two-record node within the caps splits successfully. -/
theorem C5_witness :
    ∃ l r, nodeSplit2 ⟨.leaf, [⟨0, [1], [2]⟩, ⟨0, [2], [3]⟩]⟩ DefaultConfig =
        some (l, r) ∧ r.nbytes ≤ DefaultConfig.pageSize :=
  C5_split_and_merge_fit.1 ⟨.leaf, [⟨0, [1], [2]⟩, ⟨0, [2], [3]⟩]⟩
    (fun e he => by
      have he2 : e ∈ [(⟨0, [1], [2]⟩ : Entry), ⟨0, [2], [3]⟩] := he
      simp only [List.mem_cons, List.not_mem_nil, or_false] at he2
      rcases he2 with h | h <;> subst h <;> exact ⟨by decide, by decide⟩)
    (by decide)

/-! ## Claim C7: the merge decision of `shouldMerge` -/

/-- The claim's decision rule, transcribed from the spec's words: eligible iff
the updated child uses at most a quarter page; then left sibling exactly when
`0 < idx` and the size test passes; otherwise right sibling under the same
test when one exists; otherwise no merge.  `lsib`/`rsib` stand for the pages
the siblings hold. -/
def mergeDecisionSpec (cfg : Config) (nkeys idx : Nat) (updated lsib rsib : BNode) :
    Option (Bool × BNode) :=
  if cfg.pageSize / 4 < updated.nbytes then none
  else if 0 < idx ∧ lsib.nbytes + updated.nbytes - 4 ≤ cfg.pageSize then
    some (true, lsib)
  else if idx + 1 < nkeys ∧ rsib.nbytes + updated.nbytes - 4 ≤ cfg.pageSize then
    some (false, rsib)
  else none

theorem shouldMergeRight_decision {cfg : Config} {st : St} {nd : BNode}
    {idx : Nat} {updated rsib : BNode} {tr0 : List Ev}
    {res : Option (Bool × BNode)} {tr : List Ev}
    (hr : idx + 1 < nd.ents.length →
      ∃ e, nd.ents.get? (idx + 1) = some e ∧ getPage st e.ptr = some rsib)
    (h : shouldMergeRight cfg st nd idx updated tr0 = some (res, tr)) :
    res = if idx + 1 < nd.ents.length ∧
        rsib.nbytes + updated.nbytes - 4 ≤ cfg.pageSize
      then some (false, rsib) else none := by
  unfold shouldMergeRight at h
  by_cases hn : idx + 1 < nd.ents.length
  · rw [if_pos hn] at h
    obtain ⟨e, he, hg⟩ := hr hn
    simp only [he, hg] at h
    by_cases ht : rsib.nbytes + updated.nbytes - 4 ≤ cfg.pageSize
    · rw [if_pos ht] at h
      simp only [Option.some_inj, Prod.mk.injEq] at h
      obtain ⟨h1, -⟩ := h
      subst h1
      rw [if_pos ⟨hn, ht⟩]
    · rw [if_neg ht] at h
      simp only [Option.some_inj, Prod.mk.injEq] at h
      obtain ⟨h1, -⟩ := h
      subst h1
      rw [if_neg (fun hc => ht hc.2)]
  · rw [if_neg hn] at h
    simp only [Option.some_inj, Prod.mk.injEq] at h
    obtain ⟨h1, -⟩ := h
    subst h1
    rw [if_neg (fun hc => hn hc.1)]

/-- C7: on every completed run of `shouldMerge`, provided the sibling pages
that exist read back as `lsib`/`rsib`, the returned decision is exactly the
spec's rule: eligible iff the updated child uses at most a quarter of the
page size; when eligible the merge goes left exactly when `0 < idx` and
`left + updated - 4` fits a page, otherwise right under the same test when a
right sibling exists, otherwise no merge. -/
theorem C7_shouldMerge_decision (cfg : Config) (st : St) (nd : BNode)
    (idx : Nat) (updated lsib rsib : BNode) (res : Option (Bool × BNode))
    (tr : List Ev)
    (hl : 0 < idx →
      ∃ e, nd.ents.get? (idx - 1) = some e ∧ getPage st e.ptr = some lsib)
    (hr : idx + 1 < nd.ents.length →
      ∃ e, nd.ents.get? (idx + 1) = some e ∧ getPage st e.ptr = some rsib)
    (h : shouldMergeT cfg st nd idx updated = some (res, tr)) :
    res = mergeDecisionSpec cfg nd.ents.length idx updated lsib rsib := by
  unfold shouldMergeT at h
  unfold mergeDecisionSpec
  by_cases h1 : cfg.pageSize / 4 < updated.nbytes
  · rw [if_pos h1] at h
    simp only [Option.some_inj, Prod.mk.injEq] at h
    obtain ⟨h2, -⟩ := h
    subst h2
    rw [if_pos h1]
  · rw [if_neg h1] at h
    rw [if_neg h1]
    by_cases h2 : 0 < idx
    · rw [if_pos h2] at h
      obtain ⟨e, he, hg⟩ := hl h2
      simp only [he, hg] at h
      by_cases h3 : lsib.nbytes + updated.nbytes - 4 ≤ cfg.pageSize
      · rw [if_pos h3] at h
        simp only [Option.some_inj, Prod.mk.injEq] at h
        obtain ⟨h4, -⟩ := h
        subst h4
        rw [if_pos ⟨h2, h3⟩]
      · rw [if_neg h3] at h
        rw [if_neg (fun hc => h3 hc.2)]
        exact shouldMergeRight_decision hr h
    · rw [if_neg h2] at h
      rw [if_neg (fun hc => h2 hc.1)]
      exact shouldMergeRight_decision hr h

/-- A concrete internal page over two one-record leaves for the C7 witness. -/
def c7leaf : BNode := ⟨.leaf, [⟨0, [5], [6]⟩]⟩

def c7upd : BNode := ⟨.leaf, [⟨0, [7], [8]⟩]⟩

def c7st : St := ⟨[(1, c7leaf), (2, c7leaf)], 3⟩

def c7nd : BNode := ⟨.internal, [⟨1, [1], []⟩, ⟨2, [2], []⟩]⟩

/-- C7, witness: at child index 0 with a small updated child, the decision is
a right merge with the sibling page, matching the spec rule. -/
theorem C7_witness :
    (some (false, c7leaf) : Option (Bool × BNode)) =
      mergeDecisionSpec DefaultConfig c7nd.ents.length 0 c7upd c7leaf c7leaf :=
  C7_shouldMerge_decision DefaultConfig c7st c7nd 0 c7upd c7leaf c7leaf
    (some (false, c7leaf)) [Ev.get 2]
    (fun hc => absurd hc (by decide))
    (fun _ => ⟨⟨2, [2], []⟩, rfl, rfl⟩)
    rfl

/-! ## Claim C10: `Search` and `Traverse` are read-only

In the embedding the store `St` is threaded by value: `searchT` and
`traverseT` take the store and the root and return neither, mirroring that
`Search`/`Traverse` never reassign `tree.root` nor write a page.  The
remaining observable effect is the callback trace, which we show consists of
`Get` events only. -/

theorem treeSearch_gets (fuel : Nat) : ∀ (st : St) (nd : BNode) (k : List Nat)
    (r : Option (List Nat)) (tr : List Ev),
    treeSearch fuel st nd k = some (r, tr) → ∀ ev ∈ tr, ∃ p, ev = Ev.get p := by
  induction fuel with
  | zero =>
    intro st nd k r tr h
    exact Option.noConfusion h
  | succ fuel ih =>
    intro st nd k r tr h
    unfold treeSearch at h
    cases hbt : nd.btype
    case succ.leaf =>
      simp only [hbt] at h
      by_cases hlt : nodeLookupLE nd k < nd.ents.length
      · rw [if_pos hlt] at h
        cases hge : nd.ents.get? (nodeLookupLE nd k) with
        | none => simp only [hge] at h; exact Option.noConfusion h
        | some e =>
          simp only [hge] at h
          by_cases hk : e.key = k
          · rw [if_pos hk] at h
            simp only [Option.some_inj, Prod.mk.injEq] at h
            obtain ⟨-, h2⟩ := h
            subst h2
            intro ev hev
            simp at hev
          · rw [if_neg hk] at h
            simp only [Option.some_inj, Prod.mk.injEq] at h
            obtain ⟨-, h2⟩ := h
            subst h2
            intro ev hev
            simp at hev
      · rw [if_neg hlt] at h
        simp only [Option.some_inj, Prod.mk.injEq] at h
        obtain ⟨-, h2⟩ := h
        subst h2
        intro ev hev
        simp at hev
    case succ.internal =>
      simp only [hbt] at h
      cases hge : nd.ents.get? (nodeLookupLE nd k) with
      | none => simp only [hge] at h; exact Option.noConfusion h
      | some e =>
        simp only [hge] at h
        cases hgp : getPage st e.ptr with
        | none => simp only [hgp] at h; exact Option.noConfusion h
        | some kid =>
          simp only [hgp] at h
          cases hrec : treeSearch fuel st kid k with
          | none => simp only [hrec] at h; exact Option.noConfusion h
          | some p =>
            obtain ⟨r2, tr2⟩ := p
            simp only [hrec] at h
            simp only [Option.some_inj, Prod.mk.injEq] at h
            obtain ⟨-, h2⟩ := h
            subst h2
            intro ev hev
            rcases List.mem_cons.mp hev with h3 | h3
            · exact ⟨e.ptr, h3⟩
            · exact ih st kid k r2 tr2 hrec ev h3

theorem searchT_gets (fuel : Nat) (st : St) (root : Nat) (k : List Nat)
    (r : Option (List Nat)) (tr : List Ev)
    (h : searchT fuel st root k = some (r, tr)) :
    ∀ ev ∈ tr, ∃ p, ev = Ev.get p := by
  unfold searchT at h
  by_cases hz : root = 0
  · rw [if_pos hz] at h
    simp only [Option.some_inj, Prod.mk.injEq] at h
    obtain ⟨-, h2⟩ := h
    subst h2
    intro ev hev
    simp at hev
  · rw [if_neg hz] at h
    cases hgp : getPage st root with
    | none => simp only [hgp] at h; exact Option.noConfusion h
    | some nd =>
      simp only [hgp] at h
      cases hrec : treeSearch fuel st nd k with
      | none => simp only [hrec] at h; exact Option.noConfusion h
      | some p =>
        obtain ⟨r2, tr2⟩ := p
        simp only [hrec] at h
        simp only [Option.some_inj, Prod.mk.injEq] at h
        obtain ⟨-, h2⟩ := h
        subst h2
        intro ev hev
        rcases List.mem_cons.mp hev with h3 | h3
        · exact ⟨root, h3⟩
        · exact treeSearch_gets fuel st nd k r2 tr2 hrec ev h3

theorem travKids_gets
    (f : St → BNode → Option (List (List Nat × List Nat) × List Ev))
    (hf : ∀ st nd o tr, f st nd = some (o, tr) → ∀ ev ∈ tr, ∃ p, ev = Ev.get p) :
    ∀ (l : List Entry) (st : St) (o : List (List Nat × List Nat)) (tr : List Ev),
    travKids f st l = some (o, tr) → ∀ ev ∈ tr, ∃ p, ev = Ev.get p := by
  intro l
  induction l with
  | nil =>
    intro st o tr h
    unfold travKids at h
    simp only [Option.some_inj, Prod.mk.injEq] at h
    obtain ⟨-, h2⟩ := h
    subst h2
    intro ev hev
    simp at hev
  | cons e rest ih =>
    intro st o tr h
    unfold travKids at h
    cases hgp : getPage st e.ptr with
    | none => simp only [hgp] at h; exact Option.noConfusion h
    | some kid =>
      simp only [hgp] at h
      cases hrec : f st kid with
      | none => simp only [hrec] at h; exact Option.noConfusion h
      | some p =>
        obtain ⟨o1, t1⟩ := p
        simp only [hrec] at h
        cases hrest : travKids f st rest with
        | none => simp only [hrest] at h; exact Option.noConfusion h
        | some q =>
          obtain ⟨o2, t2⟩ := q
          simp only [hrest] at h
          simp only [Option.some_inj, Prod.mk.injEq] at h
          obtain ⟨-, h2⟩ := h
          subst h2
          intro ev hev
          rcases List.mem_cons.mp hev with h3 | h3
          · exact ⟨e.ptr, h3⟩
          · rcases List.mem_append.mp h3 with h4 | h4
            · exact hf st kid o1 t1 hrec ev h4
            · exact ih st o2 t2 hrest ev h4

theorem treeTraverse_gets (fuel : Nat) : ∀ (st : St) (nd : BNode)
    (o : List (List Nat × List Nat)) (tr : List Ev),
    treeTraverse fuel st nd = some (o, tr) → ∀ ev ∈ tr, ∃ p, ev = Ev.get p := by
  induction fuel with
  | zero =>
    intro st nd o tr h
    exact Option.noConfusion h
  | succ fuel ih =>
    intro st nd o tr h
    unfold treeTraverse at h
    cases hbt : nd.btype
    case succ.leaf =>
      simp only [hbt] at h
      simp only [Option.some_inj, Prod.mk.injEq] at h
      obtain ⟨-, h2⟩ := h
      subst h2
      intro ev hev
      simp at hev
    case succ.internal =>
      simp only [hbt] at h
      exact travKids_gets (treeTraverse fuel)
        (fun st2 nd2 o2 tr2 hh => ih st2 nd2 o2 tr2 hh) nd.ents st o tr h

theorem traverseT_gets (fuel : Nat) (st : St) (root : Nat)
    (o : List (List Nat × List Nat)) (tr : List Ev)
    (h : traverseT fuel st root = some (o, tr)) :
    ∀ ev ∈ tr, ∃ p, ev = Ev.get p := by
  unfold traverseT at h
  by_cases hz : root = 0
  · rw [if_pos hz] at h
    simp only [Option.some_inj, Prod.mk.injEq] at h
    obtain ⟨-, h2⟩ := h
    subst h2
    intro ev hev
    simp at hev
  · rw [if_neg hz] at h
    cases hgp : getPage st root with
    | none => simp only [hgp] at h; exact Option.noConfusion h
    | some nd =>
      simp only [hgp] at h
      cases hrec : treeTraverse fuel st nd with
      | none => simp only [hrec] at h; exact Option.noConfusion h
      | some p =>
        obtain ⟨o2, tr2⟩ := p
        simp only [hrec] at h
        simp only [Option.some_inj, Prod.mk.injEq] at h
        obtain ⟨-, h2⟩ := h
        subst h2
        intro ev hev
        rcases List.mem_cons.mp hev with h3 | h3
        · exact ⟨root, h3⟩
        · exact treeTraverse_gets fuel st nd o2 tr2 hrec ev h3

/-- C10: `Search` and `Traverse` are read-only.  In the embedding they take
the store and root by value and return neither (so the root identifier and
every stored page are unchanged by construction), and every callback event
in a completed run's trace is a `Get` — never `New` or `Del`. -/
theorem C10_search_traverse_read_only :
    (∀ (fuel : Nat) (st : St) (root : Nat) (k : List Nat)
        (r : Option (List Nat)) (tr : List Ev),
      searchT fuel st root k = some (r, tr) → ∀ ev ∈ tr, ∃ p, ev = Ev.get p)
    ∧ (∀ (fuel : Nat) (st : St) (root : Nat)
        (o : List (List Nat × List Nat)) (tr : List Ev),
      traverseT fuel st root = some (o, tr) → ∀ ev ∈ tr, ∃ p, ev = Ev.get p) :=
  ⟨searchT_gets, traverseT_gets⟩

/-- C10, witness: a concrete one-page search run whose trace is `[Get 1]`;
the single event is a `Get`. -/
theorem C10_witness : ∃ p, Ev.get 1 = Ev.get p :=
  C10_search_traverse_read_only.1 2 c7st 1 [5] (some [6]) [Ev.get 1] rfl
    (Ev.get 1) (List.mem_singleton.mpr rfl)

/-! ## Claim C8: deleting an absent key is a no-op -/

/-- If the recursive search reports the key absent, the recursive delete
returns the not-found signal with the store untouched and the same trace. -/
theorem treeDelete_absent (fuel : Nat) : ∀ (cfg : Config) (st : St)
    (nd : BNode) (k : List Nat) (tr : List Ev),
    treeSearch fuel st nd k = some (none, tr) →
    treeDelete fuel cfg st nd k = some (none, st, tr) := by
  induction fuel with
  | zero =>
    intro cfg st nd k tr h
    exact Option.noConfusion h
  | succ fuel ih =>
    intro cfg st nd k tr h
    unfold treeSearch at h
    unfold treeDelete
    cases hbt : nd.btype
    case succ.leaf =>
      simp only [hbt] at h ⊢
      by_cases hlt : nodeLookupLE nd k < nd.ents.length
      · rw [if_pos hlt] at h ⊢
        cases hge : nd.ents.get? (nodeLookupLE nd k) with
        | none => simp only [hge] at h; exact Option.noConfusion h
        | some e =>
          simp only [hge] at h ⊢
          by_cases hk : e.key = k
          · rw [if_pos hk] at h
            simp only [Option.some_inj, Prod.mk.injEq] at h
            exact Option.noConfusion h.1
          · rw [if_neg hk] at h
            rw [if_neg hk]
            simp only [Option.some_inj, Prod.mk.injEq] at h
            obtain ⟨-, h2⟩ := h
            subst h2
            rfl
      · rw [if_neg hlt] at h ⊢
        simp only [Option.some_inj, Prod.mk.injEq] at h
        obtain ⟨-, h2⟩ := h
        subst h2
        rfl
    case succ.internal =>
      simp only [hbt] at h ⊢
      unfold nodeDelete
      cases hge : nd.ents.get? (nodeLookupLE nd k) with
      | none => simp only [hge] at h; exact Option.noConfusion h
      | some e =>
        simp only [hge] at h ⊢
        cases hgp : getPage st e.ptr with
        | none => simp only [hgp] at h; exact Option.noConfusion h
        | some kid =>
          simp only [hgp] at h ⊢
          cases hrec : treeSearch fuel st kid k with
          | none => simp only [hrec] at h; exact Option.noConfusion h
          | some p =>
            obtain ⟨r2, tr2⟩ := p
            simp only [hrec] at h
            simp only [Option.some_inj, Prod.mk.injEq] at h
            obtain ⟨h1, h2⟩ := h
            subst h2
            cases r2 with
            | some v => exact Option.noConfusion h1
            | none =>
              have ihd := ih cfg st kid k tr2 hrec
              simp only [ihd]

/-- C8: if `Search` reports a key absent, `Delete` of that key on the same
tree is a no-op: it returns the same root identifier, the store is unchanged
(hence every subsequent `Search` and `Traverse` result is unchanged), no page
is allocated or freed, and its callback trace is the search's own all-`Get`
trace. -/
theorem C8_delete_absent (fuel : Nat) (cfg : Config) (st : St) (root : Nat)
    (k : List Nat) (tr : List Ev)
    (h : searchT fuel st root k = some (none, tr)) :
    deleteT fuel cfg st root k = some (root, st, tr)
    ∧ ∀ ev ∈ tr, ∃ p, ev = Ev.get p := by
  refine ⟨?_, searchT_gets fuel st root k none tr h⟩
  unfold searchT at h
  unfold deleteT
  by_cases hz : root = 0
  · rw [if_pos hz] at h ⊢
    simp only [Option.some_inj, Prod.mk.injEq] at h
    obtain ⟨-, h2⟩ := h
    subst h2
    rfl
  · rw [if_neg hz] at h ⊢
    cases hgp : getPage st root with
    | none => simp only [hgp] at h; exact Option.noConfusion h
    | some nd =>
      simp only [hgp] at h ⊢
      cases hrec : treeSearch fuel st nd k with
      | none => simp only [hrec] at h; exact Option.noConfusion h
      | some p =>
        obtain ⟨r2, tr2⟩ := p
        simp only [hrec] at h
        simp only [Option.some_inj, Prod.mk.injEq] at h
        obtain ⟨h1, h2⟩ := h
        subst h2
        cases r2 with
        | some v => exact Option.noConfusion h1
        | none =>
          have ihd := treeDelete_absent fuel cfg st nd k tr2 hrec
          simp only [ihd]

/-- C8, witness: deleting the absent key `[9]` from a one-page tree returns
the same root and store with a read-only trace. -/
theorem C8_witness :
    deleteT 2 DefaultConfig c7st 1 [9] = some (1, c7st, [Ev.get 1]) :=
  (C8_delete_absent 2 DefaultConfig c7st 1 [9] [Ev.get 1] rfl).1

/-- C6, witness: on the sorted two-key page `[[1],[3]]` with probe `[9]`
(all keys not greater than the probe) the lookup returns `n - 1 = 1`. -/
theorem C6_witness :
    nodeLookupLE ⟨.leaf, [⟨0, [1], [2]⟩, ⟨0, [3], [4]⟩]⟩ [9] = 1 :=
  (C6_nodeLookupLE_correct ⟨.leaf, [⟨0, [1], [2]⟩, ⟨0, [3], [4]⟩]⟩ [9]
    (by decide) (by decide)).2.2 ⟨by decide, by decide⟩

/-! ## The association-list model of a subtree's contents

`lookupA`/`insA`/`delA` are the specification-side association-list
operations the tree is proven to refine: lookup, ordered insert-or-replace
(the new record carries pointer 0, as `leafInsert`/`leafUpdate` write it),
and first-match removal. -/

def headKeyE : List Entry → Option (List Nat)
  | [] => none
  | e :: _ => some e.key

def lookupA (k : List Nat) : List Entry → Option (List Nat)
  | [] => none
  | e :: rest => if e.key = k then some e.val else lookupA k rest

def insA (k v : List Nat) : List Entry → List Entry
  | [] => [⟨0, k, v⟩]
  | e :: rest =>
    match cmpB e.key k with
    | .lt => e :: insA k v rest
    | .eq => ⟨0, k, v⟩ :: rest
    | .gt => ⟨0, k, v⟩ :: e :: rest

def delA (k : List Nat) : List Entry → List Entry
  | [] => []
  | e :: rest => if e.key = k then rest else e :: delA k rest

theorem ne_of_cmpB_lt {a b : List Nat} (h : cmpB a b = .lt) : a ≠ b := by
  intro he
  subst he
  rw [cmpB_self] at h
  exact Ordering.noConfusion h

theorem ne_of_cmpB_gt {a b : List Nat} (h : cmpB a b = .gt) : a ≠ b := by
  intro he
  subst he
  rw [cmpB_self] at h
  exact Ordering.noConfusion h

theorem lookupA_insA (k v : List Nat) (cs : List Entry) :
    lookupA k (insA k v cs) = some v := by
  induction cs with
  | nil => simp [insA, lookupA]
  | cons e rest ih =>
    rcases cmpB_trichotomy e.key k with hc | hc | hc
    · simp [insA, hc, lookupA, ne_of_cmpB_lt hc, ih]
    · simp [insA, hc, lookupA]
    · simp [insA, hc, lookupA]

theorem insA_cons_lt {e : Entry} {k : List Nat} (v : List Nat)
    (t : List Entry) (h : cmpB e.key k = .lt) :
    insA k v (e :: t) = e :: insA k v t := by
  simp [insA, h]

theorem insA_append_left {k : List Nat} (v : List Nat) {A : List Entry}
    (hA : ∀ e ∈ A, cmpB e.key k = .lt) (r : List Entry) :
    insA k v (A ++ r) = A ++ insA k v r := by
  induction A with
  | nil => simp
  | cons a A2 ih =>
    rw [List.cons_append, insA_cons_lt v _ (hA a (by simp)),
      ih (fun e he => hA e (by simp [he])), List.cons_append]

theorem insA_append_right {k : List Nat} (v : List Nat) {B : List Entry}
    (hB : ∀ e ∈ B, cmpB e.key k = .gt) (C : List Entry) :
    insA k v (C ++ B) = insA k v C ++ B := by
  induction C with
  | nil =>
    cases B with
    | nil => simp [insA]
    | cons b B2 => simp [insA, hB b (by simp)]
  | cons c C2 ih =>
    rcases cmpB_trichotomy c.key k with hc | hc | hc <;>
      simp [insA, hc, ih]

theorem keysOf_insA_mem {k v : List Nat} {cs : List Entry} :
    ∀ x ∈ keysOf (insA k v cs), x = k ∨ x ∈ keysOf cs := by
  induction cs with
  | nil => simp [insA, keysOf]
  | cons e rest ih =>
    intro x hx
    rcases cmpB_trichotomy e.key k with hc | hc | hc
    · rw [insA_cons_lt v rest hc] at hx
      simp only [keysOf, List.map_cons, List.mem_cons] at hx ⊢
      rcases hx with hx | hx
      · exact Or.inr (Or.inl hx)
      · rcases ih x hx with h2 | h2
        · exact Or.inl h2
        · exact Or.inr (Or.inr h2)
    · simp only [insA, hc, keysOf, List.map_cons, List.mem_cons] at hx ⊢
      tauto
    · simp only [insA, hc, keysOf, List.map_cons, List.mem_cons] at hx ⊢
      tauto

theorem insA_sorted {k : List Nat} (v : List Nat) {cs : List Entry}
    (hs : sortedB (keysOf cs) = true) :
    sortedB (keysOf (insA k v cs)) = true := by
  induction cs with
  | nil => simp [insA, keysOf, sortedB]
  | cons e rest ih =>
    simp only [keysOf, List.map_cons] at hs
    rcases sortedB_cons.mp hs with ⟨hall, hrest⟩
    rcases cmpB_trichotomy e.key k with hc | hc | hc
    · rw [insA_cons_lt v rest hc]
      simp only [keysOf, List.map_cons]
      rw [sortedB_cons]
      refine ⟨?_, ih hrest⟩
      intro b hb
      rcases keysOf_insA_mem b hb with h2 | h2
      · subst h2; exact hc
      · exact hall b h2
    · simp only [insA, hc, keysOf, List.map_cons]
      rw [sortedB_cons]
      refine ⟨?_, hrest⟩
      intro b hb
      exact cmpB_lt_of_eq_of_lt (cmpB_eq_iff.mpr (cmpB_eq_iff.mp hc).symm) (hall b hb)
    · simp only [insA, hc, keysOf, List.map_cons]
      rw [sortedB_cons]
      refine ⟨?_, hs⟩
      intro b hb
      have hke : cmpB k e.key = .lt := cmpB_gt_iff_lt.mp hc
      simp only [List.mem_cons] at hb
      rcases hb with hb | hb
      · subst hb; exact hke
      · exact cmpB_lt_trans hke (hall b hb)

theorem lookupA_eq_none {k : List Nat} {cs : List Entry}
    (h : ∀ e ∈ cs, e.key ≠ k) : lookupA k cs = none := by
  induction cs with
  | nil => rfl
  | cons e rest ih =>
    simp [lookupA, h e (by simp), ih (fun x hx => h x (by simp [hx]))]

theorem lookupA_append_left {k : List Nat} {A : List Entry}
    (hA : ∀ e ∈ A, e.key ≠ k) (r : List Entry) :
    lookupA k (A ++ r) = lookupA k r := by
  induction A with
  | nil => simp
  | cons a A2 ih =>
    rw [List.cons_append]
    simp [lookupA, hA a (by simp), ih (fun e he => hA e (by simp [he]))]

theorem lookupA_append_right {k : List Nat} {B : List Entry}
    (hB : ∀ e ∈ B, e.key ≠ k) (X : List Entry) :
    lookupA k (X ++ B) = lookupA k X := by
  induction X with
  | nil => simp [lookupA_eq_none hB, lookupA]
  | cons x X2 ih =>
    by_cases hx : x.key = k <;> simp [lookupA, hx, ih]

theorem delA_sublist (k : List Nat) (cs : List Entry) :
    (delA k cs).Sublist cs := by
  induction cs with
  | nil => simp [delA]
  | cons e rest ih =>
    by_cases he : e.key = k
    · simp only [delA, if_pos he]
      exact (List.sublist_cons_self e rest).trans (List.Sublist.refl _) |>.trans
        (List.Sublist.refl _)
    · simp only [delA, if_neg he]
      exact ih.cons₂ e

theorem delA_eq_self {k : List Nat} {cs : List Entry}
    (h : ∀ e ∈ cs, e.key ≠ k) : delA k cs = cs := by
  induction cs with
  | nil => rfl
  | cons e rest ih =>
    simp [delA, h e (by simp), ih (fun x hx => h x (by simp [hx]))]

theorem delA_append_left {k : List Nat} {A : List Entry}
    (hA : ∀ e ∈ A, e.key ≠ k) (r : List Entry) :
    delA k (A ++ r) = A ++ delA k r := by
  induction A with
  | nil => simp
  | cons a A2 ih =>
    rw [List.cons_append]
    simp [delA, hA a (by simp), ih (fun e he => hA e (by simp [he]))]

theorem delA_append_right {k : List Nat} {B : List Entry}
    (hB : ∀ e ∈ B, e.key ≠ k) (X : List Entry) :
    delA k (X ++ B) = delA k X ++ B := by
  induction X with
  | nil => simp [delA_eq_self hB, delA]
  | cons x X2 ih =>
    by_cases hx : x.key = k <;> simp [delA, hx, ih]

/-! ## Store validity and extension -/

/-- Every stored identifier is below the fresh counter, which is positive. -/
def Valid (st : St) : Prop :=
  0 < st.fresh ∧ ∀ q ∈ st.pages, q.1 < st.fresh

/-- `st2` extends `st`: pages below the old counter read back unchanged. -/
def Ext (st st2 : St) : Prop :=
  st.fresh ≤ st2.fresh ∧ ∀ p, p < st.fresh → getPage st2 p = getPage st p

theorem Ext_refl (st : St) : Ext st st := ⟨Nat.le_refl _, fun _ _ => rfl⟩

theorem Ext_trans {a b c : St} (h1 : Ext a b) (h2 : Ext b c) : Ext a c :=
  ⟨Nat.le_trans h1.1 h2.1,
   fun p hp => (h2.2 p (Nat.lt_of_lt_of_le hp h1.1)).trans (h1.2 p hp)⟩

theorem getPage_mem {st : St} {p : Nat} {nd : BNode}
    (h : getPage st p = some nd) : (p, nd) ∈ st.pages := by
  unfold getPage at h
  cases hf : st.pages.find? (fun q => q.1 == p) with
  | none => rw [hf] at h; exact Option.noConfusion h
  | some q =>
    rw [hf] at h
    have hq1 := List.find?_some hf
    have hmem : q ∈ st.pages := List.mem_of_find?_eq_some hf
    have hq1e : q.1 = p := by simpa using hq1
    have hq2 : q.2 = nd := by simpa using h
    have hqe : q = (p, nd) := by
      obtain ⟨a, b⟩ := q
      simp only at hq1e hq2
      rw [hq1e, hq2]
    rw [hqe] at hmem
    exact hmem

theorem getPage_lt_fresh {st : St} (hv : Valid st) {p : Nat} {nd : BNode}
    (h : getPage st p = some nd) : p < st.fresh :=
  hv.2 (p, nd) (getPage_mem h)

theorem getPage_alloc_self (st : St) (nd : BNode) :
    getPage (alloc st nd).2 st.fresh = some nd := by
  unfold getPage alloc
  rw [List.find?_cons_of_pos _ (by simp)]
  rfl

theorem getPage_alloc_ne (st : St) (nd : BNode) (p : Nat) (hp : p ≠ st.fresh) :
    getPage (alloc st nd).2 p = getPage st p := by
  unfold getPage alloc
  rw [List.find?_cons_of_neg _ (by simpa using fun he => hp he.symm)]

theorem Ext_alloc (st : St) (nd : BNode) : Ext st (alloc st nd).2 :=
  ⟨by simp [alloc], fun p hp => getPage_alloc_ne st nd p (by omega)⟩

theorem Valid_alloc {st : St} (hv : Valid st) (nd : BNode) :
    Valid (alloc st nd).2 := by
  refine ⟨by simp only [alloc]; omega, ?_⟩
  intro q hq
  simp only [alloc, List.mem_cons] at hq
  rcases hq with hq | hq
  · subst hq; simp only [alloc]; omega
  · have := hv.2 q hq
    simp only [alloc]
    omega

/-! ## Well-formed subtrees and their flattened contents

`wfT st h nd cs` says the page `nd` roots a subtree of height at most `h` in
store `st` whose flattened record list is `cs`: a leaf holds `cs` directly
with strictly increasing keys; an internal page holds one child per entry,
each child well-formed with its first key equal to the parent separator, the
blocks concatenating to `cs` in slot order with strictly increasing keys
overall.  The page-count bound `< 0xFFFF` (needed for `nodeLookupLE`) is
carried for every stored child; the top node's own bound is tracked
separately because the in-flight node `treeInsert` returns may exceed a
page until `nodeSplit3` cuts it. -/

def wfKids (P : BNode → List Entry → Prop) (st : St) :
    List Entry → List Entry → Prop
  | [], cs => cs = []
  | e :: rest, cs =>
    ∃ kid csk cs2, getPage st e.ptr = some kid ∧ P kid csk ∧
      headKeyE csk = some e.key ∧ cs = csk ++ cs2 ∧ wfKids P st rest cs2

def wfT (st : St) : Nat → BNode → List Entry → Prop
  | 0, _, _ => False
  | h + 1, nd, cs =>
    (nd.btype = .leaf ∧ cs = nd.ents ∧ nd.ents ≠ [] ∧
      sortedB (keysOf nd.ents) = true)
    ∨ (nd.btype = .internal ∧ nd.ents ≠ [] ∧ sortedB (keysOf cs) = true ∧
      wfKids (fun kid csk => wfT st h kid csk ∧ kid.ents.length < 0xFFFF)
        st nd.ents cs)

/-- A stored (page-sized) well-formed subtree: `wfT` plus the slot bound. -/
def wfB (st : St) (h : Nat) (nd : BNode) (cs : List Entry) : Prop :=
  wfT st h nd cs ∧ nd.ents.length < 0xFFFF

theorem wfT_succ (st : St) (h : Nat) (nd : BNode) (cs : List Entry) :
    wfT st (h + 1) nd cs ↔
    ((nd.btype = .leaf ∧ cs = nd.ents ∧ nd.ents ≠ [] ∧
        sortedB (keysOf nd.ents) = true)
      ∨ (nd.btype = .internal ∧ nd.ents ≠ [] ∧ sortedB (keysOf cs) = true ∧
        wfKids (wfB st h) st nd.ents cs)) := Iff.rfl

theorem wfKids_ext {P Q : BNode → List Entry → Prop} {st st2 : St}
    (hv : Valid st) (he : Ext st st2)
    (hPQ : ∀ kid csk, P kid csk → Q kid csk) :
    ∀ l cs, wfKids P st l cs → wfKids Q st2 l cs := by
  intro l
  induction l with
  | nil => intro cs h; exact h
  | cons e rest ih =>
    intro cs h
    obtain ⟨kid, csk, cs2, hg, hP, hh, hcs, hrest⟩ := h
    have hlt : e.ptr < st.fresh := getPage_lt_fresh hv hg
    exact ⟨kid, csk, cs2, (he.2 e.ptr hlt).trans hg, hPQ kid csk hP, hh, hcs,
      ih cs2 hrest⟩

theorem wfT_ext {st st2 : St} (hv : Valid st) (he : Ext st st2) :
    ∀ (h : Nat) (nd : BNode) (cs : List Entry), wfT st h nd cs → wfT st2 h nd cs := by
  intro h
  induction h with
  | zero => intro nd cs hw; exact absurd hw (by simp [wfT])
  | succ h ih =>
    intro nd cs hw
    rw [wfT_succ] at hw ⊢
    rcases hw with hw | ⟨h1, h2, h3, h4⟩
    · exact Or.inl hw
    · refine Or.inr ⟨h1, h2, h3, ?_⟩
      exact wfKids_ext hv he
        (fun kid csk hp => ⟨ih kid csk hp.1, hp.2⟩) nd.ents cs h4

theorem wfB_ext {st st2 : St} (hv : Valid st) (he : Ext st st2)
    {h : Nat} {nd : BNode} {cs : List Entry} (hw : wfB st h nd cs) :
    wfB st2 h nd cs :=
  ⟨wfT_ext hv he h nd cs hw.1, hw.2⟩

/-! ## Derived facts about well-formed subtrees -/

theorem headKeyE_ne_nil {cs : List Entry} {k : List Nat}
    (h : headKeyE cs = some k) : cs ≠ [] := by
  intro he
  subst he
  exact Option.noConfusion h

theorem headKeyE_append_left {cs : List Entry} (hne : cs ≠ []) (x : List Entry) :
    headKeyE (cs ++ x) = headKeyE cs := by
  cases cs with
  | nil => exact absurd rfl hne
  | cons e t => rfl

theorem drop_cons_of_get? {l : List Entry} : ∀ {idx : Nat} {e : Entry},
    l.get? idx = some e → l.drop idx = e :: l.drop (idx + 1) := by
  induction l with
  | nil => intro idx e h; simp at h
  | cons a t ih =>
    intro idx e h
    cases idx with
    | zero =>
      rw [List.get?_cons_zero] at h
      have : a = e := by simpa using h
      subst this
      rfl
    | succ n =>
      rw [List.get?_cons_succ] at h
      rw [List.drop_succ_cons, ih h]
      rfl

theorem wfT_cs_ne {st : St} : ∀ {h : Nat} {nd : BNode} {cs : List Entry},
    wfT st h nd cs → cs ≠ [] := by
  intro h nd cs hw
  cases h with
  | zero => exact absurd hw (by simp [wfT])
  | succ h =>
    rw [wfT_succ] at hw
    rcases hw with ⟨-, hcs, hne, -⟩ | ⟨-, hne, -, hk⟩
    · rw [hcs]; exact hne
    · obtain ⟨e, t, hent⟩ := List.exists_cons_of_ne_nil hne
      rw [hent] at hk
      obtain ⟨kid, csk, cs2, -, -, hh, hcs, -⟩ := hk
      rw [hcs]
      have := headKeyE_ne_nil hh
      intro hx
      rcases List.append_eq_nil.mp hx with ⟨h1, -⟩
      exact this h1

theorem wfT_headKey {st : St} : ∀ {h : Nat} {nd : BNode} {cs : List Entry},
    wfT st h nd cs → ∃ e0 t, nd.ents = e0 :: t ∧ headKeyE cs = some e0.key := by
  intro h nd cs hw
  cases h with
  | zero => exact absurd hw (by simp [wfT])
  | succ h =>
    rw [wfT_succ] at hw
    rcases hw with ⟨-, hcs, hne, -⟩ | ⟨-, hne, -, hk⟩
    · obtain ⟨e, t, hent⟩ := List.exists_cons_of_ne_nil hne
      exact ⟨e, t, hent, by rw [hcs, hent]; rfl⟩
    · obtain ⟨e, t, hent⟩ := List.exists_cons_of_ne_nil hne
      rw [hent] at hk
      obtain ⟨kid, csk, cs2, -, -, hh, hcs, -⟩ := hk
      refine ⟨e, t, hent, ?_⟩
      rw [hcs, headKeyE_append_left (headKeyE_ne_nil hh) cs2]
      exact hh

theorem wfKids_keys_sublist {P : BNode → List Entry → Prop} {st : St} :
    ∀ (l cs : List Entry), wfKids P st l cs →
    (keysOf l).Sublist (keysOf cs) := by
  intro l
  induction l with
  | nil =>
    intro cs h
    have : cs = [] := h
    subst this
    simp [keysOf]
  | cons e rest ih =>
    intro cs h
    obtain ⟨kid, csk, cs2, -, -, hh, hcs, hrest⟩ := h
    subst hcs
    obtain ⟨e0, t, he0⟩ := List.exists_cons_of_ne_nil (headKeyE_ne_nil hh)
    subst he0
    have he0k : e0.key = e.key := by
      simpa [headKeyE] using hh
    simp only [keysOf, List.map_cons, List.map_append]
    rw [← he0k]
    exact (List.Sublist.cons₂ e0.key
      ((ih cs2 hrest).trans (List.sublist_append_right _ _)))

theorem wfT_page_sorted {st : St} : ∀ {h : Nat} {nd : BNode} {cs : List Entry},
    wfT st h nd cs → sortedB (keysOf nd.ents) = true := by
  intro h nd cs hw
  cases h with
  | zero => exact absurd hw (by simp [wfT])
  | succ h =>
    rw [wfT_succ] at hw
    rcases hw with ⟨-, -, -, hs⟩ | ⟨-, -, hs, hk⟩
    · exact hs
    · exact sortedB_sublist (wfKids_keys_sublist nd.ents cs hk) hs

theorem wfT_cs_sorted {st : St} : ∀ {h : Nat} {nd : BNode} {cs : List Entry},
    wfT st h nd cs → sortedB (keysOf cs) = true := by
  intro h nd cs hw
  cases h with
  | zero => exact absurd hw (by simp [wfT])
  | succ h =>
    rw [wfT_succ] at hw
    rcases hw with ⟨-, hcs, -, hs⟩ | ⟨-, -, hs, -⟩
    · rw [hcs]; exact hs
    · exact hs

theorem wfKids_forall {P : BNode → List Entry → Prop} {st : St} :
    ∀ (l cs : List Entry), wfKids P st l cs →
    ∀ e ∈ l, ∃ kid csk, getPage st e.ptr = some kid ∧ P kid csk ∧
      headKeyE csk = some e.key := by
  intro l
  induction l with
  | nil => intro cs h e he; simp at he
  | cons f rest ih =>
    intro cs h e he
    obtain ⟨kid, csk, cs2, hg, hP, hh, -, hrest⟩ := h
    rcases List.mem_cons.mp he with he | he
    · subst he; exact ⟨kid, csk, hg, hP, hh⟩
    · exact ih cs2 hrest e he

theorem wfKids_append {P : BNode → List Entry → Prop} {st : St} :
    ∀ (l1 cs1 : List Entry) {l2 cs2 : List Entry},
    wfKids P st l1 cs1 → wfKids P st l2 cs2 →
    wfKids P st (l1 ++ l2) (cs1 ++ cs2) := by
  intro l1
  induction l1 with
  | nil =>
    intro cs1 l2 cs2 h1 h2
    have : cs1 = [] := h1
    subst this
    simpa using h2
  | cons e rest ih =>
    intro cs1 l2 cs2 h1 h2
    obtain ⟨kid, csk, csr, hg, hP, hh, hcs, hrest⟩ := h1
    subst hcs
    exact ⟨kid, csk, csr ++ cs2, hg, hP, hh, by rw [List.append_assoc],
      ih csr hrest h2⟩

theorem wfKids_append_split {P : BNode → List Entry → Prop} {st : St} :
    ∀ (l cs : List Entry) (n : Nat), wfKids P st l cs →
    ∃ A B, cs = A ++ B ∧ wfKids P st (l.take n) A ∧ wfKids P st (l.drop n) B := by
  intro l
  induction l with
  | nil =>
    intro cs n h
    have : cs = [] := h
    subst this
    exact ⟨[], [], rfl, by simp [wfKids], by simp [wfKids]⟩
  | cons e rest ih =>
    intro cs n h
    cases n with
    | zero => exact ⟨[], cs, rfl, by simp [wfKids], h⟩
    | succ m =>
      obtain ⟨kid, csk, cs2, hg, hP, hh, hcs, hrest⟩ := h
      obtain ⟨A2, B, hAB, hA2, hB⟩ := ih cs2 m hrest
      refine ⟨csk ++ A2, B, ?_, ?_, ?_⟩
      · rw [hcs, hAB, List.append_assoc]
      · rw [List.take_succ_cons]
        exact ⟨kid, csk, A2, hg, hP, hh, rfl, hA2⟩
      · rw [List.drop_succ_cons]
        exact hB

theorem wfKids_split_at {P : BNode → List Entry → Prop} {st : St}
    {l cs : List Entry} (hw : wfKids P st l cs) {idx : Nat} {e : Entry}
    (he : l.get? idx = some e) :
    ∃ A csk B kid, cs = A ++ (csk ++ B) ∧
      wfKids P st (l.take idx) A ∧
      getPage st e.ptr = some kid ∧ P kid csk ∧ headKeyE csk = some e.key ∧
      wfKids P st (l.drop (idx + 1)) B := by
  obtain ⟨A, B0, hAB, hA, hB0⟩ := wfKids_append_split l cs idx hw
  rw [drop_cons_of_get? he] at hB0
  obtain ⟨kid, csk, cs2, hg, hP, hh, hB0e, hrest⟩ := hB0
  exact ⟨A, csk, cs2, kid, by rw [hAB, hB0e], hA, hg, hP, hh, hrest⟩

/-! ## Key bounds across a sorted block decomposition, and lookup/surgery -/

theorem leCount_pos {k : List Nat} {ents : List Entry} {e0 : Entry}
    {t : List Entry} (hent : ents = e0 :: t) (h : cmpB e0.key k ≠ .gt) :
    1 ≤ leCount k ents := by
  subst hent
  simp only [leCount, if_neg h]
  omega

/-- Records left of a block whose head is not above the probe are strictly
below the probe. -/
theorem prefix_lt {cs A csk B : List Entry} {k ek : List Nat}
    (hcs : cs = A ++ (csk ++ B))
    (hs : sortedB (keysOf cs) = true)
    (hh : headKeyE csk = some ek)
    (hek : cmpB ek k ≠ .gt) :
    ∀ a ∈ A, cmpB a.key k = .lt := by
  intro a ha
  obtain ⟨e0, t, he0⟩ := List.exists_cons_of_ne_nil (headKeyE_ne_nil hh)
  have he0k : e0.key = ek := by
    rw [he0] at hh
    simpa [headKeyE] using hh
  subst hcs
  simp only [keysOf, List.map_append] at hs
  rcases sortedB_append.mp hs with ⟨-, -, hcross⟩
  have halt : cmpB a.key ek = .lt := by
    rw [← he0k]
    refine hcross a.key (List.mem_map_of_mem Entry.key ha) e0.key ?_
    rw [he0]
    simp [keysOf]
  rcases cmpB_ne_gt_iff.mp hek with h2 | h2
  · exact cmpB_lt_trans halt h2
  · subst h2; exact halt

/-- Records of a sorted block whose head is above the probe are all above the
probe. -/
theorem suffix_gt {B : List Entry} {k hb : List Nat}
    (hs : sortedB (keysOf B) = true)
    (hh : headKeyE B = some hb)
    (hgt : cmpB hb k = .gt) :
    ∀ b ∈ B, cmpB b.key k = .gt := by
  obtain ⟨e0, t, he0⟩ := List.exists_cons_of_ne_nil (headKeyE_ne_nil hh)
  have he0k : e0.key = hb := by
    rw [he0] at hh
    simpa [headKeyE] using hh
  subst he0
  intro b hb2
  rcases List.mem_cons.mp hb2 with hb2 | hb2
  · subst hb2; rw [he0k]; exact hgt
  · simp only [keysOf, List.map_cons] at hs
    rcases sortedB_cons.mp hs with ⟨hall, -⟩
    have h1 : cmpB e0.key b.key = .lt :=
      hall b.key (List.mem_map_of_mem Entry.key hb2)
    rw [cmpB_gt_iff_lt] at hgt ⊢
    rw [← he0k] at hgt
    exact cmpB_lt_trans hgt h1

theorem wfKids_headKey {P : BNode → List Entry → Prop} {st : St}
    {e : Entry} {rest B : List Entry}
    (h : wfKids P st (e :: rest) B) : headKeyE B = some e.key := by
  obtain ⟨kid, csk, cs2, -, -, hh, hB, -⟩ := h
  rw [hB, headKeyE_append_left (headKeyE_ne_nil hh) cs2]
  exact hh

/-- A key match at the `leCount - 1` slot realizes the association lookup. -/
theorem lookupA_of_present {k : List Nat} {ents : List Entry}
    (hs : sortedB (keysOf ents) = true) {e : Entry}
    (he : ents.get? (leCount k ents - 1) = some e) (hek : e.key = k) :
    lookupA k ents = some e.val := by
  induction ents with
  | nil => simp at he
  | cons f rest ih =>
    have hs0 := hs
    simp only [keysOf, List.map_cons] at hs
    rcases sortedB_cons.mp hs with ⟨hall, hrest⟩
    rcases cmpB_trichotomy f.key k with hc | hc | hc
    · have hcount : leCount k (f :: rest) = 1 + leCount k rest := by
        simp [leCount, hc]
      have hpos : 1 ≤ leCount k rest := by
        by_contra h0
        have hz : leCount k rest = 0 := by omega
        rw [hcount, hz] at he
        simp at he
        rw [← he] at hek
        exact ne_of_cmpB_lt hc hek
      have he2 : rest.get? (leCount k rest - 1) = some e := by
        rw [hcount, show 1 + leCount k rest - 1 = leCount k rest by omega,
          show leCount k rest = (leCount k rest - 1) + 1 by omega] at he
        simpa using he
      simp only [lookupA, if_neg (ne_of_cmpB_lt hc)]
      exact ih hrest he2
    · have hfk : f.key = k := cmpB_eq_iff.mp hc
      have hgt : ∀ x ∈ rest, cmpB x.key k = .gt := by
        intro x hx
        have hlt : cmpB f.key x.key = .lt :=
          hall x.key (List.mem_map_of_mem Entry.key hx)
        rw [hfk] at hlt
        exact cmpB_gt_iff_lt.mpr hlt
      have hcount : leCount k (f :: rest) = 1 := by
        simp [leCount, hc, leCount_all_gt hgt]
      rw [hcount] at he
      simp at he
      subst he
      simp [lookupA, hfk]
    · have hgt0 : ∀ x ∈ (f :: rest), cmpB x.key k = .gt :=
        sorted_tail_gt (by simpa [keysOf] using hs0) f rfl hc
      have hcount : leCount k (f :: rest) = 0 := leCount_all_gt hgt0
      rw [hcount] at he
      simp at he
      subst he
      exact absurd hek (ne_of_cmpB_gt hc)

/-- Probe absent: `insA` is insertion at slot `leCount` (the `leafInsert` at
`lookup + 1`). -/
theorem insA_absent {k : List Nat} (v : List Nat) {ents : List Entry}
    (hs : sortedB (keysOf ents) = true)
    (habs : ∀ x ∈ ents, x.key ≠ k) :
    insA k v ents =
      ents.take (leCount k ents) ++ ⟨0, k, v⟩ :: ents.drop (leCount k ents) := by
  induction ents with
  | nil => simp [insA, leCount]
  | cons f rest ih =>
    have hs0 := hs
    simp only [keysOf, List.map_cons] at hs
    rcases sortedB_cons.mp hs with ⟨hall, hrest⟩
    rcases cmpB_trichotomy f.key k with hc | hc | hc
    · have hcount : leCount k (f :: rest) = 1 + leCount k rest := by
        simp [leCount, hc]
      rw [insA_cons_lt v rest hc,
        ih hrest (fun x hx => habs x (by simp [hx])), hcount,
        show 1 + leCount k rest = leCount k rest + 1 by omega,
        List.take_succ_cons, List.drop_succ_cons, List.cons_append]
    · exact absurd (cmpB_eq_iff.mp hc) (habs f (by simp))
    · have hgt0 : ∀ x ∈ (f :: rest), cmpB x.key k = .gt :=
        sorted_tail_gt (by simpa [keysOf] using hs0) f rfl hc
      have hcount : leCount k (f :: rest) = 0 := leCount_all_gt hgt0
      simp [insA, hc, hcount]

/-- Probe present at the lookup slot: `insA` is replacement there (the
`leafUpdate` at `lookup`). -/
theorem insA_present {k : List Nat} (v : List Nat) {ents : List Entry}
    (hs : sortedB (keysOf ents) = true) {e : Entry}
    (he : ents.get? (leCount k ents - 1) = some e) (hek : e.key = k) :
    insA k v ents =
      ents.take (leCount k ents - 1) ++
        ⟨0, k, v⟩ :: ents.drop (leCount k ents) := by
  induction ents with
  | nil => simp at he
  | cons f rest ih =>
    have hs0 := hs
    simp only [keysOf, List.map_cons] at hs
    rcases sortedB_cons.mp hs with ⟨hall, hrest⟩
    rcases cmpB_trichotomy f.key k with hc | hc | hc
    · have hcount : leCount k (f :: rest) = 1 + leCount k rest := by
        simp [leCount, hc]
      have hpos : 1 ≤ leCount k rest := by
        by_contra h0
        have hz : leCount k rest = 0 := by omega
        rw [hcount, hz] at he
        simp at he
        rw [← he] at hek
        exact ne_of_cmpB_lt hc hek
      have he2 : rest.get? (leCount k rest - 1) = some e := by
        rw [hcount, show 1 + leCount k rest - 1 = leCount k rest by omega,
          show leCount k rest = (leCount k rest - 1) + 1 by omega] at he
        simpa using he
      rw [insA_cons_lt v rest hc, ih hrest he2, hcount,
        show 1 + leCount k rest - 1 = (leCount k rest - 1) + 1 by omega,
        show 1 + leCount k rest = leCount k rest + 1 by omega,
        List.take_succ_cons, List.drop_succ_cons, List.cons_append]
    · have hfk : f.key = k := cmpB_eq_iff.mp hc
      have hgt : ∀ x ∈ rest, cmpB x.key k = .gt := by
        intro x hx
        have hlt : cmpB f.key x.key = .lt :=
          hall x.key (List.mem_map_of_mem Entry.key hx)
        rw [hfk] at hlt
        exact cmpB_gt_iff_lt.mpr hlt
      have hcount : leCount k (f :: rest) = 1 := by
        simp [leCount, hc, leCount_all_gt hgt]
      rw [hcount]
      simp [insA, hc]
    · have hgt0 : ∀ x ∈ (f :: rest), cmpB x.key k = .gt :=
        sorted_tail_gt (by simpa [keysOf] using hs0) f rfl hc
      have hcount : leCount k (f :: rest) = 0 := leCount_all_gt hgt0
      rw [hcount] at he
      simp at he
      subst he
      exact absurd hek (ne_of_cmpB_gt hc)

/-- Probe present at the lookup slot: `delA` is removal there (the leaf
delete at `lookup`). -/
theorem delA_present {k : List Nat} {ents : List Entry}
    (hs : sortedB (keysOf ents) = true) {e : Entry}
    (he : ents.get? (leCount k ents - 1) = some e) (hek : e.key = k) :
    delA k ents =
      ents.take (leCount k ents - 1) ++ ents.drop (leCount k ents) := by
  induction ents with
  | nil => simp at he
  | cons f rest ih =>
    have hs0 := hs
    simp only [keysOf, List.map_cons] at hs
    rcases sortedB_cons.mp hs with ⟨hall, hrest⟩
    rcases cmpB_trichotomy f.key k with hc | hc | hc
    · have hcount : leCount k (f :: rest) = 1 + leCount k rest := by
        simp [leCount, hc]
      have hpos : 1 ≤ leCount k rest := by
        by_contra h0
        have hz : leCount k rest = 0 := by omega
        rw [hcount, hz] at he
        simp at he
        rw [← he] at hek
        exact ne_of_cmpB_lt hc hek
      have he2 : rest.get? (leCount k rest - 1) = some e := by
        rw [hcount, show 1 + leCount k rest - 1 = leCount k rest by omega,
          show leCount k rest = (leCount k rest - 1) + 1 by omega] at he
        simpa using he
      rw [show delA k (f :: rest) = f :: delA k rest by
          simp [delA, ne_of_cmpB_lt hc],
        ih hrest he2, hcount,
        show 1 + leCount k rest - 1 = (leCount k rest - 1) + 1 by omega,
        show 1 + leCount k rest = leCount k rest + 1 by omega,
        List.take_succ_cons, List.drop_succ_cons, List.cons_append]
    · have hfk : f.key = k := cmpB_eq_iff.mp hc
      have hgt : ∀ x ∈ rest, cmpB x.key k = .gt := by
        intro x hx
        have hlt : cmpB f.key x.key = .lt :=
          hall x.key (List.mem_map_of_mem Entry.key hx)
        rw [hfk] at hlt
        exact cmpB_gt_iff_lt.mpr hlt
      have hcount : leCount k (f :: rest) = 1 := by
        simp [leCount, hc, leCount_all_gt hgt]
      rw [hcount]
      simp [delA, hfk]
    · have hgt0 : ∀ x ∈ (f :: rest), cmpB x.key k = .gt :=
        sorted_tail_gt (by simpa [keysOf] using hs0) f rfl hc
      have hcount : leCount k (f :: rest) = 0 := leCount_all_gt hgt0
      rw [hcount] at he
      simp at he
      subst he
      exact absurd hek (ne_of_cmpB_gt hc)


theorem sortedB_get_lt {ks : List (List Nat)} (hs : sortedB ks = true)
    {i j : Nat} (hij : i < j) {a b : List Nat}
    (ha : ks.get? i = some a) (hb : ks.get? j = some b) : cmpB a b = .lt := by
  rw [sortedB_iff_pairwise] at hs
  rw [List.get?_eq_some] at ha hb
  obtain ⟨hi, ha⟩ := ha
  obtain ⟨hj, hb⟩ := hb
  subst ha hb
  exact List.pairwise_iff_get.mp hs ⟨i, hi⟩ ⟨j, hj⟩ hij

/-- If the key at the lookup slot `leCount - 1` is not the probe, the probe
is absent from the whole sorted page. -/
theorem key_absent_of_lookup_ne {k : List Nat} {ents : List Entry}
    (hs : sortedB (keysOf ents) = true)
    (hc : 1 ≤ leCount k ents) {e : Entry}
    (he : ents.get? (leCount k ents - 1) = some e) (hek : e.key ≠ k) :
    ∀ x ∈ ents, x.key ≠ k := by
  intro x hx hxk
  obtain ⟨j, hj⟩ := List.mem_iff_get?.mp hx
  have hxle : cmpB x.key k ≠ .gt := by
    rw [hxk, cmpB_self]
    intro hcon
    exact Ordering.noConfusion hcon
  have hjc : j < leCount k ents := (leCount_mem_iff hs j x hj).mp hxle
  have hele : cmpB e.key k ≠ .gt :=
    (leCount_mem_iff hs (leCount k ents - 1) e he).mpr (by omega)
  rcases Nat.lt_or_ge j (leCount k ents - 1) with hlt | hge
  · have hkj : (keysOf ents).get? j = some x.key := by
      unfold keysOf
      rw [List.get?_map, hj]
      rfl
    have hke : (keysOf ents).get? (leCount k ents - 1) = some e.key := by
      unfold keysOf
      rw [List.get?_map, he]
      rfl
    have h1 : cmpB x.key e.key = .lt := sortedB_get_lt hs hlt hkj hke
    rcases cmpB_ne_gt_iff.mp hele with h2 | h2
    · have h3 := cmpB_lt_trans h1 h2
      rw [hxk, cmpB_self] at h3
      exact Ordering.noConfusion h3
    · rw [hxk, h2] at h1
      exact cmpB_lt_irrefl k h1
  · have hje : j = leCount k ents - 1 := by omega
    rw [hje, he] at hj
    have hex : e = x := by simpa using hj
    subst hex
    exact hek hxk

/-! ## Search refines the association-list lookup -/

theorem treeSearch_correct : ∀ (h fuel : Nat) (st : St) (nd : BNode)
    (cs : List Entry) (k : List Nat),
    wfB st h nd cs →
    (∃ hk0, headKeyE cs = some hk0 ∧ cmpB hk0 k ≠ .gt) →
    h ≤ fuel →
    ∃ tr, treeSearch fuel st nd k = some (lookupA k cs, tr) := by
  intro h
  induction h with
  | zero =>
    intro fuel st nd cs k hw hlo hf
    exact absurd hw.1 (by simp [wfT])
  | succ h ih =>
    intro fuel st nd cs k hw hlo hf
    obtain ⟨hwT, hbound⟩ := hw
    obtain ⟨hk0, hhk, hk0le⟩ := hlo
    cases fuel with
    | zero => omega
    | succ fuel =>
      rw [wfT_succ] at hwT
      rcases hwT with ⟨hbt, hcs, hne, hsrt⟩ | ⟨hbt, hne, hsrt, hkids⟩
      · subst hcs
        obtain ⟨e0, t, hent⟩ := List.exists_cons_of_ne_nil hne
        have hk0e : e0.key = hk0 := by
          rw [hent] at hhk
          simpa [headKeyE] using hhk
        have hcpos : 1 ≤ leCount k nd.ents :=
          leCount_pos hent (by rw [hk0e]; exact hk0le)
        have hlook : nodeLookupLE nd k = leCount k nd.ents - 1 := by
          rw [nodeLookupLE_leCount hsrt hbound, if_neg (by omega)]
        have hcle := leCount_le_length k nd.ents
        have hlt : leCount k nd.ents - 1 < nd.ents.length := by omega
        obtain ⟨e, hgetx⟩ : ∃ e, nd.ents.get? (leCount k nd.ents - 1) = some e :=
          ⟨_, List.get?_eq_get hlt⟩
        by_cases hek : e.key = k
        · refine ⟨[], ?_⟩
          unfold treeSearch
          simp only [hbt, hlook, hgetx, if_pos hlt, if_pos hek]
          rw [lookupA_of_present hsrt hgetx hek]
        · refine ⟨[], ?_⟩
          unfold treeSearch
          simp only [hbt, hlook, hgetx, if_pos hlt, if_neg hek]
          rw [lookupA_eq_none (key_absent_of_lookup_ne hsrt hcpos hgetx hek)]
      · obtain ⟨e0, t, hent⟩ := List.exists_cons_of_ne_nil hne
        have hpsrt : sortedB (keysOf nd.ents) = true :=
          sortedB_sublist (wfKids_keys_sublist nd.ents cs hkids) hsrt
        have hhp : headKeyE cs = some e0.key := by
          rw [hent] at hkids
          exact wfKids_headKey hkids
        have he0k : e0.key = hk0 := by
          rw [hhp] at hhk
          simpa using hhk
        have hcpos : 1 ≤ leCount k nd.ents :=
          leCount_pos hent (by rw [he0k]; exact hk0le)
        have hlook : nodeLookupLE nd k = leCount k nd.ents - 1 := by
          rw [nodeLookupLE_leCount hpsrt hbound, if_neg (by omega)]
        have hcle := leCount_le_length k nd.ents
        have hlt : leCount k nd.ents - 1 < nd.ents.length := by omega
        obtain ⟨e, hgetx⟩ : ∃ e, nd.ents.get? (leCount k nd.ents - 1) = some e :=
          ⟨_, List.get?_eq_get hlt⟩
        obtain ⟨A, csk, B, kid, hcseq, hA, hg, hPk, hhcsk, hB⟩ :=
          wfKids_split_at hkids hgetx
        have heke : cmpB e.key k ≠ .gt :=
          (leCount_mem_iff hpsrt _ _ hgetx).mpr (by omega)
        obtain ⟨tr2, hrec⟩ := ih fuel st kid csk k hPk ⟨e.key, hhcsk, heke⟩
          (by omega)
        have hAlt : ∀ a ∈ A, cmpB a.key k = .lt := prefix_lt hcseq hsrt hhcsk heke
        have hAne : ∀ a ∈ A, a.key ≠ k := fun a ha => ne_of_cmpB_lt (hAlt a ha)
        have hBgt : ∀ b ∈ B, cmpB b.key k = .gt := by
          cases hdrop : nd.ents.drop (leCount k nd.ents - 1 + 1) with
          | nil =>
            rw [hdrop] at hB
            have hBnil : B = [] := hB
            subst hBnil
            intro b hb
            simp at hb
          | cons e2 rest2 =>
            rw [hdrop] at hB
            have hhB : headKeyE B = some e2.key := wfKids_headKey hB
            have hge2 : nd.ents.get? (leCount k nd.ents - 1 + 1) = some e2 := by
              have h0 : (nd.ents.drop (leCount k nd.ents - 1 + 1)).get? 0 = some e2 := by
                rw [hdrop]
                rfl
              rw [List.get?_drop] at h0
              simpa using h0
            have he2gt : cmpB e2.key k = .gt := by
              by_contra hcon
              have := (leCount_mem_iff hpsrt _ _ hge2).mp hcon
              omega
            have hBsrt : sortedB (keysOf B) = true := by
              rw [hcseq] at hsrt
              simp only [keysOf, List.map_append] at hsrt
              rcases sortedB_append.mp hsrt with ⟨-, h2, -⟩
              rcases sortedB_append.mp h2 with ⟨-, h3, -⟩
              exact h3
            exact suffix_gt hBsrt hhB he2gt
        have hBne : ∀ b ∈ B, b.key ≠ k := fun b hb => ne_of_cmpB_gt (hBgt b hb)
        have hlookA : lookupA k cs = lookupA k csk := by
          rw [hcseq, lookupA_append_left hAne, lookupA_append_right hBne]
        refine ⟨Ev.get e.ptr :: tr2, ?_⟩
        unfold treeSearch
        simp only [hbt, hlook, hgetx, hg, hrec]
        rw [hlookA]

theorem searchT_correct {st : St} {root h : Nat} {nd : BNode}
    {cs : List Entry} {k : List Nat}
    (hroot : root ≠ 0) (hg : getPage st root = some nd)
    (hw : wfB st h nd cs)
    (hlo : ∃ hk0, headKeyE cs = some hk0 ∧ cmpB hk0 k ≠ .gt) :
    ∃ tr, searchT h st root k = some (lookupA k cs, tr) := by
  obtain ⟨tr, hrec⟩ := treeSearch_correct h h st nd cs k hw hlo (Nat.le_refl h)
  refine ⟨Ev.get root :: tr, ?_⟩
  unfold searchT
  rw [if_neg hroot]
  simp only [hg, hrec]

/-! ## Split results: slices of the source node -/

theorem nodeSplit2_cases {old : BNode} {cfg : Config} {l r : BNode}
    (h : nodeSplit2 old cfg = some (l, r)) :
    ∃ p, 1 ≤ p ∧ p < old.ents.length ∧
      l = ⟨old.btype, old.ents.take p⟩ ∧ r = ⟨old.btype, old.ents.drop p⟩ ∧
      r.nbytes ≤ cfg.pageSize := by
  unfold nodeSplit2 at h
  by_cases h1 : old.ents.length < 2
  · rw [if_pos h1] at h; exact Option.noConfusion h
  · rw [if_neg h1] at h
    by_cases h2 : findDown old.ents cfg (old.ents.length / 2) < 1
    · rw [if_pos h2] at h; exact Option.noConfusion h
    · rw [if_neg h2] at h
      by_cases h3 : old.ents.length ≤ split2Point old.ents cfg
      · rw [if_pos h3] at h; exact Option.noConfusion h
      · rw [if_neg h3] at h
        by_cases h4 : cfg.pageSize <
            (BNode.mk old.btype (old.ents.drop (split2Point old.ents cfg))).nbytes
        · rw [if_pos h4] at h; exact Option.noConfusion h
        · rw [if_neg h4] at h
          simp only [Option.some_inj, Prod.mk.injEq] at h
          obtain ⟨hl, hr⟩ := h
          refine ⟨split2Point old.ents cfg, ?_, by omega, hl.symm, hr.symm, ?_⟩
          · have hge := findUp_ge old.ents cfg
              (old.ents.length - findDown old.ents cfg (old.ents.length / 2))
              (findDown old.ents cfg (old.ents.length / 2))
            unfold split2Point
            omega
          · rw [← hr]
            omega

theorem nodeSplit3_cases {old : BNode} {cfg : Config} {pieces : List BNode}
    (h : nodeSplit3 old cfg = some pieces) :
    (pieces = [old] ∧ old.nbytes ≤ cfg.pageSize)
    ∨ (∃ p, 1 ≤ p ∧ p < old.ents.length ∧
        pieces = [⟨old.btype, old.ents.take p⟩, ⟨old.btype, old.ents.drop p⟩] ∧
        (BNode.mk old.btype (old.ents.take p)).nbytes ≤ cfg.pageSize ∧
        (BNode.mk old.btype (old.ents.drop p)).nbytes ≤ cfg.pageSize)
    ∨ (∃ p q, 1 ≤ q ∧ q < p ∧ p < old.ents.length ∧
        pieces = [⟨old.btype, (old.ents.take p).take q⟩,
                  ⟨old.btype, (old.ents.take p).drop q⟩,
                  ⟨old.btype, old.ents.drop p⟩] ∧
        (BNode.mk old.btype ((old.ents.take p).take q)).nbytes ≤ cfg.pageSize ∧
        (BNode.mk old.btype ((old.ents.take p).drop q)).nbytes ≤ cfg.pageSize ∧
        (BNode.mk old.btype (old.ents.drop p)).nbytes ≤ cfg.pageSize) := by
  unfold nodeSplit3 at h
  by_cases hfit : old.nbytes ≤ cfg.pageSize
  · rw [if_pos hfit] at h
    simp only [Option.some_inj] at h
    exact Or.inl ⟨h.symm, hfit⟩
  · rw [if_neg hfit] at h
    cases hs2 : nodeSplit2 old cfg with
    | none => simp only [hs2] at h; exact Option.noConfusion h
    | some pr =>
      obtain ⟨l, r⟩ := pr
      simp only [hs2] at h
      obtain ⟨p, hp1, hp2, hle, hre, hrfit⟩ := nodeSplit2_cases hs2
      subst hle hre
      by_cases hl : (BNode.mk old.btype (old.ents.take p)).nbytes ≤ cfg.pageSize
      · rw [if_pos hl] at h
        simp only [Option.some_inj] at h
        exact Or.inr (Or.inl ⟨p, hp1, hp2, h.symm, hl, hrfit⟩)
      · rw [if_neg hl] at h
        cases hs2b : nodeSplit2 ⟨old.btype, old.ents.take p⟩ cfg with
        | none => simp only [hs2b] at h; exact Option.noConfusion h
        | some pr2 =>
          obtain ⟨ll, mid⟩ := pr2
          simp only [hs2b] at h
          obtain ⟨q, hq1, hq2, hlle, hmide, hmidfit⟩ := nodeSplit2_cases hs2b
          have hlen : (⟨old.btype, old.ents.take p⟩ : BNode).ents.length = p := by
            simp
            omega
          rw [hlen] at hq2
          subst hlle hmide
          by_cases hll : cfg.pageSize <
              (BNode.mk old.btype ((old.ents.take p).take q)).nbytes
          · rw [if_pos hll] at h
            exact Option.noConfusion h
          · rw [if_neg hll] at h
            simp only [Option.some_inj] at h
            exact Or.inr (Or.inr ⟨p, q, hq1, hq2, hp2, h.symm, by omega, hmidfit,
              hrfit⟩)

/-! ## Slicing a well-formed subtree -/

theorem wfT_slice {st : St} {h : Nat} {nd : BNode} {cs : List Entry}
    (hw : wfT st h nd cs) {n : Nat} (h1 : 1 ≤ n) (h2 : n < nd.ents.length) :
    ∃ csA csB, cs = csA ++ csB ∧
      wfT st h ⟨nd.btype, nd.ents.take n⟩ csA ∧
      wfT st h ⟨nd.btype, nd.ents.drop n⟩ csB := by
  have htne : nd.ents.take n ≠ [] := by
    intro hnil
    have hlen2 : (nd.ents.take n).length = 0 := by rw [hnil]; rfl
    rw [List.length_take] at hlen2
    omega
  have hdne : nd.ents.drop n ≠ [] := by
    intro hnil
    have hlen2 : (nd.ents.drop n).length = 0 := by rw [hnil]; rfl
    rw [List.length_drop] at hlen2
    omega
  have hts : (keysOf (nd.ents.take n)).Sublist (keysOf nd.ents) := by
    unfold keysOf
    rw [List.map_take]
    exact List.take_sublist n _
  have hds : (keysOf (nd.ents.drop n)).Sublist (keysOf nd.ents) := by
    unfold keysOf
    rw [List.map_drop]
    exact List.drop_sublist n _
  cases h with
  | zero => exact absurd hw (by simp [wfT])
  | succ h =>
    rw [wfT_succ] at hw
    rcases hw with ⟨hbt, hcs, hne, hsrt⟩ | ⟨hbt, hne, hsrt, hkids⟩
    · subst hcs
      refine ⟨nd.ents.take n, nd.ents.drop n,
        (List.take_append_drop n nd.ents).symm, ?_, ?_⟩
      · rw [wfT_succ]
        exact Or.inl ⟨hbt, rfl, htne, sortedB_sublist hts hsrt⟩
      · rw [wfT_succ]
        exact Or.inl ⟨hbt, rfl, hdne, sortedB_sublist hds hsrt⟩
    · obtain ⟨A, B, hAB, hA, hB⟩ := wfKids_append_split nd.ents cs n hkids
      subst hAB
      simp only [keysOf, List.map_append] at hsrt
      rcases sortedB_append.mp hsrt with ⟨hsA, hsB, -⟩
      refine ⟨A, B, rfl, ?_, ?_⟩
      · rw [wfT_succ]
        exact Or.inr ⟨hbt, htne, hsA, hA⟩
      · rw [wfT_succ]
        exact Or.inr ⟨hbt, hdne, hsB, hB⟩

/-! ## Well-formed split pieces and their allocation -/

def piecesWF (st : St) (h : Nat) : List BNode → List (List Entry) → Prop
  | [], [] => True
  | p :: ps, csk :: css => wfB st h p csk ∧ piecesWF st h ps css
  | _ :: _, [] => False
  | [], _ :: _ => False

theorem piecesWF_ext {st st2 : St} (hv : Valid st) (he : Ext st st2) {h : Nat} :
    ∀ {ps : List BNode} {css : List (List Entry)},
    piecesWF st h ps css → piecesWF st2 h ps css := by
  intro ps
  induction ps with
  | nil =>
    intro css hp
    cases css with
    | nil => trivial
    | cons c css2 => exact hp.elim
  | cons p ps2 ih =>
    intro css hp
    cases css with
    | nil => exact hp.elim
    | cons c css2 =>
      obtain ⟨h1, h2⟩ := hp
      exact ⟨wfB_ext hv he h1, ih h2⟩

theorem nbytes_ge_len (nd : BNode) : 10 * nd.ents.length ≤ nd.nbytes := by
  unfold BNode.nbytes
  omega

/-- Every piece a successful `nodeSplit3` cuts from a well-formed node is a
well-formed page-bounded subtree, and the pieces' contents rebuild the
whole. -/
theorem nodeSplit3_piecesWF {st : St} {h : Nat} {nd : BNode} {cs : List Entry}
    (hw : wfT st h nd cs) {cfg : Config} {pieces : List BNode}
    (hps : cfg.pageSize ≤ 600000)
    (hsp : nodeSplit3 nd cfg = some pieces) :
    ∃ css, piecesWF st h pieces css ∧ css.join = cs ∧ 1 ≤ pieces.length ∧
      pieces.length ≤ 3 := by
  rcases nodeSplit3_cases hsp with ⟨hpe, hfit⟩ | ⟨p, hp1, hp2, hpe, hfitl, hfitr⟩ |
    ⟨p, q, hq1, hq2, hp2, hpe, hfitll, hfitm, hfitr⟩
  · subst hpe
    refine ⟨[cs], ⟨⟨hw, ?_⟩, trivial⟩, by simp, by simp, by simp⟩
    have := nbytes_ge_len nd
    omega
  · subst hpe
    obtain ⟨csA, csB, hAB, hwA, hwB⟩ := wfT_slice hw hp1 hp2
    have hbA : (BNode.mk nd.btype (nd.ents.take p)).ents.length < 0xFFFF := by
      have := nbytes_ge_len ⟨nd.btype, nd.ents.take p⟩
      omega
    have hbB : (BNode.mk nd.btype (nd.ents.drop p)).ents.length < 0xFFFF := by
      have := nbytes_ge_len ⟨nd.btype, nd.ents.drop p⟩
      omega
    exact ⟨[csA, csB], ⟨⟨hwA, hbA⟩, ⟨hwB, hbB⟩, trivial⟩, by simp [hAB], by simp,
      by simp⟩
  · subst hpe
    obtain ⟨csA, csB, hAB, hwA, hwB⟩ := wfT_slice hw (by omega : 1 ≤ p) hp2
    have hlenA : (⟨nd.btype, nd.ents.take p⟩ : BNode).ents.length = p := by
      simp
      omega
    obtain ⟨csAA, csAB, hAAB, hwAA, hwAB⟩ := wfT_slice hwA hq1 (by rw [hlenA]; omega)
    have hbAA : (BNode.mk nd.btype ((nd.ents.take p).take q)).ents.length < 0xFFFF := by
      have := nbytes_ge_len ⟨nd.btype, (nd.ents.take p).take q⟩
      omega
    have hbAB : (BNode.mk nd.btype ((nd.ents.take p).drop q)).ents.length < 0xFFFF := by
      have := nbytes_ge_len ⟨nd.btype, (nd.ents.take p).drop q⟩
      omega
    have hbB : (BNode.mk nd.btype (nd.ents.drop p)).ents.length < 0xFFFF := by
      have := nbytes_ge_len ⟨nd.btype, nd.ents.drop p⟩
      omega
    exact ⟨[csAA, csAB, csB],
      ⟨⟨hwAA, hbAA⟩, ⟨hwAB, hbAB⟩, ⟨hwB, hbB⟩, trivial⟩,
      by simp [hAB, hAAB], by simp, by simp⟩

theorem allocKids_wf {h : Nat} : ∀ (pieces : List BNode)
    (css : List (List Entry)) (st : St) (mids : List Entry)
    (ids : List Nat) (st2 : St),
    Valid st → piecesWF st h pieces css →
    allocKids st pieces = some (mids, ids, st2) →
    Valid st2 ∧ Ext st st2 ∧
    wfKids (wfB st2 h) st2 mids css.join ∧
    mids.length = pieces.length := by
  intro pieces
  induction pieces with
  | nil =>
    intro css st mids ids st2 hv hpw hak
    cases css with
    | nil =>
      unfold allocKids at hak
      simp only [Option.some_inj, Prod.mk.injEq] at hak
      obtain ⟨hm, -, hs⟩ := hak
      subst hm hs
      exact ⟨hv, Ext_refl st, rfl, rfl⟩
    | cons c css2 => exact hpw.elim
  | cons p ps ih =>
    intro css st mids ids st2 hv hpw hak
    cases css with
    | nil => exact hpw.elim
    | cons csk css2 =>
      obtain ⟨⟨hwp, hbp⟩, hrest⟩ := hpw
      obtain ⟨e0, t, hent, hhc⟩ := wfT_headKey hwp
      have hg0 : p.ents.get? 0 = some e0 := by rw [hent]; rfl
      unfold allocKids at hak
      cases hak2 : allocKids (alloc st p).2 ps with
      | none =>
        simp only [hg0, hak2] at hak
        exact Option.noConfusion hak
      | some trip =>
        obtain ⟨mids2, ids2, st3⟩ := trip
        simp only [hg0, hak2] at hak
        simp only [Option.some_inj, Prod.mk.injEq] at hak
        obtain ⟨hmids, -, hst⟩ := hak
        subst hmids hst
        have hv2 := Valid_alloc hv p
        have hx2 := Ext_alloc st p
        have hpw2 : piecesWF (alloc st p).2 h ps css2 := piecesWF_ext hv hx2 hrest
        obtain ⟨hv3, hx3, hkids3, hlen⟩ :=
          ih css2 (alloc st p).2 mids2 ids2 st3 hv2 hpw2 hak2
        refine ⟨hv3, Ext_trans hx2 hx3, ?_, by simpa using hlen⟩
        rw [List.join]
        refine ⟨p, csk, css2.join, ?_, ?_, hhc, rfl, hkids3⟩
        · have hfr : (alloc st p).1 = st.fresh := rfl
          have hg : getPage (alloc st p).2 st.fresh = some p := getPage_alloc_self st p
          have hlt : st.fresh < (alloc st p).2.fresh := by simp [alloc]
          rw [show (⟨(alloc st p).1, e0.key, []⟩ : Entry).ptr = st.fresh from rfl]
          rw [hx3.2 st.fresh hlt]
          exact hg
        · exact ⟨wfT_ext hv2 hx3 h p csk (wfT_ext hv hx2 h p csk hwp), hbp⟩

/-! ## Insert preserves well-formedness and performs the association insert -/

theorem insA_ne_nil (k v : List Nat) (cs : List Entry) : insA k v cs ≠ [] := by
  cases cs with
  | nil => simp [insA]
  | cons e rest =>
    rcases cmpB_trichotomy e.key k with hc | hc | hc <;> simp [insA, hc]

theorem decomp_B_sorted {A csk B cs : List Entry}
    (hcseq : cs = A ++ (csk ++ B)) (hsrt : sortedB (keysOf cs) = true) :
    sortedB (keysOf B) = true := by
  subst hcseq
  simp only [keysOf, List.map_append] at hsrt
  rcases sortedB_append.mp hsrt with ⟨-, h2, -⟩
  rcases sortedB_append.mp h2 with ⟨-, h3, -⟩
  exact h3

/-- Blocks right of the lookup block hold only keys above the probe. -/
theorem decomp_B_gt {st : St} {P : BNode → List Entry → Prop}
    {ents A csk B cs : List Entry} {k : List Nat}
    (hpsrt : sortedB (keysOf ents) = true)
    (hcseq : cs = A ++ (csk ++ B))
    (hsrt : sortedB (keysOf cs) = true)
    (hB : wfKids P st (ents.drop (leCount k ents - 1 + 1)) B) :
    ∀ b ∈ B, cmpB b.key k = .gt := by
  cases hdrop : ents.drop (leCount k ents - 1 + 1) with
  | nil =>
    rw [hdrop] at hB
    have hBnil : B = [] := hB
    subst hBnil
    intro b hb
    simp at hb
  | cons e2 rest2 =>
    rw [hdrop] at hB
    have hhB : headKeyE B = some e2.key := wfKids_headKey hB
    have hge2 : ents.get? (leCount k ents - 1 + 1) = some e2 := by
      have h0 : (ents.drop (leCount k ents - 1 + 1)).get? 0 = some e2 := by
        rw [hdrop]
        rfl
      rw [List.get?_drop] at h0
      simpa using h0
    have he2gt : cmpB e2.key k = .gt := by
      by_contra hcon
      have := (leCount_mem_iff hpsrt _ _ hge2).mp hcon
      omega
    exact suffix_gt (decomp_B_sorted hcseq hsrt) hhB he2gt

theorem treeInsert_wf (fuel : Nat) : ∀ (st : St) (h : Nat) (nd : BNode)
    (cs : List Entry) (k v : List Nat) (nd2 : BNode) (st2 : St) (tr : List Ev)
    (cfg : Config),
    cfg.pageSize ≤ 600000 →
    Valid st → wfT st h nd cs → nd.ents.length < 0xFFFF →
    (∃ hk0, headKeyE cs = some hk0 ∧ cmpB hk0 k ≠ .gt) →
    treeInsert fuel cfg st nd k v = some (nd2, st2, tr) →
    Valid st2 ∧ Ext st st2 ∧ wfT st2 h nd2 (insA k v cs) := by
  induction fuel with
  | zero =>
    intro st h nd cs k v nd2 st2 tr cfg hps hv hw hbound hlo hins
    exact Option.noConfusion hins
  | succ fuel ih =>
    intro st h nd cs k v nd2 st2 tr cfg hps hv hw hbound hlo hins
    obtain ⟨hk0, hhk, hk0le⟩ := hlo
    cases h with
    | zero => exact absurd hw (by simp [wfT])
    | succ h =>
      rw [wfT_succ] at hw
      rcases hw with ⟨hbt, hcs, hne, hsrt⟩ | ⟨hbt, hne, hsrt, hkids⟩
      · -- leaf
        subst hcs
        obtain ⟨e0, t, hent⟩ := List.exists_cons_of_ne_nil hne
        have hk0e : e0.key = hk0 := by
          rw [hent] at hhk
          simpa [headKeyE] using hhk
        have hcpos : 1 ≤ leCount k nd.ents :=
          leCount_pos hent (by rw [hk0e]; exact hk0le)
        have hlook : nodeLookupLE nd k = leCount k nd.ents - 1 := by
          rw [nodeLookupLE_leCount hsrt hbound, if_neg (by omega)]
        have hcle := leCount_le_length k nd.ents
        have hlt : leCount k nd.ents - 1 < nd.ents.length := by omega
        obtain ⟨e, hgetx⟩ : ∃ e, nd.ents.get? (leCount k nd.ents - 1) = some e :=
          ⟨_, List.get?_eq_get hlt⟩
        unfold treeInsert at hins
        simp only [hbt] at hins
        rw [hlook] at hins
        rw [if_neg (show ¬(leCount k nd.ents - 1 = 0xFFFF) by omega)] at hins
        simp only [hgetx] at hins
        by_cases hek : e.key = k
        · rw [if_pos hek] at hins
          simp only [Option.some_inj, Prod.mk.injEq] at hins
          obtain ⟨hnd2, hst2, -⟩ := hins
          subst hnd2 hst2
          refine ⟨hv, Ext_refl st, ?_⟩
          have hsurg : insA k v nd.ents =
              nd.ents.take (leCount k nd.ents - 1) ++
                ⟨0, k, v⟩ :: nd.ents.drop (leCount k nd.ents) :=
            insA_present v hsrt hgetx hek
          have hemain : (leafUpdate nd (leCount k nd.ents - 1) k v).ents =
              insA k v nd.ents := by
            unfold leafUpdate
            rw [hsurg, show leCount k nd.ents - 1 + 1 = leCount k nd.ents by omega]
          rw [wfT_succ]
          refine Or.inl ⟨rfl, hemain.symm, ?_, ?_⟩
          · rw [hemain]
            exact insA_ne_nil k v nd.ents
          · rw [hemain]
            exact insA_sorted v hsrt
        · rw [if_neg hek] at hins
          simp only [Option.some_inj, Prod.mk.injEq] at hins
          obtain ⟨hnd2, hst2, -⟩ := hins
          subst hnd2 hst2
          refine ⟨hv, Ext_refl st, ?_⟩
          have habs := key_absent_of_lookup_ne hsrt hcpos hgetx hek
          have hsurg : insA k v nd.ents =
              nd.ents.take (leCount k nd.ents) ++
                ⟨0, k, v⟩ :: nd.ents.drop (leCount k nd.ents) :=
            insA_absent v hsrt habs
          have hemain : (leafInsert nd (leCount k nd.ents - 1 + 1) k v).ents =
              insA k v nd.ents := by
            unfold leafInsert
            rw [hsurg, show leCount k nd.ents - 1 + 1 = leCount k nd.ents by omega]
          rw [wfT_succ]
          refine Or.inl ⟨rfl, hemain.symm, ?_, ?_⟩
          · rw [hemain]
            exact insA_ne_nil k v nd.ents
          · rw [hemain]
            exact insA_sorted v hsrt
      · -- internal
        obtain ⟨e0, t, hent⟩ := List.exists_cons_of_ne_nil hne
        have hpsrt : sortedB (keysOf nd.ents) = true :=
          sortedB_sublist (wfKids_keys_sublist nd.ents cs hkids) hsrt
        have hhp : headKeyE cs = some e0.key := by
          rw [hent] at hkids
          exact wfKids_headKey hkids
        have he0k : e0.key = hk0 := by
          rw [hhp] at hhk
          simpa using hhk
        have hcpos : 1 ≤ leCount k nd.ents :=
          leCount_pos hent (by rw [he0k]; exact hk0le)
        have hlook : nodeLookupLE nd k = leCount k nd.ents - 1 := by
          rw [nodeLookupLE_leCount hpsrt hbound, if_neg (by omega)]
        have hcle := leCount_le_length k nd.ents
        have hlt : leCount k nd.ents - 1 < nd.ents.length := by omega
        obtain ⟨e, hgetx⟩ : ∃ e, nd.ents.get? (leCount k nd.ents - 1) = some e :=
          ⟨_, List.get?_eq_get hlt⟩
        obtain ⟨A, csk, B, kid, hcseq, hA, hg, hPk, hhcsk, hB⟩ :=
          wfKids_split_at hkids hgetx
        have heke : cmpB e.key k ≠ .gt :=
          (leCount_mem_iff hpsrt _ _ hgetx).mpr (by omega)
        unfold treeInsert at hins
        simp only [hbt] at hins
        rw [hlook] at hins
        simp only [hgetx, hg] at hins
        cases hrec : treeInsert fuel cfg st kid k v with
        | none => simp only [hrec] at hins; exact Option.noConfusion hins
        | some trip =>
          obtain ⟨knode, st1, tr1⟩ := trip
          simp only [hrec] at hins
          obtain ⟨hv1, hx1, hwk⟩ := ih st h kid csk k v knode st1 tr1 cfg hps hv
            hPk.1 hPk.2 ⟨e.key, hhcsk, heke⟩ hrec
          cases hsp : nodeSplit3 knode cfg with
          | none => simp only [hsp] at hins; exact Option.noConfusion hins
          | some pieces =>
            simp only [hsp] at hins
            obtain ⟨css, hpw, hjoin, hp1, -⟩ := nodeSplit3_piecesWF hwk hps hsp
            cases hak : allocKids st1 pieces with
            | none => simp only [hak] at hins; exact Option.noConfusion hins
            | some trip2 =>
              obtain ⟨mids, ids, st2x⟩ := trip2
              simp only [hak] at hins
              simp only [Option.some_inj, Prod.mk.injEq] at hins
              obtain ⟨hnd2, hst2, -⟩ := hins
              subst hnd2 hst2
              obtain ⟨hv2, hx12, hkidsM, hlenM⟩ :=
                allocKids_wf pieces css st1 mids ids st2x hv1 hpw hak
              have hxall : Ext st st2x := Ext_trans hx1 hx12
              have hAlt := prefix_lt hcseq hsrt hhcsk heke
              have hBgt := decomp_B_gt hpsrt hcseq hsrt hB
              have hloc : insA k v cs = A ++ (insA k v csk ++ B) := by
                rw [hcseq, insA_append_left v hAlt, insA_append_right v hBgt]
              have hcs2 : (A ++ css.join) ++ B = insA k v cs := by
                rw [hloc, hjoin, List.append_assoc]
              have hmidsne : mids ≠ [] := by
                intro hnil
                rw [hnil] at hlenM
                simp at hlenM
                omega
              refine ⟨hv2, hxall, ?_⟩
              rw [wfT_succ]
              refine Or.inr ⟨rfl, ?_, insA_sorted v hsrt, ?_⟩
              · intro hnil
                rcases List.append_eq_nil.mp hnil with ⟨h1, -⟩
                rcases List.append_eq_nil.mp h1 with ⟨-, h2⟩
                exact hmidsne h2
              · have hA2 : wfKids (wfB st2x h) st2x
                    (nd.ents.take (leCount k nd.ents - 1)) A :=
                  wfKids_ext hv hxall
                    (fun kid2 cs2 hp => ⟨wfT_ext hv hxall h kid2 cs2 hp.1, hp.2⟩)
                    _ A hA
                have hB2 : wfKids (wfB st2x h) st2x
                    (nd.ents.drop (leCount k nd.ents - 1 + 1)) B :=
                  wfKids_ext hv hxall
                    (fun kid2 cs2 hp => ⟨wfT_ext hv hxall h kid2 cs2 hp.1, hp.2⟩)
                    _ B hB
                have hfinal := wfKids_append _ _
                  (wfKids_append _ _ hA2 hkidsM) hB2
                rw [← hcs2]
                exact hfinal

/-! ## The tree invariant and `Insert` at the root -/

theorem cmpB_nil_le (k : List Nat) : cmpB [] k ≠ .gt := by
  cases k <;> simp [cmpB]

/-- The whole-tree invariant: a stored, page-bounded, well-formed root whose
flattened contents start with the zero-length sentinel record. -/
def TInv (st : St) (root : Nat) : Prop :=
  root ≠ 0 ∧
  ∃ h nd cs, getPage st root = some nd ∧ wfB st h nd cs ∧
    ∃ e0 t, cs = e0 :: t ∧ e0.key = [] ∧ e0.val = []

/-- The shared `Insert` tail: split the returned node, store the piece or
build a fresh root level; the tree it leaves behind is well-formed with the
same contents. -/
theorem insertFinish_inv {cfg : Config} {st : St} {root : Nat} {h : Nat}
    {nd : BNode} {cs : List Entry} {tr : List Ev} {root2 : Nat} {st2 : St}
    {tr2 : List Ev}
    (hps : cfg.pageSize ≤ 600000)
    (hv : Valid st) (hw : wfT st h nd cs)
    (hfin : insertFinish cfg st root nd tr = some (root2, st2, tr2)) :
    Valid st2 ∧ Ext st st2 ∧ root2 ≠ 0 ∧
    ∃ h2 nd2, getPage st2 root2 = some nd2 ∧ wfB st2 h2 nd2 cs := by
  unfold insertFinish at hfin
  cases hsp : nodeSplit3 nd cfg with
  | none => simp only [hsp] at hfin; exact Option.noConfusion hfin
  | some pieces =>
    simp only [hsp] at hfin
    obtain ⟨css, hpw, hjoin, hp1, hp3⟩ := nodeSplit3_piecesWF hw hps hsp
    by_cases hone : pieces.length = 1
    · rw [if_pos hone] at hfin
      cases pieces with
      | nil => simp at hone
      | cons p rest =>
        cases rest with
        | cons p2 rest2 => simp at hone
        | nil =>
          cases css with
          | nil => exact hpw.elim
          | cons c css2 =>
            obtain ⟨⟨hwp, hbp⟩, hrest⟩ := hpw
            have hcss2 : css2 = [] := by
              cases css2 with
              | nil => rfl
              | cons c2 r2 => exact hrest.elim
            subst hcss2
            have hceq : c = cs := by
              have : c ++ [] = cs := by simpa using hjoin
              simpa using this
            subst hceq
            simp only [Option.some_inj, Prod.mk.injEq] at hfin
            obtain ⟨hr2, hs2, -⟩ := hfin
            subst hr2 hs2
            refine ⟨Valid_alloc hv p, Ext_alloc st p, by
                have := hv.1
                simp only [alloc]
                omega, h, p, ?_, ?_⟩
            · exact getPage_alloc_self st p
            · exact ⟨wfT_ext hv (Ext_alloc st p) h p _ hwp, hbp⟩
    · rw [if_neg hone] at hfin
      cases hak : allocKids st pieces with
      | none => simp only [hak] at hfin; exact Option.noConfusion hfin
      | some trip =>
        obtain ⟨mids, ids, st3⟩ := trip
        simp only [hak] at hfin
        simp only [Option.some_inj, Prod.mk.injEq] at hfin
        obtain ⟨hr2, hs2, -⟩ := hfin
        subst hr2 hs2
        obtain ⟨hv3, hx3, hkidsM, hlenM⟩ :=
          allocKids_wf pieces css st mids ids st3 hv hpw hak
        have hmidsne : mids ≠ [] := by
          intro hnil
          rw [hnil] at hlenM
          simp at hlenM
          omega
        have hsrt : sortedB (keysOf cs) = true := wfT_cs_sorted hw
        have hvr := Valid_alloc hv3 (⟨.internal, mids⟩ : BNode)
        have hxr := Ext_alloc st3 (⟨.internal, mids⟩ : BNode)
        refine ⟨hvr, Ext_trans hx3 hxr, by
            have := hv3.1
            simp only [alloc]
            omega, h + 1, ⟨.internal, mids⟩, ?_, ?_, ?_⟩
        · exact getPage_alloc_self st3 ⟨.internal, mids⟩
        · rw [wfT_succ]
          refine Or.inr ⟨rfl, hmidsne, ?_, ?_⟩
          · rw [← hjoin] at hsrt
            rw [← hjoin]
            exact hsrt
          · have := wfKids_ext hv3 hxr
              (fun kid2 cs2 hp => (⟨wfT_ext hv3 hxr h kid2 cs2 hp.1, hp.2⟩ :
                wfB (alloc st3 (⟨.internal, mids⟩ : BNode)).2 h kid2 cs2))
              mids css.join hkidsM
            rw [hjoin] at this
            exact this
        · rw [hlenM]
          omega

/-- `Insert` from any invariant-satisfying state (or the empty tree) leaves
the invariant and makes the new pair associatively present. -/
theorem insertT_inv {fuel : Nat} {cfg : Config} {st : St} {root : Nat}
    {k v : List Nat} {root2 : Nat} {st2 : St} {tr : List Ev}
    (hps : cfg.pageSize ≤ 600000)
    (hv : Valid st) (hroot : root = 0 ∨ TInv st root) (hk : k ≠ [])
    (hins : insertT fuel cfg st root k v = some (root2, st2, tr)) :
    Valid st2 ∧ Ext st st2 ∧ root2 ≠ 0 ∧
    ∃ h2 nd2 cs2, getPage st2 root2 = some nd2 ∧ wfB st2 h2 nd2 cs2 ∧
      (∃ e0 t, cs2 = e0 :: t ∧ e0.key = [] ∧ e0.val = []) ∧
      lookupA k cs2 = some v := by
  by_cases hz : root = 0
  · subst hz
    unfold insertT at hins
    rw [if_pos rfl] at hins
    simp only [Option.some_inj, Prod.mk.injEq] at hins
    obtain ⟨hr2, hs2, -⟩ := hins
    subst hr2 hs2
    refine ⟨Valid_alloc hv _, Ext_alloc st _, by
        have := hv.1
        simp only [alloc]
        omega, 1, ⟨.leaf, [⟨0, [], []⟩, ⟨0, k, v⟩]⟩,
      [⟨0, [], []⟩, ⟨0, k, v⟩], getPage_alloc_self st _, ⟨?_, by simp⟩,
      ⟨⟨0, [], []⟩, [⟨0, k, v⟩], rfl, rfl, rfl⟩, ?_⟩
    · rw [wfT_succ]
      refine Or.inl ⟨rfl, rfl, by simp, ?_⟩
      rw [show keysOf [(⟨0, [], []⟩ : Entry), ⟨0, k, v⟩] = [[], k] from rfl,
        sortedB_cons]
      refine ⟨?_, rfl⟩
      intro b hb
      have hbk : b = k := by simpa using hb
      subst hbk
      rcases cmpB_ne_gt_iff.mp (cmpB_nil_le b) with h2 | h2
      · exact h2
      · exact absurd h2.symm hk
    · simp [lookupA, Ne.symm hk]
  · rcases hroot with hroot | ⟨-, h, rootNode, cs, hgroot, ⟨hwr, hbr⟩, e0, t,
      hcs, he0k, he0v⟩
    · exact absurd hroot hz
    unfold insertT at hins
    rw [if_neg hz] at hins
    simp only [hgroot] at hins
    cases hrec : treeInsert fuel cfg st rootNode k v with
    | none => simp only [hrec] at hins; exact Option.noConfusion hins
    | some trip =>
      obtain ⟨nd1, st1, tr1⟩ := trip
      simp only [hrec] at hins
      have hlo : ∃ hk0, headKeyE cs = some hk0 ∧ cmpB hk0 k ≠ .gt := by
        refine ⟨e0.key, by rw [hcs]; rfl, ?_⟩
        rw [he0k]
        exact cmpB_nil_le k
      obtain ⟨hv1, hx1, hw1⟩ := treeInsert_wf fuel st h rootNode cs k v nd1 st1
        tr1 cfg hps hv hwr hbr hlo hrec
      obtain ⟨hv2, hx2, hr2, h2, nd2, hg2, hw2⟩ :=
        insertFinish_inv hps hv1 hw1 hins
      refine ⟨hv2, Ext_trans hx1 hx2, hr2, h2, nd2, insA k v cs, hg2, hw2,
        ?_, lookupA_insA k v cs⟩
      refine ⟨e0, insA k v t, ?_, he0k, he0v⟩
      rw [hcs, insA_cons_lt v t (by rw [he0k]; exact cmpB_nil_left k hk)]

/-! ## Claim C1 (amended): insert-then-search round trip -/

/-- C1 (amended): on any tree state satisfying the invariant (or the empty
tree) and any NON-EMPTY key `k`, a completed `Insert(k, v)` leaves a tree in
which `Search(k)` returns `(v, present)`.  The restriction to non-empty keys
is necessary: inserting the empty key duplicates the sentinel and `Search`
then answers with the sentinel's empty value (`C1_counterexample`). -/
theorem C1_insert_then_search (fuel : Nat) (cfg : Config) (st : St)
    (root : Nat) (k v : List Nat) (root2 : Nat) (st2 : St) (tr : List Ev)
    (hps : cfg.pageSize ≤ 600000)
    (hv : Valid st) (hroot : root = 0 ∨ TInv st root) (hk : k ≠ [])
    (hins : insertT fuel cfg st root k v = some (root2, st2, tr)) :
    ∃ sfuel tr2, searchT sfuel st2 root2 k = some (some v, tr2) := by
  obtain ⟨hv2, hx, hr2, h2, nd2, cs2, hg2, hw2, ⟨e0, t, hcs, he0k, he0v⟩, hlk⟩ :=
    insertT_inv hps hv hroot hk hins
  have hlo : ∃ hk0, headKeyE cs2 = some hk0 ∧ cmpB hk0 k ≠ .gt :=
    ⟨e0.key, by rw [hcs]; rfl, by rw [he0k]; exact cmpB_nil_le k⟩
  obtain ⟨tr2, hsr⟩ := searchT_correct hr2 hg2 hw2 hlo
  rw [hlk] at hsr
  exact ⟨h2, tr2, hsr⟩

/-- C1, witness: insert key `[7]` with value `[9]` into the empty tree, then
search finds `[9]`. -/
theorem C1_witness :
    ∃ sfuel tr2, searchT sfuel
      (⟨[(1, ⟨.leaf, [⟨0, [], []⟩, ⟨0, [7], [9]⟩]⟩)], 2⟩ : St) 1 [7] =
      some (some [9], tr2) :=
  C1_insert_then_search 2 DefaultConfig emptySt 0 [7] [9] 1
    ⟨[(1, ⟨.leaf, [⟨0, [], []⟩, ⟨0, [7], [9]⟩]⟩)], 2⟩ [Ev.new 1]
    (by decide) ⟨by decide, fun q hq => absurd hq (List.not_mem_nil q)⟩
    (Or.inl rfl) (by decide) rfl

/-! ## Claim C9: the implicit sentinel answers empty-key searches -/

/-- Trees built by one or more `Insert`s of non-empty keys from the empty
store (and no other operation). -/
inductive Built : Nat → St → Prop where
  | genesis (fuel : Nat) (cfg : Config) (k v : List Nat) (root : Nat)
      (st : St) (tr : List Ev) :
      cfg.pageSize ≤ 600000 → k ≠ [] →
      insertT fuel cfg emptySt 0 k v = some (root, st, tr) →
      Built root st
  | step (fuel : Nat) (cfg : Config) (k v : List Nat) (root root2 : Nat)
      (st st2 : St) (tr : List Ev) :
      Built root st → cfg.pageSize ≤ 600000 → k ≠ [] →
      insertT fuel cfg st root k v = some (root2, st2, tr) →
      Built root2 st2

theorem Valid_empty : Valid emptySt :=
  ⟨by decide, fun q hq => absurd hq (List.not_mem_nil q)⟩

theorem Built_inv {root : Nat} {st : St} (hb : Built root st) :
    Valid st ∧ TInv st root := by
  induction hb with
  | genesis fuel cfg k v root st tr hps hk hins =>
    obtain ⟨hv2, -, hr2, h2, nd2, cs2, hg2, hw2, hsent, -⟩ :=
      insertT_inv hps Valid_empty (Or.inl rfl) hk hins
    exact ⟨hv2, hr2, h2, nd2, cs2, hg2, hw2, hsent⟩
  | step fuel cfg k v root root2 st st2 tr hb hps hk hins ih =>
    obtain ⟨hv2, -, hr2, h2, nd2, cs2, hg2, hw2, hsent, -⟩ :=
      insertT_inv hps ih.1 (Or.inr ih.2) hk hins
    exact ⟨hv2, hr2, h2, nd2, cs2, hg2, hw2, hsent⟩

/-- C9: on every tree built by one or more `Insert`s of non-empty keys (and
no operation on the empty key), `Search` of the empty key returns present
with the sentinel record's empty value, although the empty key was never
inserted. -/
theorem C9_sentinel_found (root : Nat) (st : St) (hb : Built root st) :
    ∃ sfuel tr, searchT sfuel st root [] = some (some [], tr) := by
  obtain ⟨hv, hr0, h2, nd, cs, hg, hw, e0, t, hcs, he0k, he0v⟩ := Built_inv hb
  have hlo : ∃ hk0, headKeyE cs = some hk0 ∧ cmpB hk0 [] ≠ .gt := by
    refine ⟨e0.key, by rw [hcs]; rfl, ?_⟩
    rw [he0k, cmpB_self]
    intro hcon
    exact Ordering.noConfusion hcon
  obtain ⟨tr, hsr⟩ := searchT_correct hr0 hg hw hlo
  have hfind : lookupA [] cs = some [] := by
    rw [hcs]
    simp [lookupA, he0k, he0v]
  rw [hfind] at hsr
  exact ⟨h2, tr, hsr⟩

/-- C9, witness: after inserting `[7]`, searching the never-inserted empty
key returns the empty value. -/
theorem C9_witness :
    ∃ sfuel tr, searchT sfuel
      (⟨[(1, ⟨.leaf, [⟨0, [], []⟩, ⟨0, [7], [9]⟩]⟩)], 2⟩ : St) 1 [] =
      some (some [], tr) :=
  C9_sentinel_found 1 _
    (Built.genesis 2 DefaultConfig [7] [9] 1 _ [Ev.new 1] (by decide)
      (by decide) rfl)

/-! ## Reachable pages and their key order -/

/-- All pages reachable from `nd` (within height `h`) have strictly
increasing keys, and a zero-length key can sit only at slot 0. -/
def sortedFrom (st : St) : Nat → BNode → Prop
  | 0, _ => False
  | h + 1, nd =>
    (sortedB (keysOf nd.ents) = true ∧
      ∀ i, (keysOf nd.ents).get? i = some [] → i = 0) ∧
    (nd.btype = .internal →
      ∀ e ∈ nd.ents, ∃ kid, getPage st e.ptr = some kid ∧ sortedFrom st h kid)

theorem sorted_nil_at_zero {ks : List (List Nat)} (hs : sortedB ks = true)
    {i : Nat} (h : ks.get? i = some []) : i = 0 := by
  cases i with
  | zero => rfl
  | succ j =>
    have hlen : j + 1 < ks.length := (List.get?_eq_some.mp h).1
    obtain ⟨a, ha⟩ : ∃ a, ks.get? j = some a := ⟨_, List.get?_eq_get (by omega)⟩
    have hlt := sortedB_get_lt hs (Nat.lt_succ_self j) ha h
    cases a with
    | nil =>
      rw [cmpB_self] at hlt
      exact Ordering.noConfusion hlt
    | cons x xs => simp [cmpB] at hlt

theorem wfT_sortedFrom {st : St} : ∀ {h : Nat} {nd : BNode} {cs : List Entry},
    wfT st h nd cs → sortedFrom st h nd := by
  intro h
  induction h with
  | zero => intro nd cs hw; exact absurd hw (by simp [wfT])
  | succ h ih =>
    intro nd cs hw
    have hps : sortedB (keysOf nd.ents) = true := wfT_page_sorted hw
    refine ⟨⟨hps, fun i hi => sorted_nil_at_zero hps hi⟩, ?_⟩
    intro hbt e he
    rw [wfT_succ] at hw
    rcases hw with ⟨hbt2, -, -, -⟩ | ⟨-, -, -, hkids⟩
    · rw [hbt] at hbt2
      exact NType.noConfusion hbt2
    · obtain ⟨kid, csk, hg, hPk, -⟩ := wfKids_forall nd.ents cs hkids e he
      exact ⟨kid, hg, ih hPk.1⟩

theorem wfT_ents_ne {st : St} {h : Nat} {nd : BNode} {cs : List Entry}
    (hw : wfT st h nd cs) : nd.ents ≠ [] := by
  cases h with
  | zero => exact absurd hw (by simp [wfT])
  | succ h =>
    rw [wfT_succ] at hw
    rcases hw with ⟨-, -, hne, -⟩ | ⟨-, hne, -, -⟩ <;> exact hne

/-! ## Delete preserves well-formedness -/

/-- Both merge arms of `nodeDelete` run into the off-by-one abort of
`nodeReplace2Kid`, so an approved merge always fails. -/
theorem nodeDeleteMerge_merge_none (st : St) (nd : BNode) (idx : Nat)
    (updated : BNode) (dir : Bool) (sib : BNode) (tr : List Ev) :
    nodeDeleteMerge st nd idx updated (some (dir, sib)) tr = none := by
  cases dir
  · unfold nodeDeleteMerge
    cases hge : nd.ents.get? (idx + 1) with
    | none => simp only [hge]
    | some er =>
      cases hm0 : (nodeMerge updated sib).ents.get? 0 with
      | none => simp only [hge, hm0]
      | some m0 =>
        simp only [hge, hm0, nodeReplace2Kid_aborts]
  · unfold nodeDeleteMerge
    cases hge : nd.ents.get? (idx - 1) with
    | none => simp only [hge]
    | some el =>
      cases hm0 : (nodeMerge sib updated).ents.get? 0 with
      | none => simp only [hge, hm0]
      | some m0 =>
        simp only [hge, hm0, nodeReplace2Kid_aborts]

theorem treeDelete_wf (fuel : Nat) : ∀ (st : St) (h : Nat) (nd : BNode)
    (cs : List Entry) (k : List Nat) (res : Option BNode) (st2 : St)
    (tr : List Ev) (cfg : Config),
    Valid st → wfT st h nd cs → nd.ents.length < 0xFFFF →
    treeDelete fuel cfg st nd k = some (res, st2, tr) →
    Valid st2 ∧ Ext st st2 ∧
    ((res = none ∧ st2 = st) ∨
     (∃ nd2, res = some nd2 ∧
       ((nd2.ents = [] ∧ delA k cs = []) ∨ wfB st2 h nd2 (delA k cs)))) := by
  induction fuel with
  | zero =>
    intro st h nd cs k res st2 tr cfg hv hw hbound hdel
    exact Option.noConfusion hdel
  | succ fuel ih =>
    intro st h nd cs k res st2 tr cfg hv hw hbound hdel
    cases h with
    | zero => exact absurd hw (by simp [wfT])
    | succ h =>
      rw [wfT_succ] at hw
      rcases hw with ⟨hbt, hcs, hne, hsrt⟩ | ⟨hbt, hne, hsrt, hkids⟩
      · subst hcs
        unfold treeDelete at hdel
        simp only [hbt] at hdel
        by_cases hc0 : leCount k nd.ents = 0
        · have hlook : nodeLookupLE nd k = 0xFFFF := by
            rw [nodeLookupLE_leCount hsrt hbound, if_pos hc0]
          rw [hlook, if_neg (by omega)] at hdel
          simp only [Option.some_inj, Prod.mk.injEq] at hdel
          obtain ⟨hres, hst, -⟩ := hdel
          subst hres hst
          exact ⟨hv, Ext_refl st, Or.inl ⟨rfl, rfl⟩⟩
        · have hcpos : 1 ≤ leCount k nd.ents := by omega
          have hlook : nodeLookupLE nd k = leCount k nd.ents - 1 := by
            rw [nodeLookupLE_leCount hsrt hbound, if_neg hc0]
          have hcle := leCount_le_length k nd.ents
          have hlt : leCount k nd.ents - 1 < nd.ents.length := by omega
          obtain ⟨e, hgetx⟩ : ∃ e, nd.ents.get? (leCount k nd.ents - 1) = some e :=
            ⟨_, List.get?_eq_get hlt⟩
          rw [hlook, if_pos hlt] at hdel
          simp only [hgetx] at hdel
          by_cases hek : e.key = k
          · rw [if_pos hek] at hdel
            simp only [Option.some_inj, Prod.mk.injEq] at hdel
            obtain ⟨hres, hst, -⟩ := hdel
            subst hres hst
            have hsurg : delA k nd.ents =
                nd.ents.take (leCount k nd.ents - 1) ++
                  nd.ents.drop (leCount k nd.ents) := delA_present hsrt hgetx hek
            have hemain : (⟨.leaf, nd.ents.take (leCount k nd.ents - 1) ++
                nd.ents.drop (leCount k nd.ents - 1 + 1)⟩ : BNode).ents =
                delA k nd.ents := by
              rw [hsurg, show leCount k nd.ents - 1 + 1 = leCount k nd.ents
                by omega]
            refine ⟨hv, Ext_refl st, Or.inr ⟨_, rfl, ?_⟩⟩
            by_cases hdeln : delA k nd.ents = []
            · exact Or.inl ⟨by rw [hemain]; exact hdeln, hdeln⟩
            · refine Or.inr ⟨?_, ?_⟩
              · rw [wfT_succ]
                refine Or.inl ⟨rfl, hemain.symm, by rw [hemain]; exact hdeln, ?_⟩
                rw [hemain]
                exact sortedB_sublist
                  (List.Sublist.map _ (delA_sublist k nd.ents)) hsrt
              · have hle : (delA k nd.ents).length ≤ nd.ents.length :=
                  List.Sublist.length_le (delA_sublist k nd.ents)
                rw [hemain]
                omega
          · rw [if_neg hek] at hdel
            simp only [Option.some_inj, Prod.mk.injEq] at hdel
            obtain ⟨hres, hst, -⟩ := hdel
            subst hres hst
            exact ⟨hv, Ext_refl st, Or.inl ⟨rfl, rfl⟩⟩
      · have hpsrt : sortedB (keysOf nd.ents) = true :=
          sortedB_sublist (wfKids_keys_sublist nd.ents cs hkids) hsrt
        unfold treeDelete at hdel
        simp only [hbt] at hdel
        unfold nodeDelete at hdel
        by_cases hc0 : leCount k nd.ents = 0
        · have hlook : nodeLookupLE nd k = 0xFFFF := by
            rw [nodeLookupLE_leCount hpsrt hbound, if_pos hc0]
          rw [hlook] at hdel
          have hnone : nd.ents.get? 0xFFFF = none := by
            rw [List.get?_eq_none]
            omega
          simp only [hnone] at hdel
          exact Option.noConfusion hdel
        · have hcpos : 1 ≤ leCount k nd.ents := by omega
          have hlook : nodeLookupLE nd k = leCount k nd.ents - 1 := by
            rw [nodeLookupLE_leCount hpsrt hbound, if_neg hc0]
          have hcle := leCount_le_length k nd.ents
          have hlt : leCount k nd.ents - 1 < nd.ents.length := by omega
          obtain ⟨e, hgetx⟩ : ∃ e, nd.ents.get? (leCount k nd.ents - 1) = some e :=
            ⟨_, List.get?_eq_get hlt⟩
          obtain ⟨A, csk, B, kid, hcseq, hA, hg, hPk, hhcsk, hB⟩ :=
            wfKids_split_at hkids hgetx
          have heke : cmpB e.key k ≠ .gt :=
            (leCount_mem_iff hpsrt _ _ hgetx).mpr (by omega)
          rw [hlook] at hdel
          simp only [hgetx, hg] at hdel
          cases hrec : treeDelete fuel cfg st kid k with
          | none => simp only [hrec] at hdel; exact Option.noConfusion hdel
          | some trip =>
            obtain ⟨resk, st1, tr1⟩ := trip
            obtain ⟨hv1, hx1, hcase⟩ :=
              ih st h kid csk k resk st1 tr1 cfg hv hPk.1 hPk.2 hrec
            cases resk with
            | none =>
              simp only [hrec] at hdel
              simp only [Option.some_inj, Prod.mk.injEq] at hdel
              obtain ⟨hres, hst, -⟩ := hdel
              subst hres hst
              rcases hcase with ⟨-, hst1⟩ | ⟨nd2, hcon, -⟩
              · subst hst1
                exact ⟨hv, Ext_refl _, Or.inl ⟨rfl, rfl⟩⟩
              · exact Option.noConfusion hcon
            | some updated =>
              simp only [hrec] at hdel
              rcases hcase with ⟨hcon, -⟩ | ⟨nd2, hsome, hupd⟩
              · exact Option.noConfusion hcon
              have hnd2 : nd2 = updated := by
                have h2 := hsome.symm
                simpa using h2
              rw [hnd2] at hupd
              cases hsm : shouldMergeT cfg st1 nd (leCount k nd.ents - 1)
                  updated with
              | none => simp only [hsm] at hdel; exact Option.noConfusion hdel
              | some pr =>
                obtain ⟨mres, smtr⟩ := pr
                simp only [hsm] at hdel
                cases mres with
                | some dirsib =>
                  obtain ⟨dir, sib⟩ := dirsib
                  rw [nodeDeleteMerge_merge_none] at hdel
                  exact Option.noConfusion hdel
                | none =>
                  unfold nodeDeleteMerge at hdel
                  rcases hupd with ⟨hue, hdnil⟩ | ⟨huw, hub⟩
                  · rw [if_pos (by rw [hue]; rfl)] at hdel
                    by_cases hone : nd.ents.length = 1 ∧
                        leCount k nd.ents - 1 = 0
                    · obtain ⟨ho1, ho2⟩ := hone
                      rw [if_pos (by simp [ho1, ho2])] at hdel
                      simp only [Option.some_inj, Prod.mk.injEq] at hdel
                      obtain ⟨hres, hst, -⟩ := hdel
                      subst hres hst
                      refine ⟨hv1, hx1, Or.inr ⟨_, rfl, Or.inl ⟨rfl, ?_⟩⟩⟩
                      have hAnil : A = [] := by
                        have ht : nd.ents.take (leCount k nd.ents - 1) = [] := by
                          rw [ho2]
                          rfl
                        rw [ht] at hA
                        exact hA
                      have hBnil : B = [] := by
                        have ht : nd.ents.drop (leCount k nd.ents - 1 + 1) = [] := by
                          rw [List.drop_eq_nil_iff_le]
                          omega
                        rw [ht] at hB
                        exact hB
                      rw [hcseq, hAnil, hBnil]
                      simpa using hdnil
                    · rw [if_neg (by
                        intro hcon
                        rw [Bool.and_eq_true, decide_eq_true_eq,
                          decide_eq_true_eq] at hcon
                        exact hone ⟨hcon.1, hcon.2⟩)] at hdel
                      exact Option.noConfusion hdel
                  · have hune : updated.ents ≠ [] := wfT_ents_ne huw
                    rw [if_neg (fun hcon =>
                      hune (List.length_eq_zero.mp hcon))] at hdel
                    obtain ⟨u0, ut, huent⟩ := List.exists_cons_of_ne_nil hune
                    have hu0 : updated.ents.get? 0 = some u0 := by
                      rw [huent]
                      rfl
                    simp only [hu0] at hdel
                    simp only [Option.some_inj, Prod.mk.injEq] at hdel
                    obtain ⟨hres, hst, -⟩ := hdel
                    subst hres hst
                    have hv2 := Valid_alloc hv1 updated
                    have hx2 := Ext_alloc st1 updated
                    have hxall := Ext_trans hx1 hx2
                    refine ⟨hv2, hxall, Or.inr ⟨_, rfl, Or.inr ⟨?_, ?_⟩⟩⟩
                    · have hAlt := prefix_lt hcseq hsrt hhcsk heke
                      have hAne : ∀ a ∈ A, a.key ≠ k :=
                        fun a ha => ne_of_cmpB_lt (hAlt a ha)
                      have hBgt := decomp_B_gt hpsrt hcseq hsrt hB
                      have hBne : ∀ b ∈ B, b.key ≠ k :=
                        fun b hb => ne_of_cmpB_gt (hBgt b hb)
                      have hloc : delA k cs = A ++ (delA k csk ++ B) := by
                        rw [hcseq, delA_append_left hAne, delA_append_right hBne]
                      rw [wfT_succ]
                      refine Or.inr ⟨rfl, ?_, ?_, ?_⟩
                      · intro hcon
                        rcases List.append_eq_nil.mp hcon with ⟨-, h2⟩
                        exact List.cons_ne_nil _ _ h2
                      · exact sortedB_sublist
                          (List.Sublist.map _ (delA_sublist k cs)) hsrt
                      · obtain ⟨u0b, utb, huentb, hhb⟩ := wfT_headKey huw
                        rw [huent] at huentb
                        injection huentb with hb1 hb2
                        rw [← hb1] at hhb
                        have hgmid : getPage (alloc st1 updated).2
                            (alloc st1 updated).1 = some updated :=
                          getPage_alloc_self st1 updated
                        have hwmid : wfB (alloc st1 updated).2 h updated
                            (delA k csk) :=
                          ⟨wfT_ext hv1 hx2 h updated _ huw, hub⟩
                        have hPQ : ∀ kid2 cs2, wfB st h kid2 cs2 →
                            wfB (alloc st1 updated).2 h kid2 cs2 :=
                          fun kid2 cs2 hp =>
                            ⟨wfT_ext hv hxall h kid2 cs2 hp.1, hp.2⟩
                        have hA2 := wfKids_ext hv hxall hPQ _ A hA
                        have hB2 := wfKids_ext hv hxall hPQ _ B hB
                        have htail : wfKids (wfB (alloc st1 updated).2 h)
                            (alloc st1 updated).2
                            (⟨(alloc st1 updated).1, u0.key, []⟩ ::
                              nd.ents.drop (leCount k nd.ents - 1 + 1))
                            (delA k csk ++ B) :=
                          ⟨updated, delA k csk, B, hgmid, hwmid, hhb, rfl, hB2⟩
                        rw [hloc]
                        exact wfKids_append _ _ hA2 htail
                    · show (nd.ents.take (leCount k nd.ents - 1) ++
                        ⟨(alloc st1 updated).1, u0.key, []⟩ ::
                          nd.ents.drop (leCount k nd.ents - 1 + 1)).length < 0xFFFF
                      rw [List.length_append, List.length_cons, List.length_take,
                        List.length_drop]
                      omega

/-! ## `Delete` at the root, and claim C3 -/

theorem delA_cons_sentinel {k : List Nat} (hk : k ≠ []) {e0 : Entry}
    (he0 : e0.key = []) (t : List Entry) :
    delA k (e0 :: t) = e0 :: delA k t := by
  simp [delA, show e0.key ≠ k from by rw [he0]; exact fun h2 => hk h2.symm]

theorem deleteT_inv {fuel : Nat} {cfg : Config} {st : St} {root : Nat}
    {k : List Nat} {root2 : Nat} {st2 : St} {tr : List Ev}
    (hv : Valid st) (hroot : root = 0 ∨ TInv st root) (hk : k ≠ [])
    (hdel : deleteT fuel cfg st root k = some (root2, st2, tr)) :
    Valid st2 ∧ Ext st st2 ∧ (root2 = 0 ∨ TInv st2 root2) := by
  by_cases hz : root = 0
  · subst hz
    unfold deleteT at hdel
    rw [if_pos rfl] at hdel
    simp only [Option.some_inj, Prod.mk.injEq] at hdel
    obtain ⟨hr2, hs2, -⟩ := hdel
    refine ⟨by rw [← hs2]; exact hv, by rw [← hs2]; exact Ext_refl st,
      Or.inl hr2.symm⟩
  · rcases hroot with h0 | hTI
    · exact absurd h0 hz
    obtain ⟨-, h, rootNode, cs, hgroot, ⟨hwr, hbr⟩, e0, t, hcs, he0k, he0v⟩ := hTI
    unfold deleteT at hdel
    rw [if_neg hz] at hdel
    simp only [hgroot] at hdel
    cases hrec : treeDelete fuel cfg st rootNode k with
    | none => simp only [hrec] at hdel; exact Option.noConfusion hdel
    | some trip =>
      obtain ⟨res, st1, tr1⟩ := trip
      obtain ⟨hv1, hx1, hcase⟩ := treeDelete_wf fuel st h rootNode cs k res st1
        tr1 cfg hv hwr hbr hrec
      cases res with
      | none =>
        simp only [hrec] at hdel
        simp only [Option.some_inj, Prod.mk.injEq] at hdel
        obtain ⟨hr2, hs2, -⟩ := hdel
        rcases hcase with ⟨-, hst1⟩ | ⟨nd2, hcon, -⟩
        · refine ⟨by rw [← hs2, hst1]; exact hv,
            by rw [← hs2, hst1]; exact Ext_refl st, Or.inr ?_⟩
          rw [← hr2, ← hs2, hst1]
          exact ⟨hz, h, rootNode, cs, hgroot, ⟨hwr, hbr⟩, e0, t, hcs, he0k, he0v⟩
        · exact Option.noConfusion hcon
      | some nd2 =>
        simp only [hrec] at hdel
        simp only [Option.some_inj, Prod.mk.injEq] at hdel
        obtain ⟨hr2, hs2, -⟩ := hdel
        rcases hcase with ⟨hcon, -⟩ | ⟨nd2b, hsome, hsub⟩
        · exact Option.noConfusion hcon
        have hbeq : nd2b = nd2 := by simpa using hsome.symm
        rw [hbeq] at hsub
        have hdelA : delA k cs = e0 :: delA k t := by
          rw [hcs]
          exact delA_cons_sentinel hk he0k t
        rcases hsub with ⟨-, hnil⟩ | hwB
        · rw [hdelA] at hnil
          exact absurd hnil (List.cons_ne_nil _ _)
        have hva := Valid_alloc hv1 nd2
        have hxa := Ext_alloc st1 nd2
        refine ⟨by rw [← hs2]; exact hva,
          by rw [← hs2]; exact Ext_trans hx1 hxa, Or.inr ?_⟩
        rw [← hr2, ← hs2]
        refine ⟨?_, h, nd2, delA k cs, getPage_alloc_self st1 nd2,
          ⟨wfT_ext hv1 hxa h nd2 _ hwB.1, hwB.2⟩,
          e0, delA k t, hdelA, he0k, he0v⟩
        have := hv1.1
        simp only [alloc]
        omega

/-- Unlike `deleteT_inv`, whose conclusion carries the sentinel head (lost
when the empty key is deleted), the reachable-pages-sorted property needs
no restriction on the deleted key: when the delete empties the tree the new
root is an empty page, which is trivially sorted. -/
theorem deleteT_sorted {fuel : Nat} {cfg : Config} {st : St} {root : Nat}
    {k : List Nat} {root2 : Nat} {st2 : St} {tr : List Ev}
    (hv : Valid st) (hroot : root = 0 ∨ TInv st root)
    (hdel : deleteT fuel cfg st root k = some (root2, st2, tr)) :
    root2 = 0 ∨ ∃ h nd, getPage st2 root2 = some nd ∧ sortedFrom st2 h nd := by
  by_cases hz : root = 0
  · subst hz
    unfold deleteT at hdel
    rw [if_pos rfl] at hdel
    simp only [Option.some_inj, Prod.mk.injEq] at hdel
    obtain ⟨hr2, -, -⟩ := hdel
    exact Or.inl hr2.symm
  · rcases hroot with h0 | hTI
    · exact absurd h0 hz
    obtain ⟨-, h, rootNode, cs, hgroot, ⟨hwr, hbr⟩, -⟩ := hTI
    unfold deleteT at hdel
    rw [if_neg hz] at hdel
    simp only [hgroot] at hdel
    cases hrec : treeDelete fuel cfg st rootNode k with
    | none => simp only [hrec] at hdel; exact Option.noConfusion hdel
    | some trip =>
      obtain ⟨res, st1, tr1⟩ := trip
      obtain ⟨hv1, hx1, hcase⟩ := treeDelete_wf fuel st h rootNode cs k res
        st1 tr1 cfg hv hwr hbr hrec
      cases res with
      | none =>
        simp only [hrec] at hdel
        simp only [Option.some_inj, Prod.mk.injEq] at hdel
        obtain ⟨hr2, hs2, -⟩ := hdel
        rcases hcase with ⟨-, hst1⟩ | ⟨nd2, hcon, -⟩
        · refine Or.inr ⟨h, rootNode, ?_, ?_⟩
          · rw [← hr2, ← hs2, hst1]
            exact hgroot
          · rw [← hs2, hst1]
            exact wfT_sortedFrom hwr
        · exact Option.noConfusion hcon
      | some nd2 =>
        simp only [hrec] at hdel
        simp only [Option.some_inj, Prod.mk.injEq] at hdel
        obtain ⟨hr2, hs2, -⟩ := hdel
        rcases hcase with ⟨hcon, -⟩ | ⟨nd2b, hsome, hsub⟩
        · exact Option.noConfusion hcon
        have hbeq : nd2b = nd2 := by simpa using hsome.symm
        rw [hbeq] at hsub
        have hxa := Ext_alloc st1 nd2
        have hg2 : getPage st2 root2 = some nd2 := by
          rw [← hr2, ← hs2]
          exact getPage_alloc_self st1 nd2
        rcases hsub with ⟨hempty, -⟩ | hwB
        · refine Or.inr ⟨1, nd2, hg2, ⟨⟨?_, ?_⟩, ?_⟩⟩
          · rw [hempty]
            rfl
          · intro i hi
            rw [hempty] at hi
            simp [keysOf] at hi
          · intro hbt e he
            rw [hempty] at he
            exact absurd he (List.not_mem_nil e)
        · refine Or.inr ⟨h, nd2, hg2, ?_⟩
          rw [← hs2]
          exact wfT_sortedFrom (wfT_ext hv1 hxa h nd2 _ hwB.1)

/-- C3 (amended): after a completed `Insert` with a NON-EMPTY key, or a
completed `Delete` with ANY key, on a tree satisfying the invariant (or the
empty tree), every page reachable from the new root has strictly increasing
keys by unsigned lexicographic byte comparison, and a zero-length key can
sit only at slot 0 (hence below every non-empty key).  Only `Insert` of the
empty key fails the original claim: it duplicates the sentinel
(`C3_counterexample`); `Delete` of the empty key preserves the property. -/
theorem C3_reachable_sorted :
    (∀ (fuel : Nat) (cfg : Config) (st : St) (root : Nat) (k v : List Nat)
        (root2 : Nat) (st2 : St) (tr : List Ev),
      cfg.pageSize ≤ 600000 → Valid st → (root = 0 ∨ TInv st root) → k ≠ [] →
      insertT fuel cfg st root k v = some (root2, st2, tr) →
      ∃ h nd, getPage st2 root2 = some nd ∧ sortedFrom st2 h nd)
    ∧ (∀ (fuel : Nat) (cfg : Config) (st : St) (root : Nat) (k : List Nat)
        (root2 : Nat) (st2 : St) (tr : List Ev),
      Valid st → (root = 0 ∨ TInv st root) →
      deleteT fuel cfg st root k = some (root2, st2, tr) →
      root2 = 0 ∨ ∃ h nd, getPage st2 root2 = some nd ∧ sortedFrom st2 h nd) := by
  constructor
  · intro fuel cfg st root k v root2 st2 tr hps hv hroot hk hins
    obtain ⟨-, -, -, h2, nd2, cs2, hg2, hw2, -, -⟩ :=
      insertT_inv hps hv hroot hk hins
    exact ⟨h2, nd2, hg2, wfT_sortedFrom hw2.1⟩
  · intro fuel cfg st root k root2 st2 tr hv hroot hdel
    exact deleteT_sorted hv hroot hdel

/-- C3, witness: after inserting `[7]` into the empty tree, the root page is
reachable and sorted. -/
theorem C3_witness :
    ∃ h nd, getPage (⟨[(1, ⟨.leaf, [⟨0, [], []⟩, ⟨0, [7], [9]⟩]⟩)], 2⟩ : St) 1 =
        some nd ∧
      sortedFrom (⟨[(1, ⟨.leaf, [⟨0, [], []⟩, ⟨0, [7], [9]⟩]⟩)], 2⟩ : St) h nd :=
  C3_reachable_sorted.1 2 DefaultConfig emptySt 0 [7] [9] 1
    ⟨[(1, ⟨.leaf, [⟨0, [], []⟩, ⟨0, [7], [9]⟩]⟩)], 2⟩ [Ev.new 1]
    (by decide) ⟨by decide, fun q hq => absurd hq (List.not_mem_nil q)⟩
    (Or.inl rfl) (by decide) rfl

/-! ## Claim C4: the free/allocate discipline of the storage callbacks

`covOK seen tr` scans a callback trace left to right: every `Del p` must
name a page read earlier in the trace (a `Get p` before it, or `p ∈ seen`),
and must be followed later in the trace by at least one `New` — the
replacement pages are created AFTER the original is freed, which is the
order `treeInsert` actually emits (`tree.Del(kptr)` before the
`tree.New(...)` calls of `nodeReplaceKidN`). -/

def getsIn : List Ev → List Nat
  | [] => []
  | Ev.get p :: tr => p :: getsIn tr
  | _ :: tr => getsIn tr

def covOK : List Nat → List Ev → Prop
  | _, [] => True
  | seen, Ev.get p :: tr => covOK (p :: seen) tr
  | seen, Ev.new _ :: tr => covOK seen tr
  | seen, Ev.del p :: tr => p ∈ seen ∧ (∃ q, Ev.new q ∈ tr) ∧ covOK seen tr

theorem covOK_mono : ∀ (tr : List Ev) (seen seen2 : List Nat),
    (∀ p ∈ seen, p ∈ seen2) → covOK seen tr → covOK seen2 tr := by
  intro tr
  induction tr with
  | nil => intro seen seen2 hsub hc; trivial
  | cons ev tr2 ih =>
    intro seen seen2 hsub hc
    cases ev with
    | get p =>
      show covOK (p :: seen2) tr2
      refine ih (p :: seen) (p :: seen2) ?_ hc
      intro q hq
      rcases List.mem_cons.mp hq with h2 | h2
      · rw [h2]; exact List.mem_cons_self p seen2
      · exact List.mem_cons_of_mem _ (hsub q h2)
    | new p => exact ih seen seen2 hsub hc
    | del p =>
      obtain ⟨h1, h2, h3⟩ := hc
      exact ⟨hsub p h1, h2, ih seen seen2 hsub h3⟩

theorem covOK_append : ∀ (x : List Ev) (seen : List Nat) {y : List Ev},
    covOK seen x → covOK (getsIn x ++ seen) y → covOK seen (x ++ y) := by
  intro x
  induction x with
  | nil => intro seen y hx hy; exact hy
  | cons ev x2 ih =>
    intro seen y hx hy
    cases ev with
    | get p =>
      show covOK (p :: seen) (x2 ++ y)
      refine ih (p :: seen) hx ?_
      refine covOK_mono y _ _ ?_ hy
      intro q hq
      simp only [getsIn, List.mem_append, List.mem_cons] at hq ⊢
      tauto
    | new p => exact ih seen hx hy
    | del p =>
      obtain ⟨h1, h2, h3⟩ := hx
      refine ⟨h1, ?_, ih seen h3 hy⟩
      obtain ⟨q, hq⟩ := h2
      exact ⟨q, List.mem_append_left y hq⟩

theorem covOK_all_new : ∀ (l : List Ev) (seen : List Nat),
    (∀ ev ∈ l, ∃ q, ev = Ev.new q) → covOK seen l := by
  intro l
  induction l with
  | nil => intro seen hall; trivial
  | cons ev l2 ih =>
    intro seen hall
    obtain ⟨q, hq⟩ := hall ev (by simp)
    subst hq
    show covOK seen l2
    exact ih seen (fun ev2 he2 => hall ev2 (by simp [he2]))

theorem covOK_news (seen : List Nat) (ids : List Nat) :
    covOK seen (ids.map Ev.new) := by
  refine covOK_all_new _ seen ?_
  intro ev hev
  obtain ⟨q, -, hq⟩ := List.mem_map.mp hev
  exact ⟨q, hq.symm⟩

theorem allocKids_ids_length : ∀ (pieces : List BNode) (st : St)
    (mids : List Entry) (ids : List Nat) (st2 : St),
    allocKids st pieces = some (mids, ids, st2) →
    ids.length = pieces.length := by
  intro pieces
  induction pieces with
  | nil =>
    intro st mids ids st2 hak
    unfold allocKids at hak
    simp only [Option.some_inj, Prod.mk.injEq] at hak
    obtain ⟨-, hi, -⟩ := hak
    subst hi
    rfl
  | cons p ps ih =>
    intro st mids ids st2 hak
    unfold allocKids at hak
    cases hg0 : p.ents.get? 0 with
    | none => simp only [hg0] at hak; exact Option.noConfusion hak
    | some e0 =>
      cases hak2 : allocKids (alloc st p).2 ps with
      | none => simp only [hg0, hak2] at hak; exact Option.noConfusion hak
      | some trip =>
        obtain ⟨m2, i2, s3⟩ := trip
        simp only [hg0, hak2] at hak
        simp only [Option.some_inj, Prod.mk.injEq] at hak
        obtain ⟨-, hi, -⟩ := hak
        subst hi
        rw [List.length_cons, List.length_cons,
          ih (alloc st p).2 m2 i2 s3 hak2]

theorem nodeSplit3_ne_nil {old : BNode} {cfg : Config} {pieces : List BNode}
    (hsp : nodeSplit3 old cfg = some pieces) : pieces ≠ [] := by
  rcases nodeSplit3_cases hsp with ⟨he, -⟩ | ⟨p, -, -, he, -⟩ |
    ⟨p, q, -, -, -, he, -⟩ <;> (rw [he]; simp)

/-- Every trace `treeInsert` produces satisfies the scan discipline: each
freed page was read earlier and replacements are allocated after the free. -/
theorem treeInsert_covOK (fuel : Nat) : ∀ (cfg : Config) (st : St)
    (nd : BNode) (k v : List Nat) (nd2 : BNode) (st2 : St) (tr : List Ev)
    (seen : List Nat),
    treeInsert fuel cfg st nd k v = some (nd2, st2, tr) → covOK seen tr := by
  induction fuel with
  | zero =>
    intro cfg st nd k v nd2 st2 tr seen hins
    exact Option.noConfusion hins
  | succ fuel ih =>
    intro cfg st nd k v nd2 st2 tr seen hins
    unfold treeInsert at hins
    cases hbt : nd.btype with
    | leaf =>
      simp only [hbt] at hins
      by_cases hff : nodeLookupLE nd k = 0xFFFF
      · rw [if_pos hff] at hins
        simp only [Option.some_inj, Prod.mk.injEq] at hins
        obtain ⟨-, -, htr⟩ := hins
        rw [← htr]
        trivial
      · rw [if_neg hff] at hins
        cases hge : nd.ents.get? (nodeLookupLE nd k) with
        | none => simp only [hge] at hins; exact Option.noConfusion hins
        | some e =>
          simp only [hge] at hins
          by_cases hek : e.key = k
          · rw [if_pos hek] at hins
            simp only [Option.some_inj, Prod.mk.injEq] at hins
            obtain ⟨-, -, htr⟩ := hins
            rw [← htr]
            trivial
          · rw [if_neg hek] at hins
            simp only [Option.some_inj, Prod.mk.injEq] at hins
            obtain ⟨-, -, htr⟩ := hins
            rw [← htr]
            trivial
    | internal =>
      simp only [hbt] at hins
      cases hge : nd.ents.get? (nodeLookupLE nd k) with
      | none => simp only [hge] at hins; exact Option.noConfusion hins
      | some e =>
        simp only [hge] at hins
        cases hgp : getPage st e.ptr with
        | none =>
          simp only [hgp] at hins
          simp only [Option.some_inj, Prod.mk.injEq] at hins
          obtain ⟨-, -, htr⟩ := hins
          rw [← htr]
          trivial
        | some kid =>
          simp only [hgp] at hins
          cases hrec : treeInsert fuel cfg st kid k v with
          | none => simp only [hrec] at hins; exact Option.noConfusion hins
          | some trip =>
            obtain ⟨knode, st1, tr1⟩ := trip
            simp only [hrec] at hins
            cases hsp : nodeSplit3 knode cfg with
            | none => simp only [hsp] at hins; exact Option.noConfusion hins
            | some pieces =>
              simp only [hsp] at hins
              cases hak : allocKids st1 pieces with
              | none => simp only [hsp, hak] at hins; exact Option.noConfusion hins
              | some trip2 =>
                obtain ⟨mids, ids, st2x⟩ := trip2
                simp only [hsp, hak] at hins
                simp only [Option.some_inj, Prod.mk.injEq] at hins
                obtain ⟨-, -, htr⟩ := hins
                rw [← htr]
                show covOK (e.ptr :: seen)
                  (tr1 ++ Ev.del e.ptr :: ids.map Ev.new)
                refine covOK_append tr1 (e.ptr :: seen)
                  (ih cfg st kid k v knode st1 tr1 (e.ptr :: seen) hrec) ?_
                refine ⟨List.mem_append_right _ (List.mem_cons_self _ _),
                  ?_, covOK_news _ ids⟩
                have hlen := allocKids_ids_length pieces st1 mids ids st2x hak
                have hne := nodeSplit3_ne_nil hsp
                cases ids with
                | nil =>
                  exfalso
                  apply hne
                  refine List.length_eq_zero.mp ?_
                  rw [← hlen]
                  rfl
                | cons i irest => exact ⟨i, by simp⟩

/-- The trace `insertFinish` appends after its argument trace: the old root
is freed first, then only allocations follow, among them the new root. -/
theorem insertFinish_trace {cfg : Config} {st : St} {root : Nat} {nd : BNode}
    {tr0 : List Ev} {root2 : Nat} {st2 : St} {tr2 : List Ev}
    (hfin : insertFinish cfg st root nd tr0 = some (root2, st2, tr2)) :
    ∃ suffix, tr2 = tr0 ++ Ev.del root :: suffix ∧
      Ev.new root2 ∈ suffix ∧ ∀ ev ∈ suffix, ∃ q, ev = Ev.new q := by
  unfold insertFinish at hfin
  cases hsp : nodeSplit3 nd cfg with
  | none => simp only [hsp] at hfin; exact Option.noConfusion hfin
  | some pieces =>
    simp only [hsp] at hfin
    by_cases hone : pieces.length = 1
    · rw [if_pos hone] at hfin
      cases pieces with
      | nil => simp at hone
      | cons p rest =>
        cases rest with
        | cons p2 r2 => simp at hone
        | nil =>
          simp only [Option.some_inj, Prod.mk.injEq] at hfin
          obtain ⟨hr2, -, htr⟩ := hfin
          refine ⟨[Ev.new (alloc st p).1], ?_, by rw [← hr2]; simp, ?_⟩
          · rw [← htr]
          · intro ev hev
            simp only [List.mem_singleton] at hev
            exact ⟨(alloc st p).1, hev⟩
    · rw [if_neg hone] at hfin
      cases hak : allocKids st pieces with
      | none => simp only [hak] at hfin; exact Option.noConfusion hfin
      | some trip =>
        obtain ⟨mids, ids, st3⟩ := trip
        simp only [hak] at hfin
        simp only [Option.some_inj, Prod.mk.injEq] at hfin
        obtain ⟨hr2, -, htr⟩ := hfin
        refine ⟨ids.map Ev.new ++
            [Ev.new (alloc st3 ⟨.internal, mids⟩).1], ?_, ?_, ?_⟩
        · rw [← htr]
        · rw [← hr2]
          exact List.mem_append_right _ (by simp)
        · intro ev hev
          rcases List.mem_append.mp hev with h2 | h2
          · obtain ⟨q, -, hq⟩ := List.mem_map.mp h2
            exact ⟨q, hq.symm⟩
          · simp only [List.mem_singleton] at h2
            exact ⟨(alloc st3 ⟨.internal, mids⟩).1, h2⟩

/-- Every page `treeInsert` reads that actually exists in the store is also
freed later in the trace (the read in the empty-kid quirk arm, where the
page does not exist, is the only unfreed read). -/
theorem treeInsert_get_del (fuel : Nat) : ∀ (cfg : Config) (st : St)
    (nd : BNode) (k v : List Nat) (nd2 : BNode) (st2 : St) (tr : List Ev),
    treeInsert fuel cfg st nd k v = some (nd2, st2, tr) →
    ∀ p, Ev.get p ∈ tr → getPage st p = none ∨ Ev.del p ∈ tr := by
  induction fuel with
  | zero =>
    intro cfg st nd k v nd2 st2 tr hins
    exact Option.noConfusion hins
  | succ fuel ih =>
    intro cfg st nd k v nd2 st2 tr hins
    unfold treeInsert at hins
    cases hbt : nd.btype with
    | leaf =>
      simp only [hbt] at hins
      by_cases hff : nodeLookupLE nd k = 0xFFFF
      · rw [if_pos hff] at hins
        simp only [Option.some_inj, Prod.mk.injEq] at hins
        obtain ⟨-, -, htr⟩ := hins
        rw [← htr]
        intro p hp
        exact absurd hp (List.not_mem_nil _)
      · rw [if_neg hff] at hins
        cases hge : nd.ents.get? (nodeLookupLE nd k) with
        | none => simp only [hge] at hins; exact Option.noConfusion hins
        | some e =>
          simp only [hge] at hins
          by_cases hek : e.key = k
          · rw [if_pos hek] at hins
            simp only [Option.some_inj, Prod.mk.injEq] at hins
            obtain ⟨-, -, htr⟩ := hins
            rw [← htr]
            intro p hp
            exact absurd hp (List.not_mem_nil _)
          · rw [if_neg hek] at hins
            simp only [Option.some_inj, Prod.mk.injEq] at hins
            obtain ⟨-, -, htr⟩ := hins
            rw [← htr]
            intro p hp
            exact absurd hp (List.not_mem_nil _)
    | internal =>
      simp only [hbt] at hins
      cases hge : nd.ents.get? (nodeLookupLE nd k) with
      | none => simp only [hge] at hins; exact Option.noConfusion hins
      | some e =>
        simp only [hge] at hins
        cases hgp : getPage st e.ptr with
        | none =>
          simp only [hgp] at hins
          simp only [Option.some_inj, Prod.mk.injEq] at hins
          obtain ⟨-, -, htr⟩ := hins
          rw [← htr]
          intro p hp
          simp only [List.mem_singleton] at hp
          injection hp with h2
          subst h2
          exact Or.inl hgp
        | some kid =>
          simp only [hgp] at hins
          cases hrec : treeInsert fuel cfg st kid k v with
          | none => simp only [hrec] at hins; exact Option.noConfusion hins
          | some trip =>
            obtain ⟨knode, st1, tr1⟩ := trip
            simp only [hrec] at hins
            cases hsp : nodeSplit3 knode cfg with
            | none => simp only [hsp] at hins; exact Option.noConfusion hins
            | some pieces =>
              simp only [hsp] at hins
              cases hak : allocKids st1 pieces with
              | none =>
                simp only [hsp, hak] at hins
                exact Option.noConfusion hins
              | some trip2 =>
                obtain ⟨mids, ids, st2x⟩ := trip2
                simp only [hsp, hak] at hins
                simp only [Option.some_inj, Prod.mk.injEq] at hins
                obtain ⟨-, -, htr⟩ := hins
                rw [← htr]
                intro p hp
                rcases List.mem_cons.mp hp with h2 | h2
                · injection h2 with h3
                  subst h3
                  exact Or.inr (List.mem_cons_of_mem _
                    (List.mem_append_right _ (List.mem_cons_self _ _)))
                rcases List.mem_append.mp h2 with h3 | h3
                · rcases ih cfg st kid k v knode st1 tr1 hrec p h3 with
                    h4 | h4
                  · exact Or.inl h4
                  · exact Or.inr (List.mem_cons_of_mem _
                      (List.mem_append_left _ h4))
                rcases List.mem_cons.mp h3 with h4 | h4
                · exact Ev.noConfusion h4
                · obtain ⟨q, -, hq⟩ := List.mem_map.mp h4
                  exact Ev.noConfusion hq

/-- A completed `Insert` on a nonempty tree frees the old root, allocates
the new root, frees every existing page it read along the changed path, and
its whole trace obeys the read-before-free / allocate-after-free scan
discipline. -/
theorem insertT_covOK {fuel : Nat} {cfg : Config} {st : St} {root : Nat}
    {k v : List Nat} {root2 : Nat} {st2 : St} {tr : List Ev}
    (hr : root ≠ 0)
    (hins : insertT fuel cfg st root k v = some (root2, st2, tr)) :
    Ev.del root ∈ tr ∧ Ev.new root2 ∈ tr ∧
      (∀ p, Ev.get p ∈ tr → getPage st p = none ∨ Ev.del p ∈ tr) ∧
      covOK [] tr := by
  unfold insertT at hins
  rw [if_neg hr] at hins
  cases hgp : getPage st root with
  | none =>
    simp only [hgp] at hins
    obtain ⟨suffix, htr, hnew, hall⟩ := insertFinish_trace hins
    subst htr
    refine ⟨List.mem_append_right _ (List.mem_cons_self _ _),
      List.mem_append_right _ (List.mem_cons_of_mem _ hnew), ?_, ?_⟩
    · intro p hp
      rcases List.mem_append.mp hp with h2 | h2
      · simp only [List.mem_singleton] at h2
        injection h2 with h3
        subst h3
        exact Or.inl hgp
      · rcases List.mem_cons.mp h2 with h3 | h3
        · exact Ev.noConfusion h3
        · obtain ⟨q, hq⟩ := hall _ h3
          exact Ev.noConfusion hq
    · show covOK [root] (Ev.del root :: suffix)
      exact ⟨List.mem_singleton.mpr rfl, ⟨root2, hnew⟩,
        covOK_all_new suffix [root] hall⟩
  | some rootNode =>
    simp only [hgp] at hins
    cases hrec : treeInsert fuel cfg st rootNode k v with
    | none => simp only [hrec] at hins; exact Option.noConfusion hins
    | some trip =>
      obtain ⟨nd1, st1, tr1⟩ := trip
      simp only [hrec] at hins
      obtain ⟨suffix, htr, hnew, hall⟩ := insertFinish_trace hins
      subst htr
      refine ⟨List.mem_append_right _ (List.mem_cons_self _ _),
        List.mem_append_right _ (List.mem_cons_of_mem _ hnew), ?_, ?_⟩
      · intro p hp
        rcases List.mem_append.mp hp with h2 | h2
        · rcases List.mem_cons.mp h2 with h3 | h3
          · injection h3 with h4
            subst h4
            exact Or.inr
              (List.mem_append_right _ (List.mem_cons_self _ _))
          · rcases treeInsert_get_del fuel cfg st rootNode k v nd1 st1 tr1
                hrec p h3 with h4 | h4
            · exact Or.inl h4
            · exact Or.inr
                (List.mem_append_left _ (List.mem_cons_of_mem _ h4))
        · rcases List.mem_cons.mp h2 with h3 | h3
          · exact Ev.noConfusion h3
          · obtain ⟨q, hq⟩ := hall _ h3
            exact Ev.noConfusion hq
      · show covOK [root] (tr1 ++ Ev.del root :: suffix)
        refine covOK_append tr1 [root]
          (treeInsert_covOK fuel cfg st rootNode k v nd1 st1 tr1 [root] hrec)
          ?_
        exact ⟨List.mem_append_right _ (List.mem_cons_self _ _),
          ⟨root2, hnew⟩, covOK_all_new suffix _ hall⟩

theorem shouldMergeRight_no_del {cfg : Config} {st : St} {nd : BNode}
    {idx : Nat} {up : BNode} {tr0 : List Ev}
    {r : Option (Bool × BNode)} {tr : List Ev}
    (hsm : shouldMergeRight cfg st nd idx up tr0 = some (r, tr)) (p : Nat)
    (hp : Ev.del p ∉ tr0) : Ev.del p ∉ tr := by
  unfold shouldMergeRight at hsm
  by_cases h1 : idx + 1 < nd.ents.length
  · rw [if_pos h1] at hsm
    cases hge : nd.ents.get? (idx + 1) with
    | none => simp only [hge] at hsm; exact Option.noConfusion hsm
    | some e =>
      simp only [hge] at hsm
      cases hgp : getPage st e.ptr with
      | none => simp only [hgp] at hsm; exact Option.noConfusion hsm
      | some sib =>
        simp only [hgp] at hsm
        by_cases ht : sib.nbytes + up.nbytes - 4 ≤ cfg.pageSize
        · rw [if_pos ht] at hsm
          simp only [Option.some_inj, Prod.mk.injEq] at hsm
          obtain ⟨-, htr⟩ := hsm
          rw [← htr]
          intro hmem
          rcases List.mem_append.mp hmem with h2 | h2
          · exact hp h2
          · simp at h2
        · rw [if_neg ht] at hsm
          simp only [Option.some_inj, Prod.mk.injEq] at hsm
          obtain ⟨-, htr⟩ := hsm
          rw [← htr]
          intro hmem
          rcases List.mem_append.mp hmem with h2 | h2
          · exact hp h2
          · simp at h2
  · rw [if_neg h1] at hsm
    simp only [Option.some_inj, Prod.mk.injEq] at hsm
    obtain ⟨-, htr⟩ := hsm
    rw [← htr]
    exact hp

/-- `shouldMerge` only reads pages: its trace contains no `Del`. -/
theorem shouldMergeT_no_del {cfg : Config} {st : St} {nd : BNode} {idx : Nat}
    {up : BNode} {r : Option (Bool × BNode)} {tr : List Ev}
    (hsm : shouldMergeT cfg st nd idx up = some (r, tr)) (p : Nat) :
    Ev.del p ∉ tr := by
  unfold shouldMergeT at hsm
  by_cases h1 : cfg.pageSize / 4 < up.nbytes
  · rw [if_pos h1] at hsm
    simp only [Option.some_inj, Prod.mk.injEq] at hsm
    obtain ⟨-, htr⟩ := hsm
    rw [← htr]
    simp
  · rw [if_neg h1] at hsm
    by_cases h2 : 0 < idx
    · rw [if_pos h2] at hsm
      cases hge : nd.ents.get? (idx - 1) with
      | none => simp only [hge] at hsm; exact Option.noConfusion hsm
      | some e =>
        simp only [hge] at hsm
        cases hgp : getPage st e.ptr with
        | none => simp only [hgp] at hsm; exact Option.noConfusion hsm
        | some sib =>
          simp only [hgp] at hsm
          by_cases ht : sib.nbytes + up.nbytes - 4 ≤ cfg.pageSize
          · rw [if_pos ht] at hsm
            simp only [Option.some_inj, Prod.mk.injEq] at hsm
            obtain ⟨-, htr⟩ := hsm
            rw [← htr]
            simp
          · rw [if_neg ht] at hsm
            exact shouldMergeRight_no_del hsm p (by simp)
    · rw [if_neg h2] at hsm
      exact shouldMergeRight_no_del hsm p (List.not_mem_nil _)

/-- During a completed `treeDelete`, the only pages freed are children of
pages stored in `st`: if no stored page has an entry pointing at `r0`, then
`r0` is never freed. -/
theorem treeDelete_dels (fuel : Nat) : ∀ (cfg : Config) (st : St)
    (nd : BNode) (k : List Nat) (res : Option BNode) (st2 : St)
    (tr : List Ev) (r0 : Nat),
    (∀ e ∈ nd.ents, e.ptr ≠ r0) →
    (∀ (id : Nat) (nd2 : BNode) (e : Entry), getPage st id = some nd2 →
      e ∈ nd2.ents → e.ptr ≠ r0) →
    treeDelete fuel cfg st nd k = some (res, st2, tr) →
    Ev.del r0 ∉ tr := by
  induction fuel with
  | zero =>
    intro cfg st nd k res st2 tr r0 hnd hst hdel
    exact Option.noConfusion hdel
  | succ fuel ih =>
    intro cfg st nd k res st2 tr r0 hnd hst hdel
    unfold treeDelete at hdel
    cases hbt : nd.btype with
    | leaf =>
      simp only [hbt] at hdel
      by_cases hlt : nodeLookupLE nd k < nd.ents.length
      · rw [if_pos hlt] at hdel
        cases hge : nd.ents.get? (nodeLookupLE nd k) with
        | none => simp only [hge] at hdel; exact Option.noConfusion hdel
        | some e =>
          simp only [hge] at hdel
          by_cases hek : e.key = k
          · rw [if_pos hek] at hdel
            simp only [Option.some_inj, Prod.mk.injEq] at hdel
            obtain ⟨-, -, htr⟩ := hdel
            rw [← htr]
            simp
          · rw [if_neg hek] at hdel
            simp only [Option.some_inj, Prod.mk.injEq] at hdel
            obtain ⟨-, -, htr⟩ := hdel
            rw [← htr]
            simp
      · rw [if_neg hlt] at hdel
        simp only [Option.some_inj, Prod.mk.injEq] at hdel
        obtain ⟨-, -, htr⟩ := hdel
        rw [← htr]
        simp
    | internal =>
      simp only [hbt] at hdel
      unfold nodeDelete at hdel
      cases hge : nd.ents.get? (nodeLookupLE nd k) with
      | none => simp only [hge] at hdel; exact Option.noConfusion hdel
      | some e =>
        simp only [hge] at hdel
        cases hgp : getPage st e.ptr with
        | none => simp only [hgp] at hdel; exact Option.noConfusion hdel
        | some kid =>
          simp only [hgp] at hdel
          cases hrec : treeDelete fuel cfg st kid k with
          | none => simp only [hrec] at hdel; exact Option.noConfusion hdel
          | some trip =>
            obtain ⟨resk, st1, tr1⟩ := trip
            have hkid : ∀ e2 ∈ kid.ents, e2.ptr ≠ r0 :=
              fun e2 he2 => hst e.ptr kid e2 hgp he2
            have htr1 : Ev.del r0 ∉ tr1 :=
              ih cfg st kid k resk st1 tr1 r0 hkid hst hrec
            have heptr : e.ptr ≠ r0 := hnd e (List.get?_mem hge)
            cases resk with
            | none =>
              simp only [hrec] at hdel
              simp only [Option.some_inj, Prod.mk.injEq] at hdel
              obtain ⟨-, -, htr⟩ := hdel
              rw [← htr]
              intro hmem
              rcases List.mem_cons.mp hmem with h2 | h2
              · exact Ev.noConfusion h2
              · exact htr1 h2
            | some updated =>
              simp only [hrec] at hdel
              cases hsm : shouldMergeT cfg st1 nd (nodeLookupLE nd k)
                  updated with
              | none => simp only [hsm] at hdel; exact Option.noConfusion hdel
              | some pr =>
                obtain ⟨mres, smtr⟩ := pr
                simp only [hsm] at hdel
                have hsmtr : Ev.del r0 ∉ smtr := shouldMergeT_no_del hsm r0
                have hblock : Ev.del r0 ∉
                    Ev.get e.ptr :: tr1 ++ Ev.del e.ptr :: smtr := by
                  intro hmem
                  rcases List.mem_cons.mp hmem with h2 | h2
                  · exact Ev.noConfusion h2
                  rcases List.mem_append.mp h2 with h3 | h3
                  · exact htr1 h3
                  rcases List.mem_cons.mp h3 with h4 | h4
                  · injection h4 with h5
                    exact heptr h5.symm
                  · exact hsmtr h4
                cases mres with
                | some ds =>
                  obtain ⟨dir, sib⟩ := ds
                  rw [nodeDeleteMerge_merge_none] at hdel
                  exact Option.noConfusion hdel
                | none =>
                  unfold nodeDeleteMerge at hdel
                  by_cases hue : updated.ents.length = 0
                  · rw [if_pos hue] at hdel
                    by_cases hcond :
                        (nd.ents.length = 1 && nodeLookupLE nd k = 0) = true
                    · rw [if_pos hcond] at hdel
                      simp only [Option.some_inj, Prod.mk.injEq] at hdel
                      obtain ⟨-, -, htr⟩ := hdel
                      rw [← htr]
                      exact hblock
                    · rw [if_neg hcond] at hdel
                      exact Option.noConfusion hdel
                  · rw [if_neg hue] at hdel
                    cases hu0 : updated.ents.get? 0 with
                    | none =>
                      simp only [hu0] at hdel
                      exact Option.noConfusion hdel
                    | some u0 =>
                      simp only [hu0] at hdel
                      simp only [Option.some_inj, Prod.mk.injEq] at hdel
                      obtain ⟨-, -, htr⟩ := hdel
                      rw [← htr]
                      intro hmem
                      rcases List.mem_append.mp hmem with h2 | h2
                      · exact hblock h2
                      · simp at h2

/-- A completed `Delete` never frees the root page, provided no stored page
has a child entry pointing back at the root identifier; and it either
leaves the root identifier unchanged or allocates the replacement root. -/
theorem deleteT_no_del_root {fuel : Nat} {cfg : Config} {st : St}
    {root : Nat} {k : List Nat} {root2 : Nat} {st2 : St} {tr : List Ev}
    (hst : ∀ (id : Nat) (nd : BNode) (e : Entry), getPage st id = some nd →
      e ∈ nd.ents → e.ptr ≠ root)
    (hdel : deleteT fuel cfg st root k = some (root2, st2, tr)) :
    Ev.del root ∉ tr ∧ (root2 = root ∨ Ev.new root2 ∈ tr) := by
  unfold deleteT at hdel
  by_cases hz : root = 0
  · rw [if_pos hz] at hdel
    simp only [Option.some_inj, Prod.mk.injEq] at hdel
    obtain ⟨hr, -, htr⟩ := hdel
    refine ⟨?_, Or.inl hr.symm⟩
    rw [← htr]
    simp
  · rw [if_neg hz] at hdel
    cases hgp : getPage st root with
    | none => simp only [hgp] at hdel; exact Option.noConfusion hdel
    | some nd =>
      simp only [hgp] at hdel
      cases hrec : treeDelete fuel cfg st nd k with
      | none => simp only [hrec] at hdel; exact Option.noConfusion hdel
      | some trip =>
        obtain ⟨res, st1, tr1⟩ := trip
        have hnd : ∀ e ∈ nd.ents, e.ptr ≠ root :=
          fun e he => hst root nd e hgp he
        have htr1 : Ev.del root ∉ tr1 :=
          treeDelete_dels fuel cfg st nd k res st1 tr1 root hnd hst hrec
        cases res with
        | none =>
          simp only [hrec] at hdel
          simp only [Option.some_inj, Prod.mk.injEq] at hdel
          obtain ⟨hr, -, htr⟩ := hdel
          refine ⟨?_, Or.inl hr.symm⟩
          rw [← htr]
          intro hmem
          rcases List.mem_cons.mp hmem with h2 | h2
          · exact Ev.noConfusion h2
          · exact htr1 h2
        | some nd2 =>
          simp only [hrec] at hdel
          simp only [Option.some_inj, Prod.mk.injEq] at hdel
          obtain ⟨hr, -, htr⟩ := hdel
          refine ⟨?_, Or.inr ?_⟩
          · rw [← htr]
            intro hmem
            rcases List.mem_cons.mp hmem with h2 | h2
            · exact Ev.noConfusion h2
            rcases List.mem_append.mp h2 with h3 | h3
            · exact htr1 h3
            · simp at h3
          · rw [← htr, ← hr]
            exact List.mem_cons_of_mem _
              (List.mem_append_right _ (by simp))

/-- C4 (amended): the copy-on-write discipline the code actually follows.
A completed `Insert` on a nonempty tree frees every replaced page including
the old root (every existing page it reads along the changed path is later
freed), allocates the new pages of the changed path including the new root,
and every freed page was READ earlier in the callback trace with
replacement pages allocated AFTER the free (`tree.Del` precedes the
`tree.New` calls — the opposite order to the one the claim states).
`Delete`, however, never frees the old root page at all: it allocates the
replacement root (or leaves the root identifier unchanged on a no-op)
while the old root page is left in place, so the "including the old root"
part of the claim fails for `Delete` (`C4_counterexample`); the
no-back-reference hypothesis rules out stores where some page's child
entry aliases the root identifier. -/
theorem C4_copy_on_write :
    (∀ (fuel : Nat) (cfg : Config) (st : St) (root : Nat) (k v : List Nat)
        (root2 : Nat) (st2 : St) (tr : List Ev), root ≠ 0 →
      insertT fuel cfg st root k v = some (root2, st2, tr) →
      Ev.del root ∈ tr ∧ Ev.new root2 ∈ tr ∧
        (∀ p, Ev.get p ∈ tr → getPage st p = none ∨ Ev.del p ∈ tr) ∧
        covOK [] tr)
    ∧ (∀ (fuel : Nat) (cfg : Config) (st : St) (root : Nat) (k : List Nat)
        (root2 : Nat) (st2 : St) (tr : List Ev),
      (∀ (id : Nat) (nd : BNode) (e : Entry), getPage st id = some nd →
        e ∈ nd.ents → e.ptr ≠ root) →
      deleteT fuel cfg st root k = some (root2, st2, tr) →
      Ev.del root ∉ tr ∧ (root2 = root ∨ Ev.new root2 ∈ tr)) :=
  ⟨fun _ _ _ _ _ _ _ _ _ hr hins => insertT_covOK hr hins,
   fun _ _ _ _ _ _ _ _ hst hdel => deleteT_no_del_root hst hdel⟩

/-- C4, witness: inserting `[98]` into the one-page tree reads the old root
page 1, frees it, and then allocates its replacement, page 2 — the new
root; page 1 is the only existing page read, and it is freed. -/
theorem C4_witness :
    Ev.del 1 ∈ [Ev.get 1, Ev.del 1, Ev.new 2] ∧
      Ev.new 2 ∈ [Ev.get 1, Ev.del 1, Ev.new 2] ∧
      (∀ p, Ev.get p ∈ [Ev.get 1, Ev.del 1, Ev.new 2] →
        getPage (⟨[(1, ⟨.leaf, [⟨0, [], []⟩, ⟨0, [97], [1]⟩]⟩)], 2⟩ : St) p =
          none ∨ Ev.del p ∈ [Ev.get 1, Ev.del 1, Ev.new 2]) ∧
      covOK [] [Ev.get 1, Ev.del 1, Ev.new 2] :=
  C4_copy_on_write.1 9 DefaultConfig
    ⟨[(1, ⟨.leaf, [⟨0, [], []⟩, ⟨0, [97], [1]⟩]⟩)], 2⟩ 1 [98] [2] 2
    ⟨[(2, ⟨.leaf, [⟨0, [], []⟩, ⟨0, [97], [1]⟩, ⟨0, [98], [2]⟩]⟩),
      (1, ⟨.leaf, [⟨0, [], []⟩, ⟨0, [97], [1]⟩]⟩)], 3⟩
    [Ev.get 1, Ev.del 1, Ev.new 2] (by decide) rfl

end BTreeSpec
